import Mathlib

/-!
Verification of the schema-stitching core of `graphql-tools-fork`.

The development shallowly embeds the healing pass
(`src/generate/checkForResolveTypeResolver.ts`, functions `healTypes`,
`healType`, `pruneTypes`), the transform pipeline
(`src/transforms/transforms.ts`), the result reconciler
(`src/stitching/checkResultAndHandleErrors.ts`), the type-conflict
resolution loop of `mergeSchemas`, and the visitor-selection machinery of
`visitSchema` (`getTypeSpecifiers` / `getVisitor`) together with the
`RenameTypes` transform.

JavaScript objects are modelled as association lists in insertion order
(assignment to an existing key keeps its position, a fresh key is appended,
deletion removes the pair); named GraphQL type objects carry an identity
(`TypeId`) into an explicit store so that in-place mutation and reference
canonicalisation are captured faithfully.
-/

namespace GraphQLTools

/-- Identity of a GraphQL named type object (JS object identity). -/
abbrev TypeId := Nat

/-- A type annotation: a named type object possibly wrapped in
`GraphQLList` / `GraphQLNonNull` wrappers. -/
inductive TypeRef where
  | named (id : TypeId)
  | listOf (inner : TypeRef)
  | nonNull (inner : TypeRef)
deriving Repr, DecidableEq

/-- An argument definition (`GraphQLArgument`): carries a mutable type
reference. -/
structure ArgDef where
  name : String
  type : TypeRef
deriving Repr, DecidableEq

/-- A field definition: argument list and a result type reference. -/
structure FieldDef where
  args : List ArgDef
  type : TypeRef
deriving Repr, DecidableEq

/-- The definition payload of a named type, by kind: object types carry
fields and an interface list, interfaces carry fields, unions carry member
types, input objects carry typed input fields; scalars and enums carry no
type references. -/
inductive TypeDef where
  | object (fields : List (String × FieldDef)) (interfaces : List TypeRef)
  | iface (fields : List (String × FieldDef))
  | union (members : List TypeRef)
  | inputObject (fields : List (String × TypeRef))
  | scalar
  | enum
deriving Repr, DecidableEq

/-- A named type object: its current `.name`, whether it is a stub
placeholder (the `isStub` marker of `utils/stub.ts`, modelled from the
spec), and its definition. -/
structure TypeObj where
  name : String
  stub : Bool
  defn : TypeDef
deriving Repr, DecidableEq

/-- The object store: `TypeId`s index into it.  Mutating a type in place
(as `healTypes` does to fields, arguments, interface lists and union
member lists) is an update of the indexed entry. -/
abbrev Store := List TypeObj

/-- Default object used for out-of-range ids (never hit on well-formed
inputs). -/
def defaultObj : TypeObj := { name := "", stub := false, defn := TypeDef.scalar }

/-- Fetch a type object by identity. -/
def getObj (σ : Store) (i : TypeId) : TypeObj := σ.getD i defaultObj

/-- Replace the definition of the object `i`, keeping name and stub marker
(healing never renames). -/
def setDef (σ : Store) (i : TypeId) (d : TypeDef) : Store :=
  σ.set i { getObj σ i with defn := d }

/-- A type map: a JS object keyed by type name.  A `none` value is an
entry explicitly set to `null` (as `visitSchema` does for deleted types);
an absent key is `undefined`. -/
abbrev TypeMap := List (String × Option TypeId)

/-- `obj[k]`: distinguishes `undefined` (absent, `none`) from a `null`
entry (`some none`). -/
def lookupTM : TypeMap → String → Option (Option TypeId)
  | [], _ => none
  | (k, v) :: rest, n => if k = n then some v else lookupTM rest n

/-- `obj[k] = v`: updates in place when the key exists, appends otherwise
(JS property insertion order). -/
def setTM : TypeMap → String → Option TypeId → TypeMap
  | [], n, v => [(n, v)]
  | (k, w) :: rest, n, v =>
    if k = n then (n, v) :: rest else (k, w) :: setTM rest n v

/-- A directive declaration: its argument list is healed like field
arguments. -/
structure DirectiveDef where
  name : String
  args : List ArgDef
deriving Repr, DecidableEq

/-- The mutable state threaded through `healTypes`: the object store, the
type map and the directive list. -/
structure HState where
  σ : Store
  M : TypeMap
  D : List DirectiveDef
deriving Repr, DecidableEq

/-- Errors: the `Duplicate schema type name` construction error thrown by
`healTypes`, and exhaustion of the recursion fuel (the JS original
recurses unboundedly through `pruneTypes`). -/
inductive HealError where
  | duplicate (name : String)
  | outOfFuel
deriving Repr, DecidableEq

/-- Decidable equality of `Except` results (for evaluating the healer on
concrete inputs). -/
instance exceptDecEq {ε α : Type} [DecidableEq ε] [DecidableEq α] :
    DecidableEq (Except ε α)
  | .ok a, .ok b =>
    if h : a = b then isTrue (by rw [h])
    else isFalse (fun hc => by cases hc; exact h rfl)
  | .error a, .error b =>
    if h : a = b then isTrue (by rw [h])
    else isFalse (fun hc => by cases hc; exact h rfl)
  | .ok _, .error _ => isFalse (fun hc => by cases hc)
  | .error _, .ok _ => isFalse (fun hc => by cases hc)

/-- `name.startsWith('__')`: the two-character introspection/meta prefix
test, over the string's character data (kernel-reducible). -/
def startsWithDunder (s : String) : Bool :=
  match s.data with
  | c1 :: c2 :: _ => c1 = '_' && c2 = '_'
  | _ => false

/-- Lookup in the `actualNamedTypeMap` (built with `Object.create(null)`,
keyed by current type names). -/
def lookupA : List (String × TypeId) → String → Option TypeId
  | [], _ => none
  | (k, v) :: rest, n => if k = n then some v else lookupA rest n

/-- `hasOwn.call(actualNamedTypeMap, name)`. -/
def hasKeyA (a : List (String × TypeId)) (n : String) : Bool :=
  (lookupA a n).isSome

/-- First phase of `healTypes`: build the actual-name map from each
non-null entry whose key and current name do not start with `__`, throwing
`Duplicate schema type name` when a second entry resolves to an
already-recorded actual name. -/
def buildActual (σ : Store) : TypeMap → List (String × TypeId) →
    Except HealError (List (String × TypeId))
  | [], acc => .ok acc
  | (k, v) :: rest, acc =>
    match v with
    | none => buildActual σ rest acc
    | some i =>
      if startsWithDunder k then buildActual σ rest acc
      else
        let n := (getObj σ i).name
        if startsWithDunder n then buildActual σ rest acc
        else if hasKeyA acc n then .error (.duplicate n)
        else buildActual σ rest (acc ++ [(n, i)])

/-- Second phase: add back every named type by its actual name. -/
def readdActual (M : TypeMap) (actual : List (String × TypeId)) : TypeMap :=
  actual.foldl (fun m p => setTM m p.1 (some p.2)) M

/-- `healType`: unwrap the two wrapper kinds, then replace a named
reference by the canonical instance under its current name.  A `null` map
entry yields `null` (the reference is dropped by the caller); an absent
name registers the referenced type itself — or, for a stub placeholder,
the built-in type it stands for (`getBuiltInForStub`, modelled from the
spec as the map `builtinFor`) — in the type map. -/
def healType (σ : Store) (builtinFor : TypeId → TypeId) :
    TypeRef → TypeMap → TypeMap × Option TypeRef
  | .listOf t, M =>
    let (M', h) := healType σ builtinFor t M
    (M', h.map TypeRef.listOf)
  | .nonNull t, M =>
    let (M', h) := healType σ builtinFor t M
    (M', h.map TypeRef.nonNull)
  | .named i, M =>
    let n := (getObj σ i).name
    match lookupTM M n with
    | some (some j) => (M, some (.named j))
    | some none => (M, none)
    | none =>
      let official := if (getObj σ i).stub then builtinFor i else i
      (setTM M n (some official), some (.named official))

/-- Heal an argument list: each argument's type is healed in place and the
argument is removed when its healed type is `null`. -/
def healArgs (σ : Store) (builtinFor : TypeId → TypeId) :
    List ArgDef → TypeMap → TypeMap × List ArgDef
  | [], M => (M, [])
  | a :: rest, M =>
    let (M', h) := healType σ builtinFor a.type M
    let (M'', rest') := healArgs σ builtinFor rest M'
    match h with
    | none => (M'', rest')
    | some t => (M'', { a with type := t } :: rest')

/-- Heal a field map (`healFields`): arguments first, then the field's
own type; the field is removed when its healed type is `null`. -/
def healFieldList (σ : Store) (builtinFor : TypeId → TypeId) :
    List (String × FieldDef) → TypeMap → TypeMap × List (String × FieldDef)
  | [], M => (M, [])
  | (fname, fd) :: rest, M =>
    let (M₁, args') := healArgs σ builtinFor fd.args M
    let (M₂, h) := healType σ builtinFor fd.type M₁
    let (M₃, rest') := healFieldList σ builtinFor rest M₂
    match h with
    | none => (M₃, rest')
    | some t => (M₃, (fname, { args := args', type := t }) :: rest')

/-- Heal a list of type references (interface lists and union member
lists); `null` results are dropped. -/
def healRefList (σ : Store) (builtinFor : TypeId → TypeId) :
    List TypeRef → TypeMap → TypeMap × List TypeRef
  | [], M => (M, [])
  | r :: rest, M =>
    let (M', h) := healType σ builtinFor r M
    let (M'', rest') := healRefList σ builtinFor rest M'
    match h with
    | none => (M'', rest')
    | some t => (M'', t :: rest')

/-- Heal input object fields; a field whose healed type is `null` is
removed. -/
def healInputFieldList (σ : Store) (builtinFor : TypeId → TypeId) :
    List (String × TypeRef) → TypeMap → TypeMap × List (String × TypeRef)
  | [], M => (M, [])
  | (fname, r) :: rest, M =>
    let (M', h) := healType σ builtinFor r M
    let (M'', rest') := healInputFieldList σ builtinFor rest M'
    match h with
    | none => (M'', rest')
    | some t => (M'', (fname, t) :: rest')

/-- `heal(type)`: dispatch on the kind of the named type.  Scalars and
enums need no work (the JS fall-through arm is always taken for them). -/
def healDef (σ : Store) (builtinFor : TypeId → TypeId) :
    TypeDef → TypeMap → TypeMap × TypeDef
  | .object fields interfaces, M =>
    let (M₁, fields') := healFieldList σ builtinFor fields M
    let (M₂, interfaces') := healRefList σ builtinFor interfaces M₁
    (M₂, .object fields' interfaces')
  | .iface fields, M =>
    let (M₁, fields') := healFieldList σ builtinFor fields M
    (M₁, .iface fields')
  | .union members, M =>
    let (M₁, members') := healRefList σ builtinFor members M
    (M₁, .union members')
  | .inputObject fields, M =>
    let (M₁, fields') := healInputFieldList σ builtinFor fields M
    (M₁, .inputObject fields')
  | .scalar, M => (M, .scalar)
  | .enum, M => (M, .enum)

/-- Heal the directive declarations' argument types. -/
def healDirectives (σ : Store) (builtinFor : TypeId → TypeId) :
    List DirectiveDef → TypeMap → TypeMap × List DirectiveDef
  | [], M => (M, [])
  | d :: rest, M =>
    let (M₁, args') := healArgs σ builtinFor d.args M
    let (M₂, rest') := healDirectives σ builtinFor rest M₁
    (M₂, { d with args := args' } :: rest')

/-- The heal loop: iterate over a snapshot of the type map's keys, healing
every named type whose key does not start with `__` and is recorded in the
actual-name map (dangling aliases are kept only to redirect). -/
def healLoop (builtinFor : TypeId → TypeId) (actual : List (String × TypeId)) :
    List String → Store → TypeMap → Store × TypeMap
  | [], σ, M => (σ, M)
  | k :: ks, σ, M =>
    if ¬ startsWithDunder k ∧ hasKeyA actual k then
      match lookupTM M k with
      | some (some i) =>
        let (M', d') := healDef σ builtinFor (getObj σ i).defn M
        healLoop builtinFor actual ks (setDef σ i d') M'
      | _ => healLoop builtinFor actual ks σ M
    else healLoop builtinFor actual ks σ M

/-- The dangling-reference sweep: remove every map entry whose key does
not start with `__` and is not an actual name, so that
`schema.getType(name).name === name` holds for the remaining names. -/
def sweepTM (actual : List (String × TypeId)) (M : TypeMap) : TypeMap :=
  M.filter (fun kv => startsWithDunder kv.1 || hasKeyA actual kv.1)

/-- One full (pruning-free) `healTypes` pass: actual-name map and
duplicate check, re-keying, directive healing, the heal loop over a key
snapshot, and the dangling sweep. -/
def healPass (builtinFor : TypeId → TypeId) (s : HState) :
    Except HealError HState := do
  let actual ← buildActual s.σ s.M []
  let M₂ := readdActual s.M actual
  let (M₃, D') := healDirectives s.σ builtinFor s.D M₂
  let keys := M₃.map Prod.fst
  let (σ₄, M₄) := healLoop builtinFor actual keys s.σ M₃
  pure { σ := σ₄, M := sweepTM actual M₄, D := D' }

/-- The interface names implemented by some object type of the map
(`implementedInterfaces` in `pruneTypes`). -/
def implementedIfaces (σ : Store) (M : TypeMap) : List String :=
  M.foldl
    (fun acc kv =>
      match kv.2 with
      | some i =>
        match (getObj σ i).defn with
        | .object _ interfaces =>
          acc ++ interfaces.filterMap
            (fun r => match r with
              | .named j => some (getObj σ j).name
              | _ => none)
        | _ => acc
      | none => acc)
    []

/-- One pruning sweep of `pruneTypes`: drop object types with no fields,
unions with no member types, and interfaces with no fields or no
implementing object type; report whether anything was removed. -/
def pruneStep (σ : Store) (M : TypeMap) : TypeMap × Bool :=
  let impl := implementedIfaces σ M
  let M' := M.filter
    (fun kv =>
      match kv.2 with
      | some i =>
        match (getObj σ i).defn with
        | .object fields _ => ¬ fields.isEmpty
        | .union members => ¬ members.isEmpty
        | .iface fields => ¬ fields.isEmpty ∧ impl.contains (getObj σ i).name
        | _ => true
      | none => true)
  (M', decide (M' ≠ M))

/-- `healTypes`: the full healing entry point.  Every pruning sweep that
removes anything triggers another complete heal-and-prune round (the JS
original recurses; `fuel` bounds the recursion depth and running out of it
models non-termination). -/
def healTypes (builtinFor : TypeId → TypeId) :
    Nat → HState → Bool → Except HealError HState
  | 0, _, _ => .error .outOfFuel
  | fuel + 1, s, skipPruning => do
    let s' ← healPass builtinFor s
    if skipPruning then pure s'
    else
      let (M'', changed) := pruneStep s'.σ s'.M
      if changed then healTypes builtinFor fuel { s' with M := M'' } false
      else pure { s' with M := M'' }

/-! ### Transform pipeline (`src/transforms/transforms.ts`) -/

/-- A transform: up to three independent capabilities. -/
structure Transform (S R Q : Type) where
  transformSchema : Option (S → S)
  transformRequest : Option (R → R)
  transformResult : Option (Q → Q)

/-- The reducer step of `applySchemaTransforms`: a transform lacking the
schema capability acts as the identity. -/
def schemaStep {S R Q : Type} (t : Transform S R Q) (schema : S) : S :=
  match t.transformSchema with
  | some f => f schema
  | none => schema

/-- The reducer step of `applyRequestTransforms`. -/
def requestStep {S R Q : Type} (t : Transform S R Q) (request : R) : R :=
  match t.transformRequest with
  | some f => f request
  | none => request

/-- The reducer step of `applyResultTransforms`. -/
def resultStep {S R Q : Type} (t : Transform S R Q) (result : Q) : Q :=
  match t.transformResult with
  | some f => f result
  | none => result

/-- `applySchemaTransforms`: `transforms.reduce(..., originalSchema)` — a
left fold. -/
def applySchemaTransforms {S R Q : Type} (originalSchema : S)
    (transforms : List (Transform S R Q)) : S :=
  transforms.foldl (fun schema t => schemaStep t schema) originalSchema

/-- `applyRequestTransforms`: also a left fold in the same order. -/
def applyRequestTransforms {S R Q : Type} (originalRequest : R)
    (transforms : List (Transform S R Q)) : R :=
  transforms.foldl (fun request t => requestStep t request) originalRequest

/-- `applyResultTransforms`: `transforms.reduceRight(..., originalResult)`
— a right fold, so the last transform's result operation runs first. -/
def applyResultTransforms {S R Q : Type} (originalResult : Q)
    (transforms : List (Transform S R Q)) : Q :=
  transforms.foldr (fun t result => resultStep t result) originalResult

/-! ### Result reconciler (`src/stitching/checkResultAndHandleErrors.ts`) -/

/-- A segment of a GraphQL response path: a response key or a list
index. -/
inductive PathSeg where
  | fieldSeg (s : String)
  | indexSeg (n : Nat)
deriving Repr, DecidableEq

/-- A GraphQL error: message, the AST nodes it is bound to (modelled by
identities) and an optional response path. -/
structure GError where
  message : String
  nodes : List Nat
  path : Option (List PathSeg)
deriving Repr, DecidableEq

/-- Modelled from the spec (`stitching/errors.ts` is not part of the
sources): `combineErrors` merges an error list into one error — a single
error is returned unchanged, several are combined into one whose message
joins all of theirs. -/
def combineErrors (errors : List GError) : GError :=
  match errors with
  | [e] => e
  | _ =>
    { message := String.intercalate "\n" (errors.map GError.message),
      nodes := [], path := none }

/-- Modelled from the spec (`stitching/errors.ts` is not part of the
sources): `relocatedError` rebinds an error to the given nodes and path,
keeping the original path when no new one is supplied. -/
def relocatedError (e : GError) (nodes : List Nat)
    (path : Option (List PathSeg)) : GError :=
  { message := e.message, nodes := nodes,
    path := match path with | some p => some p | none => e.path }

/-- The code's test `!error.path || error.path.length < 2`: the error's
path is too short to localise it below the current field. -/
def shortPath (e : GError) : Bool :=
  match e.path with
  | none => true
  | some p => p.length < 2

/-- Modelled from the spec (`stitching/errors.ts` is not part of the
sources): the errors `getErrorsByPathSegment` files under the segment
`seg` — those whose path has `seg` as its second element, each relocated
to its path with the first element sliced off. -/
def errorsForSegment (seg : PathSeg) (errors : List GError) : List GError :=
  errors.filterMap
    (fun e =>
      match e.path with
      | some (_ :: s :: rest) =>
        if s = seg then some (relocatedError e e.nodes (some (s :: rest)))
        else none
      | _ => none)

/-- The distinct second path segments of an error list, in first-seen
order (the keys of the record built by `getErrorsByPathSegment`). -/
def childSegments (errors : List GError) : List PathSeg :=
  (errors.filterMap
    (fun e =>
      match e.path with
      | some (_ :: s :: _) => some s
      | _ => none)).dedup

/-- The value `handleNull` rebuilds for a null result that carries
errors: a single combined error, a null, or a null-shaped substructure
with per-path errors. -/
inductive NullResult where
  | nullValue
  | errValue (e : GError)
  | objValue (entries : List (PathSeg × NullResult))
  | arrValue (entries : List (PathSeg × NullResult))
deriving Repr

/-- `handleNull`: with no errors, return `null`.  Otherwise: if some
error's path is missing or shorter than 2, combine all errors into a
single error relocated to the current field nodes and path; else rebuild
an object- or array-shaped substructure, recursing per second path
segment.  `fuel` bounds the recursion (it is structurally bounded by the
longest error path in the JS original). -/
def handleNull : Nat → List Nat → List PathSeg → List GError → NullResult
  | 0, _, _, _ => .nullValue
  | _ + 1, _, _, [] => .nullValue
  | fuel + 1, fieldNodes, path, e :: rest =>
    let errors := e :: rest
    if errors.any shortPath then
      .errValue (relocatedError (combineErrors errors) fieldNodes (some path))
    else if errors.any
        (fun err =>
          match err.path with
          | some (_ :: .fieldSeg _ :: _) => true
          | _ => false) then
      .objValue
        ((childSegments errors).map
          (fun seg =>
            (seg,
              handleNull fuel fieldNodes (path ++ [seg])
                (errorsForSegment seg errors))))
    else
      .arrValue
        ((childSegments errors).map
          (fun seg =>
            (seg,
              handleNull fuel fieldNodes (path ++ [seg])
                (errorsForSegment seg errors))))

/-! ### Heap model for `checkResultAndHandleErrors` (claim about
mutation effects).  JS objects that the reconciler can annotate in place
live in an explicit heap; arrays are plain values because the code maps
them into fresh arrays and never mutates them. -/

/-- A JS value as seen by the reconciler. -/
inductive JSValue where
  | vnull
  | vint (n : Int)
  | vstr (s : String)
  | vbool (b : Bool)
  | vref (a : Nat)
  | varr (items : List JSValue)
deriving Repr

/-- Whether a value is `null`/`undefined` (the `result == null` test). -/
def isNullish : JSValue → Bool
  | .vnull => true
  | _ => false

/-- A heap object: ordinary enumerable properties plus the two hidden
symbol-keyed annotations (`ERROR_SYMBOL`, `OBJECT_SUBSCHEMA_SYMBOL`). -/
structure HeapObj where
  props : List (String × JSValue)
  errAnn : Option (List GError)
  subAnn : Option Nat
deriving Repr

abbrev Heap := List HeapObj

/-- Default heap object for out-of-range references. -/
def defaultHeapObj : HeapObj := { props := [], errAnn := none, subAnn := none }

/-- Read a heap object. -/
def getHeapObj (h : Heap) (a : Nat) : HeapObj := h.getD a defaultHeapObj

/-- `setErrors(object, errors)`: attach the hidden error annotation. -/
def setErrorsAnn (h : Heap) (a : Nat) (errs : List GError) : Heap :=
  h.set a { getHeapObj h a with errAnn := some errs }

/-- `setObjectSubschema(object, subschema)`: attach the hidden subschema
annotation. -/
def setSubschemaAnn (h : Heap) (a : Nat) (sub : Nat) : Heap :=
  h.set a { getHeapObj h a with subAnn := some sub }

/-- The static return type of the delegated field, after the graphql
wrappers relevant to the reconciler's dispatch. -/
inductive RetType where
  | leafType (parserId : Nat)
  | compositeType
  | listType (ofType : RetType)
  | nonNullType (ofType : RetType)
deriving Repr, DecidableEq

/-- `getNullableType`: strip a non-null wrapper. -/
def getNullableType : RetType → RetType
  | .nonNullType t => t
  | t => t

/-- The resolver info the reconciler consults: field nodes, response
path, and whether `info.mergeInfo` is present. -/
structure ResolveInfo where
  fieldNodes : List Nat
  path : List PathSeg
  hasMergeInfo : Bool
deriving Repr, DecidableEq

/-- What the reconciler hands back for one value; `undef` is the JS
`undefined` fall-through of `handleResult`'s dispatch. -/
inductive Ret where
  | fromNull (r : NullResult)
  | value (v : JSValue)
  | mergeDelegated (a : Nat)
  | undef
deriving Repr

/-- `handleObject` (up to the merge hand-off): relocate the errors one
path level down and stash them, together with the originating subschema,
as hidden annotations on the object; hand composite values over to the
type-merging coordinator (`mergeFields`, outside these sources) unless
merging is skipped or there is no merge metadata. -/
def handleObject (h : Heap) (v : JSValue) (errors : List GError)
    (subschema : Nat) (info : ResolveInfo) (skipTypeMerging : Bool) :
    Heap × Ret :=
  match v with
  | .vref a =>
    let h₁ := setErrorsAnn h a
      (errors.map (fun e =>
        relocatedError e e.nodes
          (match e.path with
           | some p => some (p.drop 1)
           | none => none)))
    let h₂ := setSubschemaAnn h₁ a subschema
    if skipTypeMerging || !info.hasMergeInfo then (h₂, .value v)
    else (h₂, .mergeDelegated a)
  | _ => (h, .value v)

/-- Unwrap the results of a recursive list reconciliation back into the
member values stored in the rebuilt array (`list.map` produces a fresh
array). -/
def retToValue : Ret → JSValue
  | .fromNull _ => .vnull
  | .value w => w
  | .mergeDelegated a => .vref a
  | .undef => .vnull

/-- `handleResult` / `handleList` / `handleListMember`, merged into one
fuel-indexed recursion on the (already nullable-stripped) static type:
null values go to `handleNull`, leaf values through the type's
`parseValue` parser, composite values to `handleObject`, and list values
recurse per member — against the nullable-stripped member type, the index
appended to the path, and the errors partitioned by leading index segment
— rebuilding a fresh array.  `fuel` bounds the type-nesting depth (the JS
recursion is structural in the wrapper type). -/
def handleMember (parseV : Nat → JSValue → JSValue) (nullFuel : Nat)
    (info : ResolveInfo) (subschema : Nat) (skipTypeMerging : Bool) :
    Nat → RetType → Heap → JSValue → List PathSeg → List GError →
    Heap × Ret
  | 0, _, h, _, _, _ => (h, .undef)
  | fuel + 1, t, h, v, path, errors =>
    if isNullish v then
      (h, .fromNull (handleNull nullFuel info.fieldNodes path errors))
    else
      match t with
      | .leafType pid => (h, .value (parseV pid v))
      | .compositeType => handleObject h v errors subschema info skipTypeMerging
      | .listType ofType =>
        match v with
        | .varr items =>
          let rec go : Heap → List JSValue → Nat → Heap × List Ret
            | h', [], _ => (h', [])
            | h', m :: ms, idx =>
              let (h'', r) := handleMember parseV nullFuel info subschema
                skipTypeMerging fuel (getNullableType ofType) h' m
                (path ++ [.indexSeg idx])
                (errorsForSegment (.indexSeg idx) errors)
              let (h₃, rs) := go h'' ms (idx + 1)
              (h₃, r :: rs)
          let (h', rs) := go h items 0
          (h', .value (.varr (rs.map retToValue)))
        | _ => (h, .value v)
      | .nonNullType _ => (h, .undef)

/-- The raw execution result handed to `checkResultAndHandleErrors`: the
`data` row lives in the heap (it is an ordinary JS object) and errors ride
alongside. -/
structure ExecResult where
  dataAddr : Option Nat
  errors : List GError
deriving Repr, DecidableEq

/-- `result.data && result.data[responseKey]`. -/
def extractData (h : Heap) (result : ExecResult) (responseKey : String) :
    JSValue :=
  match result.dataAddr with
  | none => .vnull
  | some a =>
    match (getHeapObj h a).props.lookup responseKey with
    | some v => v
    | none => .vnull

/-- `checkResultAndHandleErrors`: pick the response key's value out of the
raw result and reconcile it — against the nullable-stripped static return
type — together with the raw result's errors. -/
def checkResultAndHandleErrors (parseV : Nat → JSValue → JSValue)
    (nullFuel typeFuel : Nat) (h : Heap) (result : ExecResult)
    (info : ResolveInfo) (responseKey : String) (subschema : Nat)
    (returnType : RetType) (skipTypeMerging : Bool) : Heap × Ret :=
  handleMember parseV nullFuel info subschema skipTypeMerging typeFuel
    (getNullableType returnType) h (extractData h result responseKey)
    info.path result.errors

mutual

/-- The heap addresses referenced from a value (the objects the
reconciler may annotate). -/
def valueAddrs : JSValue → List Nat
  | .vref a => [a]
  | .varr items => valueAddrsList items
  | _ => []

/-- Addresses referenced from a list of values. -/
def valueAddrsList : List JSValue → List Nat
  | [] => []
  | v :: vs => valueAddrs v ++ valueAddrsList vs

end

/-! ### Type-conflict resolution in `mergeSchemas`
(`stitching/mergeSchemas.ts`). -/

/-- A named type as the merger manipulates it: a name and a field-config
map (payloads modelled by identifiers). -/
structure GType where
  name : String
  fields : List (String × Nat)
deriving Repr, DecidableEq

/-- Fallback for the JS `undefined` produced by indexing an empty
candidate array. -/
def defaultGType : GType := { name := "", fields := [] }

/-- A merge type candidate: the type together with its source schema. -/
structure MergeTypeCandidate where
  type : GType
  schemaId : Option Nat
deriving Repr, DecidableEq

/-- JS object spread `{ ...acc, ...fields }`: existing keys are
overwritten in place, fresh keys are appended. -/
def spreadFields (acc fields : List (String × Nat)) : List (String × Nat) :=
  fields.foldl
    (fun m kv =>
      if (m.lookup kv.1).isSome
      then m.map (fun p => if p.1 = kv.1 then kv else p)
      else m ++ [kv])
    acc

/-- `mergeFields` of `mergeSchemas`: a new object type unioning all
candidates' fields (later candidates override earlier ones per field). -/
def mergeFieldsCandidates (typeName : String)
    (candidates : List MergeTypeCandidate) : GType :=
  { name := typeName,
    fields := candidates.foldl (fun acc c => spreadFields acc c.type.fields) [] }

/-- `onTypeConflictToCandidateSelector`: reduce the candidate list through
the caller-supplied tie-break function. -/
def candidateReduce (onTypeConflict : GType → GType → GType) :
    MergeTypeCandidate → List MergeTypeCandidate → MergeTypeCandidate
  | prev, [] => prev
  | prev, next :: rest =>
    let t := onTypeConflict prev.type next.type
    let chosen :=
      if prev.type = t then prev
      else if next.type = t then next
      else { type := t, schemaId := none }
    candidateReduce onTypeConflict chosen rest

/-- The type-map construction loop of `mergeSchemas`: root operation
types and explicitly merged types union their candidates' fields; every
other name picks one candidate — through the caller-supplied
`onTypeConflict` or, by default, the last-registered candidate
(`cands[cands.length - 1]`). -/
def buildMergedTypeMap (typeCandidates : List (String × List MergeTypeCandidate))
    (isMergedType : String → Bool)
    (onTypeConflict : Option (GType → GType → GType)) :
    List (String × GType) :=
  typeCandidates.map
    (fun entry =>
      let typeName := entry.1
      let cands := entry.2
      if typeName = "Query" ∨ typeName = "Mutation" ∨
          typeName = "Subscription" ∨ isMergedType typeName then
        (typeName, mergeFieldsCandidates typeName cands)
      else
        match onTypeConflict with
        | some f =>
          (typeName,
            (match cands with
             | [] => MergeTypeCandidate.mk defaultGType none
             | c :: rest => candidateReduce f c rest).type)
        | none => (typeName, ((cands.getLast?).getD
            (MergeTypeCandidate.mk defaultGType none)).type))

/-! ### Outstanding-selection computation of `handleObject` (type
merging) and the merge-combination step. -/

/-- A field selection node of the client query. -/
inductive SelNode where
  | fieldSel (name : String) (selections : List SelNode)
  | fragSpread (fragName : String)
deriving Repr

/-- Modelled from the spec (`utils/collectFields` is not part of the
sources): flatten a selection set into its field nodes, resolving
fragment spreads through the request's fragment map; `fuel` bounds spread
chains. -/
def collectFields (fragments : List (String × List SelNode)) :
    Nat → List SelNode → List (String × List SelNode)
  | 0, _ => []
  | _ + 1, [] => []
  | fuel + 1, s :: rest =>
    match s with
    | .fieldSel name sels =>
      (name, sels) :: collectFields fragments (fuel + 1) rest
    | .fragSpread fragName =>
      (match fragments.lookup fragName with
       | some sels => collectFields fragments fuel sels
       | none => []) ++ collectFields fragments (fuel + 1) rest

/-- The outstanding selections `handleObject` delegates to the other
subschemas: every collected field of the client's selection whose name is
not among the fields of the originating subschema's local type. -/
def outstandingSelections (localFields : List String)
    (fieldNodes : List (String × List SelNode))
    (fragments : List (String × List SelNode)) (fuel : Nat) :
    List (String × List SelNode) :=
  fieldNodes.flatMap
    (fun fn =>
      (collectFields fragments fuel fn.2).filter
        (fun s => !localFields.contains s.1))

/-- Modelled from the spec (`stitching/mergeFields.ts` is not part of the
sources): merging a delegated patch into the accumulating object prefers
fields already present — first subschema wins per field. -/
def mergeProxiedFields (original patch : List (String × JSValue)) :
    List (String × JSValue) :=
  original ++ patch.filter (fun kv => (original.lookup kv.1).isNone)

/-! ### `visitSchema` visitor selection (`utils/visitSchema.ts`) and the
`RenameTypes` schema transform (`transforms/RenameTypes.ts`). -/

/-- The visitor-kind classifiers of `VisitSchemaKind`. -/
inductive VisitSchemaKind where
  | TYPE
  | SCALAR_TYPE
  | ENUM_TYPE
  | COMPOSITE_TYPE
  | OBJECT_TYPE
  | INPUT_OBJECT_TYPE
  | ABSTRACT_TYPE
  | UNION_TYPE
  | INTERFACE_TYPE
  | ROOT_OBJECT
  | QUERY
  | MUTATION
  | SUBSCRIPTION
deriving Repr, DecidableEq

/-- The root operation types of a schema, by identity. -/
structure SchemaRoots where
  queryId : Option TypeId
  mutationId : Option TypeId
  subscriptionId : Option TypeId
deriving Repr, DecidableEq

/-- `getTypeSpecifiers`: the list of visitor kinds applicable to a type,
from generic to specific; object types that are the schema's root
operation types additionally get `ROOT_OBJECT` and their operation
kind. -/
def getTypeSpecifiers (σ : Store) (roots : SchemaRoots) (i : TypeId) :
    List VisitSchemaKind :=
  [VisitSchemaKind.TYPE] ++
    match (getObj σ i).defn with
    | .object _ _ =>
      [VisitSchemaKind.COMPOSITE_TYPE, VisitSchemaKind.OBJECT_TYPE] ++
        (if roots.queryId = some i then
          [VisitSchemaKind.ROOT_OBJECT, VisitSchemaKind.QUERY]
        else if roots.mutationId = some i then
          [VisitSchemaKind.ROOT_OBJECT, VisitSchemaKind.MUTATION]
        else if roots.subscriptionId = some i then
          [VisitSchemaKind.ROOT_OBJECT, VisitSchemaKind.SUBSCRIPTION]
        else [])
    | .inputObject _ => [VisitSchemaKind.INPUT_OBJECT_TYPE]
    | .iface _ =>
      [VisitSchemaKind.COMPOSITE_TYPE, VisitSchemaKind.ABSTRACT_TYPE,
        VisitSchemaKind.INTERFACE_TYPE]
    | .union _ =>
      [VisitSchemaKind.COMPOSITE_TYPE, VisitSchemaKind.ABSTRACT_TYPE,
        VisitSchemaKind.UNION_TYPE]
    | .enum => [VisitSchemaKind.ENUM_TYPE]
    | .scalar => [VisitSchemaKind.SCALAR_TYPE]

/-- What a type visitor returns: `undefined` (keep), `null` (remove) or a
replacement type. -/
inductive VisitAction where
  | keep
  | remove
  | replace (t : TypeObj)
deriving Repr, DecidableEq

/-- A visitor map keyed by kind. -/
def VisitorMap : Type := VisitSchemaKind → Option (TypeObj → VisitAction)

/-- `getVisitor`: pop specifiers from the end of the list (most specific
first) until a visitor is found. -/
def getVisitorRev (vm : VisitorMap) : List VisitSchemaKind →
    Option (TypeObj → VisitAction)
  | [] => none
  | k :: rest =>
    match vm k with
    | some v => some v
    | none => getVisitorRev vm rest

/-- `getVisitor` over the specifier list in its original order. -/
def getVisitor (vm : VisitorMap) (specifiers : List VisitSchemaKind) :
    Option (TypeObj → VisitAction) :=
  getVisitorRev vm specifiers.reverse

/-- The named-type branch of `callMethod`: select the most specific
visitor for the type and apply it; no visitor, or a visitor returning
`undefined`, keeps the type unchanged. -/
def applyTypeVisitor (vm : VisitorMap) (σ : Store) (roots : SchemaRoots)
    (i : TypeId) : VisitAction :=
  match getVisitor vm (getTypeSpecifiers σ roots i) with
  | none => .keep
  | some v => v (getObj σ i)

/-- `isSpecifiedScalarType` (modelled from the spec: the helper compares
against the five built-in scalars): a scalar named like a built-in. -/
def isSpecifiedScalar (t : TypeObj) : Bool :=
  (match t.defn with | .scalar => true | _ => false) &&
    ["String", "Int", "Float", "Boolean", "ID"].contains t.name

/-- Whether the type is a `GraphQLScalarType`. -/
def isScalarKind (t : TypeObj) : Bool :=
  match t.defn with | .scalar => true | _ => false

/-- The visitor map `RenameTypes.transformSchema` passes to
`visitSchema`: a generic `TYPE` visitor that renames through the
caller-supplied renamer (skipping built-ins and scalars per options, and
falsy or unchanged renamer outputs), and a `ROOT_OBJECT` visitor that
always returns `undefined`. -/
def renameTypesVisitorMap (renamer : String → Option String)
    (renameBuiltins renameScalars : Bool) : VisitorMap :=
  fun kind =>
    match kind with
    | .TYPE => some
      (fun t =>
        if isSpecifiedScalar t && !renameBuiltins then .keep
        else if isScalarKind t && !renameScalars then .keep
        else
          match renamer t.name with
          | some newName =>
            if newName ≠ "" ∧ newName ≠ t.name then
              VisitAction.replace { t with name := newName }
            else .keep
          | none => .keep)
    | .ROOT_OBJECT => some (fun _ => .keep)
    | _ => none

/-! ### Concrete instances used by counterexamples and witnesses. -/

/-- Store for the idempotence counterexample: object `A` (its only field
references the object named `K`), an object actually named `K`, and an
object named `__S` (one field, so pruning leaves it alone) registered in
the map under the unrelated key `K`. -/
def c1Store : Store :=
  [ { name := "A", stub := false,
      defn := .object [("f", { args := [], type := .named 1 })] [] },
    { name := "K", stub := false, defn := .object [] [] },
    { name := "__S", stub := false,
      defn := .object [("g", { args := [], type := .named 2 })] [] } ]

/-- The idempotence counterexample input: healing resolves `A`'s field
reference through the map entry `K` to the `__S`-named object. -/
def c1In : HState :=
  { σ := c1Store, M := [("A", some 0), ("K", some 2)], D := [] }

/-- The result of healing `c1In` once: the field now references the
`__S`-named object, which the dangling sweep removed from the map. -/
def c1Once : HState :=
  { σ :=
      [ { name := "A", stub := false,
          defn := .object [("f", { args := [], type := .named 2 })] [] },
        { name := "K", stub := false, defn := .object [] [] },
        { name := "__S", stub := false,
          defn := .object [("g", { args := [], type := .named 2 })] [] } ],
    M := [("A", some 0)], D := [] }

/-- The result of healing twice: the second pass re-registers the
`__S`-named object — and the sweep keeps `__`-prefixed keys — so the type
map differs from `c1Once`'s. -/
def c1Twice : HState :=
  { σ := c1Once.σ, M := [("A", some 0), ("__S", some 2)], D := [] }

/-- Store for the dropped-referenced-type input: object `A`'s only field
references object `B`, which has no entry in the type map. -/
def c2Store : Store :=
  [ { name := "A", stub := false,
      defn := .object [("f", { args := [], type := .named 1 })] [] },
    { name := "B", stub := false,
      defn := .object [("h", { args := [], type := .named 1 })] [] } ]

/-- Input whose healed output keeps a reference to a type absent from the
type map. -/
def c2In : HState := { σ := c2Store, M := [("A", some 0)], D := [] }

/-- Healing `c2In` leaves the map without a `B` entry while `A.f` still
references the `B` object (`healType` registered it, the sweep removed
it). -/
def c2Out : HState := { σ := c2Store, M := [("A", some 0)], D := [] }

/-- Store for the pruning-cascade scenario: `Query` (field of type
`Int`), object `O` (sole implementer of interface `I`; its only field
references the deleted type `X`), interface `I`, scalar `Int`, and the
deleted object `X` (a `null` map entry). -/
def c4Store : Store :=
  [ { name := "Query", stub := false,
      defn := .object [("q", { args := [], type := .named 3 })] [] },
    { name := "O", stub := false,
      defn := .object [("f", { args := [], type := .named 4 })] [.named 2] },
    { name := "I", stub := false,
      defn := .iface [("g", { args := [], type := .named 3 })] },
    { name := "Int", stub := false, defn := .scalar },
    { name := "X", stub := false, defn := .object [] [] } ]

/-- The pruning-cascade input: `X` was deleted (null entry), so `O`'s
only field is removed during healing. -/
def c4In : HState :=
  { σ := c4Store,
    M := [("Query", some 0), ("O", some 1), ("I", some 2),
          ("Int", some 3), ("X", none)],
    D := [] }

/-- The state after the first heal pass over `c4In` (before its pruning
sweep): `O` lost its only field, `X` is swept. -/
def c4Pass1 : HState :=
  { σ :=
      [ { name := "Query", stub := false,
          defn := .object [("q", { args := [], type := .named 3 })] [] },
        { name := "O", stub := false, defn := .object [] [.named 2] },
        { name := "I", stub := false,
          defn := .iface [("g", { args := [], type := .named 3 })] },
        { name := "Int", stub := false, defn := .scalar },
        { name := "X", stub := false, defn := .object [] [] } ],
    M := [("Query", some 0), ("O", some 1), ("I", some 2), ("Int", some 3)],
    D := [] }

/-- A transform with all three capabilities, over natural numbers. -/
def tBoth : Transform Nat Nat Nat :=
  { transformSchema := some (fun n => n + 1),
    transformRequest := some (fun n => n * 2),
    transformResult := some (fun n => n + 10) }

/-- A transform with no capabilities (acts as the identity in every
direction). -/
def tNone : Transform Nat Nat Nat :=
  { transformSchema := none, transformRequest := none, transformResult := none }

/-- Two concrete errors whose paths are too short to localise. -/
def c6Errors : List GError :=
  [ { message := "boom", nodes := [7], path := none },
    { message := "bust", nodes := [8], path := some [.fieldSeg "x"] } ]

/-- A concrete heap for the reconciler witness: the raw result row at
address 0 holds the response key `"thing"` referencing the object at
address 1; address 2 is untouched bystander state. -/
def c7Heap : Heap :=
  [ { props := [("thing", .vref 1)], errAnn := none, subAnn := none },
    { props := [("id", .vstr "1")], errAnn := none, subAnn := none },
    { props := [("other", .vint 5)], errAnn := none, subAnn := none } ]

/-- The raw execution result for the reconciler witness. -/
def c7Result : ExecResult :=
  { dataAddr := some 0,
    errors := [{ message := "partial", nodes := [], path := some [.fieldSeg "thing", .fieldSeg "id"] }] }

/-- Resolver info for the reconciler witness (no merge metadata). -/
def c7Info : ResolveInfo :=
  { fieldNodes := [3], path := [.fieldSeg "thing"], hasMergeInfo := false }

/-- Concrete merge candidates: the same type name registered by two
subschemas. -/
def c8Candidates : List (String × List MergeTypeCandidate) :=
  [ ("Widget",
      [ { type := { name := "Widget", fields := [("a", 1)] }, schemaId := some 0 },
        { type := { name := "Widget", fields := [("b", 2)] }, schemaId := some 1 } ]) ]

/-- Client field nodes for the outstanding-selection witness. -/
def c9FieldNodes : List (String × List SelNode) :=
  [ ("user", [ .fieldSel "id" [], .fieldSel "posts" [], .fragSpread "UserBits" ]) ]

/-- Fragment map for the outstanding-selection witness. -/
def c9Fragments : List (String × List SelNode) :=
  [ ("UserBits", [ .fieldSel "email" [] ]) ]

/-- A schema store for the rename witness: a root query object and one
ordinary object type. -/
def c10Store : Store :=
  [ { name := "Query", stub := false,
      defn := .object [("w", { args := [], type := .named 1 })] [] },
    { name := "Widget", stub := false, defn := .object [] [] } ]

/-- Roots for the rename witness. -/
def c10Roots : SchemaRoots :=
  { queryId := some 0, mutationId := none, subscriptionId := none }

/-- A type map with two distinct entries resolving to the same actual
name `A` (the same object registered under two keys). -/
def c3Dup : HState :=
  { σ := c1Store, M := [("A", some 0), ("A2", some 0)], D := [] }

/-! ### Invariants of the healing pass, used to settle idempotence and
the duplicate-name error characterisation. -/

/-- The keys of a type map, in order. -/
def keysOf (M : TypeMap) : List String := M.map Prod.fst

/-- What `healType`'s absent-name branch resolves a reference to: the
built-in behind a stub placeholder, the referenced type itself
otherwise. -/
def stubRes (σ : Store) (builtinFor : TypeId → TypeId) (i : TypeId) : TypeId :=
  if (getObj σ i).stub then builtinFor i else i

/-- The named type object underneath list/non-null wrappers. -/
def baseId : TypeRef → TypeId
  | .named i => i
  | .listOf t => baseId t
  | .nonNull t => baseId t

/-- All type references appearing in a type definition, in heal order:
for each field its argument types then its own type, then the interface
list (resp. union members, input field types). -/
def refsOfDef : TypeDef → List TypeRef
  | .object fields interfaces =>
    fields.flatMap (fun f => f.2.args.map ArgDef.type ++ [f.2.type]) ++ interfaces
  | .iface fields =>
    fields.flatMap (fun f => f.2.args.map ArgDef.type ++ [f.2.type])
  | .union members => members
  | .inputObject fields => fields.map Prod.snd
  | .scalar => []
  | .enum => []

/-- The type references in the directive declarations' arguments. -/
def dirRefs (D : List DirectiveDef) : List TypeRef :=
  D.flatMap (fun d => d.args.map ArgDef.type)

/-- The type references reachable from the map's healed entries (values
of keys not starting with `__`; `__`-keyed entries are never healed). -/
def entryRefs (σ : Store) (M : TypeMap) : List TypeRef :=
  M.flatMap
    (fun kv =>
      if startsWithDunder kv.1 then []
      else
        match kv.2 with
        | some i => refsOfDef (getObj σ i).defn
        | none => [])

/-- Every reference the healing pass rewrites: directive arguments plus
healed entries' definitions. -/
def healedRefs (σ : Store) (M : TypeMap) (D : List DirectiveDef) : List TypeRef :=
  dirRefs D ++ entryRefs σ M

/-- The named objects those references resolve through. -/
def healedIds (σ : Store) (M : TypeMap) (D : List DirectiveDef) : List TypeId :=
  (healedRefs σ M D).map baseId

/-- The `(actualName, type)` pairs `buildActual` records, in order —
non-null entries whose key and current name do not start with `__`. -/
def consideredEntries (σ : Store) (M : TypeMap) : List (String × TypeId) :=
  M.filterMap
    (fun kv =>
      match kv.2 with
      | some i =>
        if startsWithDunder kv.1 || startsWithDunder (getObj σ i).name then none
        else some ((getObj σ i).name, i)
      | none => none)

/-- The actual names of the considered entries; `healTypes` throws the
duplicate error exactly when these collide. -/
def consideredNames (σ : Store) (M : TypeMap) : List String :=
  (consideredEntries σ M).map Prod.fst

/-- Every non-`__` entry holds a type whose current name is its key. -/
def KeysNamed (σ : Store) (M : TypeMap) : Prop :=
  ∀ kv ∈ M, startsWithDunder kv.1 = false →
    ∃ i, kv.2 = some i ∧ (getObj σ i).name = kv.1

/-- The map's keys are duplicate-free (JS objects cannot repeat keys). -/
def KeysNodup (M : TypeMap) : Prop := (keysOf M).Nodup

/-- A healed reference's target is either the canonical entry under its
own name, or its name is absent from the map and re-resolving it is a
fixed point. -/
def RefOKId (σ : Store) (builtinFor : TypeId → TypeId) (M : TypeMap)
    (i : TypeId) : Prop :=
  lookupTM M (getObj σ i).name = some (some i) ∨
  (lookupTM M (getObj σ i).name = none ∧ stubRes σ builtinFor i = i)

/-- Among the healed targets, ids whose name is absent from the map are
determined by that name. -/
def AbsentUniqueIds (σ : Store) (M : TypeMap) (ids : List TypeId) : Prop :=
  ∀ i ∈ ids, ∀ j ∈ ids,
    lookupTM M (getObj σ i).name = none →
    (getObj σ i).name = (getObj σ j).name → i = j

/-- No object in the store bears a reserved `__`-prefixed name. -/
def NoDunderStore (σ : Store) : Prop :=
  ∀ i, startsWithDunder (getObj σ i).name = false

/-- The (spec-modelled) stub environment is well formed: built-ins are
not themselves stubs and keep the stub's name — as the real
`getBuiltInForStub` does. -/
def StubWF (σ : Store) (builtinFor : TypeId → TypeId) : Prop :=
  ∀ i, (getObj σ (builtinFor i)).stub = false ∧
    (getObj σ (builtinFor i)).name = (getObj σ i).name

/-- Two stores agree on every object's name and stub marker (healing
rewrites definitions only). -/
def sameNS (σ σ' : Store) : Prop :=
  ∀ i, (getObj σ' i).name = (getObj σ i).name ∧
    (getObj σ' i).stub = (getObj σ i).stub

/-- The post-heal invariant: keys are the actual names and
duplicate-free, every healed reference is canonical-or-stably-absent,
absent-named targets are unique per name, and nothing is prunable. -/
def Healed (σ : Store) (builtinFor : TypeId → TypeId) (M : TypeMap)
    (D : List DirectiveDef) : Prop :=
  KeysNamed σ M ∧ KeysNodup M ∧
  (∀ i ∈ healedIds σ M D, RefOKId σ builtinFor M i) ∧
  AbsentUniqueIds σ M (healedIds σ M D) ∧
  pruneStep σ M = (M, false)

/-- Mid-pass stability of a rewritten reference: its target is the map's
canonical entry under the target's own name. -/
def RefStable (σ : Store) (Mt : TypeMap) (r : TypeRef) : Prop :=
  lookupTM Mt (getObj σ (baseId r)).name = some (some (baseId r))

/-- The evolving type map during one pass: the post-re-keying map `M₂`
plus appended fresh registrations — each keyed by its value's name,
holding a non-stub object, at a name `M₂` did not have. -/
def MidMap (σ : Store) (M₂ Mt : TypeMap) : Prop :=
  ∃ A, Mt = M₂ ++ A ∧ KeysNodup Mt ∧
    ∀ p ∈ A, ∃ j, p.2 = some j ∧ (getObj σ j).name = p.1 ∧
      (getObj σ j).stub = false ∧ lookupTM M₂ p.1 = none

/-- Mid-pass evolution during the identity round: fresh registrations
re-register already-stable healed targets at absent names. -/
def IdMid (σ : Store) (M Mt : TypeMap) (ids : List TypeId) : Prop :=
  ∃ A, Mt = M ++ A ∧
    ∀ p ∈ A, ∃ j, p.2 = some j ∧ j ∈ ids ∧ (getObj σ j).name = p.1 ∧
      lookupTM M p.1 = none

/-- An object's current definition has only stable references. -/
def GoodId (σ₀ : Store) (Mt : TypeMap) (σt : Store) (i : TypeId) : Prop :=
  ∀ r ∈ refsOfDef (getObj σt i).defn, RefStable σ₀ Mt r

/-- What re-keying by the actual-name map establishes: every recorded
actual name is bound to its recorded type, and conversely every non-`__`
binding's target is recorded under its own name. -/
def ReKeyed (σ : Store) (M₂ : TypeMap) (A : List (String × TypeId)) : Prop :=
  (∀ n i, lookupA A n = some i →
    lookupTM M₂ n = some (some i) ∧ (getObj σ i).name = n) ∧
  (∀ n j, startsWithDunder n = false → lookupTM M₂ n = some (some j) →
    lookupA A ((getObj σ j).name) = some j)

/-!
## Theorems
-/

/-- C5: `applySchemaTransforms` and `applyRequestTransforms` fold the
transform list left-to-right (the first transform's output feeds the
rest, and a transform lacking the capability acts as the identity), while
`applyResultTransforms` folds the same list right-to-left, so the last
transform's result-direction operation is applied first. -/
theorem transform_pipeline_fold_directions {S R Q : Type}
    (t : Transform S R Q) (ts : List (Transform S R Q)) (s : S) (r : R) (q : Q) :
    applySchemaTransforms s (t :: ts) = applySchemaTransforms (schemaStep t s) ts ∧
    applyRequestTransforms r (t :: ts) = applyRequestTransforms (requestStep t r) ts ∧
    applyResultTransforms q (ts ++ [t]) = applyResultTransforms (resultStep t q) ts ∧
    applyResultTransforms q (t :: ts) = resultStep t (applyResultTransforms q ts) ∧
    (t.transformSchema = none → schemaStep t s = s) ∧
    (t.transformRequest = none → requestStep t r = r) ∧
    (t.transformResult = none → resultStep t q = q) := by
  refine ⟨rfl, rfl, ?_, rfl, ?_, ?_, ?_⟩
  · simp [applyResultTransforms, List.foldr_append]
  · intro h; simp [schemaStep, h]
  · intro h; simp [requestStep, h]
  · intro h; simp [resultStep, h]

/-- Witness for C5 at concrete transforms over `Nat`. -/
theorem transform_pipeline_fold_directions_witness :
    applySchemaTransforms 3 (tBoth :: [tNone]) =
      applySchemaTransforms (schemaStep tBoth 3) [tNone] ∧
    applyResultTransforms 5 ([tNone] ++ [tBoth]) =
      applyResultTransforms (resultStep tBoth 5) [tNone] ∧
    schemaStep tNone 3 = 3 := by
  refine ⟨(transform_pipeline_fold_directions tBoth [tNone] 3 4 5).1, ?_, ?_⟩
  · exact (transform_pipeline_fold_directions tBoth [tNone] 3 4 5).2.2.1
  · exact (transform_pipeline_fold_directions tNone [] 3 4 5).2.2.2.2.1 rfl

/-- C6: when `handleNull` gets a non-empty error list in which some error
has no path or a path shorter than 2, it returns the single error that
combines all the errors, relocated to the current field's nodes and
response path — not a structured null substructure. -/
theorem handleNull_combines_short_path_errors (fuel : Nat)
    (fieldNodes : List Nat) (path : List PathSeg) (errors : List GError)
    (hne : errors ≠ []) (hshort : errors.any shortPath = true) :
    handleNull (fuel + 1) fieldNodes path errors =
      .errValue (relocatedError (combineErrors errors) fieldNodes (some path)) := by
  match errors, hne with
  | e :: rest, _ =>
    simp only [handleNull]
    rw [if_pos hshort]

/-- Witness for C6 at a concrete short-path error list. -/
theorem handleNull_combines_short_path_errors_witness :
    c6Errors ≠ [] ∧ c6Errors.any shortPath = true ∧
    handleNull 4 [3] [.fieldSeg "f"] c6Errors =
      .errValue (relocatedError (combineErrors c6Errors) [3] (some [.fieldSeg "f"])) := by
  refine ⟨by decide, by decide, ?_⟩
  exact handleNull_combines_short_path_errors 3 [3] [.fieldSeg "f"] c6Errors
    (by decide) (by decide)

/-- C8: in `mergeSchemas`, a type name other than
Query/Mutation/Subscription and not designated as merged, with no
caller-supplied `onTypeConflict`, resolves to the last-registered
candidate (`cands[cands.length - 1]`). -/
theorem mergeSchemas_default_last_candidate_wins
    (typeCandidates : List (String × List MergeTypeCandidate))
    (isMergedType : String → Bool) (name : String)
    (cs : List MergeTypeCandidate)
    (hq : name ≠ "Query") (hm : name ≠ "Mutation") (hs : name ≠ "Subscription")
    (hmerged : isMergedType name = false)
    (hlook : typeCandidates.lookup name = some cs) (hne : cs ≠ []) :
    (buildMergedTypeMap typeCandidates isMergedType none).lookup name =
      some (cs.getLast hne).type := by
  induction typeCandidates with
  | nil => simp [List.lookup] at hlook
  | cons hd tl ih =>
    obtain ⟨k, v⟩ := hd
    by_cases hk : name = k
    · subst hk
      have hroot : ¬ (name = "Query" ∨ name = "Mutation" ∨
          name = "Subscription" ∨ isMergedType name = true) := by
        intro hc
        rcases hc with h | h | h | h
        · exact hq h
        · exact hm h
        · exact hs h
        · rw [hmerged] at h; exact Bool.false_ne_true h
      have hcs : v = cs := by
        simpa [List.lookup] using hlook
      subst hcs
      simp only [buildMergedTypeMap, List.map_cons]
      rw [if_neg hroot]
      simp [List.lookup, List.getLast?_eq_getLast _ hne]
    · have hbeq : (name == k) = false := beq_eq_false_iff_ne.mpr hk
      have hlook' : tl.lookup name = some cs := by
        simpa [List.lookup, hbeq] using hlook
      have htail := ih hlook'
      simp only [buildMergedTypeMap, List.map_cons]
      by_cases hroot : k = "Query" ∨ k = "Mutation" ∨
          k = "Subscription" ∨ isMergedType k = true
      · rw [if_pos hroot]
        simpa [List.lookup, hbeq] using htail
      · rw [if_neg hroot]
        simpa [List.lookup, hbeq] using htail

/-- Witness for C8 at a concrete two-candidate conflict. -/
theorem mergeSchemas_default_last_candidate_wins_witness :
    (buildMergedTypeMap c8Candidates (fun _ => false) none).lookup "Widget" =
      some { name := "Widget", fields := [("b", 2)] } := by
  have h := mergeSchemas_default_last_candidate_wins c8Candidates
    (fun _ => false) "Widget"
    [ { type := { name := "Widget", fields := [("a", 1)] }, schemaId := some 0 },
      { type := { name := "Widget", fields := [("b", 2)] }, schemaId := some 1 } ]
    (by decide) (by decide) (by decide) rfl rfl (by simp)
  exact h

/-- Helper: members of a filtered list satisfy the filter. -/
theorem mem_filter_bool {α : Type} (p : α → Bool) (l : List α) (x : α)
    (hx : x ∈ l.filter p) : p x = true :=
  (List.mem_filter.mp hx).2

/-- Helper: a key found in the left part of an appended association list
is looked up there. -/
theorem lookup_append_isSome {α β : Type} [BEq α] (l₁ l₂ : List (α × β))
    (x : α) (hx : (l₁.lookup x).isSome) :
    (l₁ ++ l₂).lookup x = l₁.lookup x := by
  induction l₁ with
  | nil => simp [List.lookup] at hx
  | cons hd tl ih =>
    cases hbeq : x == hd.1 with
    | true => simp [List.lookup, hbeq]
    | false =>
      simp only [List.cons_append, List.lookup, hbeq]
      exact ih (by simpa [List.lookup, hbeq] using hx)

/-- C9: every outstanding selection `handleObject` delegates to the
other subschemas names a field absent from the originating subschema's
local type — fields already provided by the first subschema are never
re-requested — and the (spec-modelled) merge combination step keeps the
already-present field, so the merged value of a shared field always comes
from the originating subschema, independent of response timing. -/
theorem merge_first_subschema_wins (localFields : List String)
    (fieldNodes fragments : List (String × List SelNode)) (fuel : Nat)
    (s : String × List SelNode)
    (hs : s ∈ outstandingSelections localFields fieldNodes fragments fuel)
    (original patch : List (String × JSValue)) (x : String)
    (hx : (original.lookup x).isSome) :
    localFields.contains s.1 = false ∧
    (mergeProxiedFields original patch).lookup x = original.lookup x := by
  constructor
  · simp only [outstandingSelections, List.mem_flatMap] at hs
    obtain ⟨fn, _, hmem⟩ := hs
    have hp := mem_filter_bool _ _ _ hmem
    simpa using hp
  · exact lookup_append_isSome original _ x hx

/-- Witness for C9 at a concrete selection set and field map. -/
theorem merge_first_subschema_wins_witness :
    ([ "id", "email" ] : List String).contains "posts" = false ∧
    (mergeProxiedFields [("id", JSValue.vstr "1")] [("id", JSValue.vstr "9")]).lookup "id" =
      ([("id", JSValue.vstr "1")] : List (String × JSValue)).lookup "id" := by
  have hmem : ("posts", ([] : List SelNode)) ∈
      outstandingSelections ["id", "email"] c9FieldNodes c9Fragments 5 := by
    simp [outstandingSelections, c9FieldNodes, c9Fragments, collectFields,
      List.filter]
  exact merge_first_subschema_wins ["id", "email"] c9FieldNodes c9Fragments 5
    ("posts", []) hmem [("id", JSValue.vstr "1")] [("id", JSValue.vstr "9")]
    "id" (by simp [List.lookup])

/-- C10: for every renamer, the `RenameTypes` schema transform leaves the
schema's root operation types untouched: the specifier stack makes
`getVisitor` select the `ROOT_OBJECT` visitor (which returns `undefined`)
before the generic `TYPE` renaming visitor, so the root type is kept
unchanged. -/
theorem renameTypes_keeps_root_object_types (σ : Store) (roots : SchemaRoots)
    (i : TypeId) (renamer : String → Option String)
    (renameBuiltins renameScalars : Bool)
    (hroot : roots.queryId = some i ∨ roots.mutationId = some i ∨
      roots.subscriptionId = some i)
    (fs : List (String × FieldDef)) (ifs : List TypeRef)
    (hobj : (getObj σ i).defn = .object fs ifs) :
    applyTypeVisitor (renameTypesVisitorMap renamer renameBuiltins renameScalars)
      σ roots i = .keep := by
  unfold applyTypeVisitor getTypeSpecifiers
  rw [hobj]
  by_cases hq : roots.queryId = some i
  · rw [if_pos hq]
    simp [getVisitor, getVisitorRev, renameTypesVisitorMap]
  · rw [if_neg hq]
    by_cases hm : roots.mutationId = some i
    · rw [if_pos hm]
      simp [getVisitor, getVisitorRev, renameTypesVisitorMap]
    · rw [if_neg hm]
      by_cases hs : roots.subscriptionId = some i
      · rw [if_pos hs]
        simp [getVisitor, getVisitorRev, renameTypesVisitorMap]
      · rcases hroot with h | h | h
        · exact absurd h hq
        · exact absurd h hm
        · exact absurd h hs

/-- Witness for C10 at a concrete schema and an aggressive renamer. -/
theorem renameTypes_keeps_root_object_types_witness :
    applyTypeVisitor
      (renameTypesVisitorMap (fun n => some ("Renamed" ++ n)) true true)
      c10Store c10Roots 0 = .keep := by
  exact renameTypes_keeps_root_object_types c10Store c10Roots 0
    (fun n => some ("Renamed" ++ n)) true true (Or.inl rfl)
    [("w", { args := [], type := .named 1 })] [] rfl

/-- C2 (failing input): healing `c2In` succeeds, but object `A`'s field
still references the object named `B` while the final type map has no
entry `B` at all — `healType` registered the referenced type under its
name, and the dangling-reference sweep then deleted that fresh entry, so
the claimed invariant (every reference is the canonical instance stored
under its own name) does not hold; the code's own comments assert it
should. -/
theorem heal_reference_left_unregistered :
    healTypes id 10 c2In false = .ok c2Out ∧
    lookupTM c2Out.M "B" = none ∧
    (getObj c2Out.σ 0).defn =
      .object [("f", { args := [], type := .named 1 })] [] ∧
    (getObj c2Out.σ 1).name = "B" := by
  refine ⟨by decide, by decide, by decide, by decide⟩

/-- C1 (counterexample): healing is not idempotent.  Healing `c1In` once
resolves `A.f` through map entry `K` to the `__S`-named object and sweeps
`K`; healing the result again permanently registers `"__S"` (the sweep
keeps `__`-prefixed keys), so the second heal's type map differs from the
first's. -/
theorem heal_not_idempotent :
    healTypes id 10 c1In false = .ok c1Once ∧
    healTypes id 10 c1Once false = .ok c1Twice ∧
    c1Twice ≠ c1Once := by
  refine ⟨by decide, by decide, by decide⟩

/-- C4: the pruning cascade.  (1) On the concrete scenario — object `O`'s
only field is deleted and `O` is the sole implementer of interface `I` —
the final type map contains neither `O` nor `I`.  (2) In general, any
pruning sweep that removes something triggers another full
heal-and-prune round. -/
theorem pruning_cascades :
    ((healTypes id 10 c4In false).map
      (fun s => (lookupTM s.M "O", lookupTM s.M "I"))) = .ok (none, none) ∧
    (∀ (builtinFor : TypeId → TypeId) (fuel : Nat) (s p : HState),
      healPass builtinFor s = .ok p →
      (pruneStep p.σ p.M).2 = true →
      healTypes builtinFor (fuel + 1) s false =
        healTypes builtinFor fuel { p with M := (pruneStep p.σ p.M).1 } false) := by
  constructor
  · decide
  · intro builtinFor fuel s p hpass hch
    have h1 : healTypes builtinFor (fuel + 1) s false =
        (if (pruneStep p.σ p.M).2 = true then
          healTypes builtinFor fuel
            { σ := p.σ, M := (pruneStep p.σ p.M).1, D := p.D } false
        else pure { σ := p.σ, M := (pruneStep p.σ p.M).1, D := p.D }) := by
      simp only [healTypes, hpass]
      rfl
    rw [h1, if_pos hch]

/-- Helper: reading a heap cell after `List.set`. -/
theorem getHeapObj_set (h : Heap) (a : Nat) (o : HeapObj) (b : Nat) :
    getHeapObj (h.set a o) b =
      if a = b ∧ a < h.length then o else getHeapObj h b := by
  simp only [getHeapObj]
  induction h generalizing a b with
  | nil => simp [List.set]
  | cons hd tl ih =>
    cases a with
    | zero =>
      cases b with
      | zero => simp [List.set]
      | succ b => simp [List.set]
    | succ a =>
      cases b with
      | zero => simp [List.set]
      | succ b =>
        simp only [List.set, List.getD_cons_succ, List.length_cons]
        rw [ih a b]
        have hiff : (a = b ∧ a < tl.length) ↔
            (a + 1 = b + 1 ∧ a + 1 < tl.length + 1) := by omega
        by_cases hc : a = b ∧ a < tl.length
        · rw [if_pos hc, if_pos (hiff.mp hc)]
        · rw [if_neg hc, if_neg (fun hx => hc (hiff.mpr hx))]

/-- Helper: attaching the error annotation changes no cell's ordinary
properties, and no cell other than the annotated one at all. -/
theorem setErrorsAnn_frame (h : Heap) (a : Nat) (errs : List GError) :
    (∀ b, (getHeapObj (setErrorsAnn h a errs) b).props = (getHeapObj h b).props) ∧
    (∀ b, b ≠ a → getHeapObj (setErrorsAnn h a errs) b = getHeapObj h b) := by
  constructor
  · intro b
    rw [setErrorsAnn, getHeapObj_set]
    by_cases hc : a = b ∧ a < h.length
    · rw [if_pos hc, hc.1]
    · rw [if_neg hc]
  · intro b hb
    rw [setErrorsAnn, getHeapObj_set]
    rw [if_neg (fun hc => hb hc.1.symm)]

/-- Helper: attaching the subschema annotation, same frame facts. -/
theorem setSubschemaAnn_frame (h : Heap) (a : Nat) (sub : Nat) :
    (∀ b, (getHeapObj (setSubschemaAnn h a sub) b).props = (getHeapObj h b).props) ∧
    (∀ b, b ≠ a → getHeapObj (setSubschemaAnn h a sub) b = getHeapObj h b) := by
  constructor
  · intro b
    rw [setSubschemaAnn, getHeapObj_set]
    by_cases hc : a = b ∧ a < h.length
    · rw [if_pos hc, hc.1]
    · rw [if_neg hc]
  · intro b hb
    rw [setSubschemaAnn, getHeapObj_set]
    rw [if_neg (fun hc => hb hc.1.symm)]

/-- Helper: `handleObject` only attaches the two hidden annotations to
the object it was given — every cell's ordinary properties survive, and
cells not referenced by the value are untouched. -/
theorem handleObject_frame (h : Heap) (v : JSValue) (errors : List GError)
    (subschema : Nat) (info : ResolveInfo) (skip : Bool) :
    (∀ b, (getHeapObj (handleObject h v errors subschema info skip).1 b).props =
      (getHeapObj h b).props) ∧
    (∀ b, b ∉ valueAddrs v →
      getHeapObj (handleObject h v errors subschema info skip).1 b = getHeapObj h b) := by
  cases v with
  | vref a =>
    have hheap : (handleObject h (.vref a) errors subschema info skip).1 =
        setSubschemaAnn (setErrorsAnn h a
          (errors.map (fun e =>
            relocatedError e e.nodes
              (match e.path with
               | some p => some (p.drop 1)
               | none => none)))) a subschema := by
      simp only [handleObject]
      by_cases hs : (skip || !info.hasMergeInfo) = true
      · rw [if_pos hs]
      · rw [if_neg hs]
    rw [hheap]
    constructor
    · intro b
      rw [(setSubschemaAnn_frame _ a subschema).1 b,
        (setErrorsAnn_frame h a _).1 b]
    · intro b hb
      have hba : b ≠ a := by simpa [valueAddrs] using hb
      rw [(setSubschemaAnn_frame _ a subschema).2 b hba,
        (setErrorsAnn_frame h a _).2 b hba]
  | vnull => exact ⟨fun _ => rfl, fun _ _ => rfl⟩
  | vint n => exact ⟨fun _ => rfl, fun _ _ => rfl⟩
  | vstr s => exact ⟨fun _ => rfl, fun _ _ => rfl⟩
  | vbool b => exact ⟨fun _ => rfl, fun _ _ => rfl⟩
  | varr items => exact ⟨fun _ => rfl, fun _ _ => rfl⟩

/-- Helper: the full reconciliation recursion only attaches annotations —
all ordinary properties survive everywhere, and only cells referenced
from the reconciled value can change at all. -/
theorem handleMember_frame (parseV : Nat → JSValue → JSValue) (nullFuel : Nat)
    (info : ResolveInfo) (subschema : Nat) (skip : Bool) :
    ∀ (fuel : Nat) (t : RetType) (h : Heap) (v : JSValue)
      (path : List PathSeg) (errors : List GError),
      (∀ b, (getHeapObj
          (handleMember parseV nullFuel info subschema skip fuel t h v path errors).1 b).props =
        (getHeapObj h b).props) ∧
      (∀ b, b ∉ valueAddrs v →
        getHeapObj
          (handleMember parseV nullFuel info subschema skip fuel t h v path errors).1 b =
        getHeapObj h b) := by
  intro fuel
  induction fuel with
  | zero =>
    intro t h v path errors
    cases v <;> exact ⟨fun _ => rfl, fun _ _ => rfl⟩
  | succ fuel ih =>
    intro t h v path errors
    cases v with
    | vnull => exact ⟨fun _ => rfl, fun _ _ => rfl⟩
    | vint n => cases t <;> exact ⟨fun _ => rfl, fun _ _ => rfl⟩
    | vstr s => cases t <;> exact ⟨fun _ => rfl, fun _ _ => rfl⟩
    | vbool bb => cases t <;> exact ⟨fun _ => rfl, fun _ _ => rfl⟩
    | vref a =>
      cases t with
      | leafType pid => exact ⟨fun _ => rfl, fun _ _ => rfl⟩
      | compositeType =>
        exact handleObject_frame h (.vref a) errors subschema info skip
      | listType ofType => exact ⟨fun _ => rfl, fun _ _ => rfl⟩
      | nonNullType t2 => exact ⟨fun _ => rfl, fun _ _ => rfl⟩
    | varr items =>
      cases t with
      | leafType pid => exact ⟨fun _ => rfl, fun _ _ => rfl⟩
      | compositeType =>
        exact handleObject_frame h (.varr items) errors subschema info skip
      | nonNullType t2 => exact ⟨fun _ => rfl, fun _ _ => rfl⟩
      | listType ofType =>
        have hgo : ∀ (ms : List JSValue) (h₀ : Heap) (idx : Nat),
            (∀ b, (getHeapObj (handleMember.go parseV nullFuel info subschema
                skip fuel path errors ofType h₀ ms idx).1 b).props =
              (getHeapObj h₀ b).props) ∧
            (∀ b, b ∉ valueAddrsList ms →
              getHeapObj (handleMember.go parseV nullFuel info subschema
                skip fuel path errors ofType h₀ ms idx).1 b = getHeapObj h₀ b) := by
          intro ms
          induction ms with
          | nil =>
            intro h₀ idx
            exact ⟨fun _ => rfl, fun _ _ => rfl⟩
          | cons m rest ihm =>
            intro h₀ idx
            have hmem := ih (getNullableType ofType) h₀ m
              (path ++ [.indexSeg idx]) (errorsForSegment (.indexSeg idx) errors)
            have hrest := ihm (handleMember parseV nullFuel info subschema skip
              fuel (getNullableType ofType) h₀ m (path ++ [.indexSeg idx])
              (errorsForSegment (.indexSeg idx) errors)).1 (idx + 1)
            constructor
            · intro b
              show (getHeapObj (handleMember.go parseV nullFuel info subschema
                skip fuel path errors ofType
                (handleMember parseV nullFuel info subschema skip fuel
                  (getNullableType ofType) h₀ m (path ++ [.indexSeg idx])
                  (errorsForSegment (.indexSeg idx) errors)).1
                rest (idx + 1)).1 b).props = (getHeapObj h₀ b).props
              rw [hrest.1 b, hmem.1 b]
            · intro b hb
              have hb₁ : b ∉ valueAddrs m := by
                simp only [valueAddrsList, List.mem_append] at hb
                exact fun hc => hb (Or.inl hc)
              have hb₂ : b ∉ valueAddrsList rest := by
                simp only [valueAddrsList, List.mem_append] at hb
                exact fun hc => hb (Or.inr hc)
              show getHeapObj (handleMember.go parseV nullFuel info subschema
                skip fuel path errors ofType
                (handleMember parseV nullFuel info subschema skip fuel
                  (getNullableType ofType) h₀ m (path ++ [.indexSeg idx])
                  (errorsForSegment (.indexSeg idx) errors)).1
                rest (idx + 1)).1 b = getHeapObj h₀ b
              rw [hrest.2 b hb₂, hmem.2 b hb₁]
        constructor
        · intro b
          show (getHeapObj (handleMember.go parseV nullFuel info subschema skip
            fuel path errors ofType h items 0).1 b).props = (getHeapObj h b).props
          exact (hgo items h 0).1 b
        · intro b hb
          show getHeapObj (handleMember.go parseV nullFuel info subschema skip
            fuel path errors ofType h items 0).1 b = getHeapObj h b
          exact (hgo items h 0).2 b (by simpa [valueAddrs] using hb)

/-- C7: `checkResultAndHandleErrors` mutates state only by attaching the
hidden error-list / originating-subschema annotations to the (composite
parts of the) value it returns: every heap cell's ordinary properties are
unchanged, and cells not referenced from the reconciled value — in
particular the raw execution result row and its other response keys — are
not mutated at all.  (Scoped to runs that do not hand off to the
type-merging coordinator, whose `mergeFields` lies outside these
sources.) -/
theorem checkResult_mutates_only_annotations (parseV : Nat → JSValue → JSValue)
    (nullFuel typeFuel : Nat) (h : Heap) (result : ExecResult)
    (info : ResolveInfo) (responseKey : String) (subschema : Nat)
    (returnType : RetType) (skipM : Bool)
    (_hmerge : skipM = true ∨ info.hasMergeInfo = false) :
    (∀ b, (getHeapObj (checkResultAndHandleErrors parseV nullFuel typeFuel h
        result info responseKey subschema returnType skipM).1 b).props =
      (getHeapObj h b).props) ∧
    (∀ b, b ∉ valueAddrs (extractData h result responseKey) →
      getHeapObj (checkResultAndHandleErrors parseV nullFuel typeFuel h
        result info responseKey subschema returnType skipM).1 b =
      getHeapObj h b) := by
  have hframe := handleMember_frame parseV nullFuel info subschema skipM
    typeFuel (getNullableType returnType) h
    (extractData h result responseKey) info.path result.errors
  exact hframe

/-- Witness for C7 at a concrete heap: the bystander cell keeps its
properties and the raw result row is untouched. -/
theorem checkResult_mutates_only_annotations_witness :
    (getHeapObj (checkResultAndHandleErrors (fun _ v => v) 3 3 c7Heap c7Result
        c7Info "thing" 42 RetType.compositeType false).1 2).props =
      (getHeapObj c7Heap 2).props ∧
    getHeapObj (checkResultAndHandleErrors (fun _ v => v) 3 3 c7Heap c7Result
        c7Info "thing" 42 RetType.compositeType false).1 0 =
      getHeapObj c7Heap 0 := by
  have hthm := checkResult_mutates_only_annotations (fun _ v => v) 3 3 c7Heap
    c7Result c7Info "thing" 42 RetType.compositeType false (Or.inr rfl)
  refine ⟨hthm.1 2, hthm.2 0 ?_⟩
  simp [extractData, c7Heap, c7Result, getHeapObj, valueAddrs, List.lookup]

/-- Witness for C4's general part at the concrete cascade state: the
first pass over `c4In` empties `O`, its pruning sweep removes `O`, and
the next round is a full recursive heal. -/
theorem pruning_cascades_witness :
    healPass id c4In = .ok c4Pass1 ∧
    (pruneStep c4Pass1.σ c4Pass1.M).2 = true ∧
    healTypes id 3 c4In false =
      healTypes id 2 { c4Pass1 with M := (pruneStep c4Pass1.σ c4Pass1.M).1 } false := by
  refine ⟨by decide, by decide, ?_⟩
  exact pruning_cascades.2 id 2 c4In c4Pass1 (by decide) (by decide)


/-! ### Association-list and store kit for the healing proofs. -/

/-- `lookupTM` over an append. -/
theorem lookupTM_append (M X : TypeMap) (k : String) :
    lookupTM (M ++ X) k =
      match lookupTM M k with
      | some v => some v
      | none => lookupTM X k := by
  induction M with
  | nil => simp [lookupTM]
  | cons hd tl ih =>
    by_cases hk : hd.1 = k
    · simp [lookupTM, hk]
    · simp [lookupTM, hk, ih]

/-- A present key keeps its binding under appends. -/
theorem lookupTM_append_left (M X : TypeMap) (k : String) (v : Option TypeId)
    (h : lookupTM M k = some v) : lookupTM (M ++ X) k = some v := by
  rw [lookupTM_append, h]

/-- An absent key looks into the appended part. -/
theorem lookupTM_append_right (M X : TypeMap) (k : String)
    (h : lookupTM M k = none) : lookupTM (M ++ X) k = lookupTM X k := by
  rw [lookupTM_append, h]

/-- Absence of a binding is absence of the key. -/
theorem lookupTM_eq_none_iff (M : TypeMap) (k : String) :
    lookupTM M k = none ↔ k ∉ keysOf M := by
  induction M with
  | nil => simp [lookupTM, keysOf]
  | cons hd tl ih =>
    by_cases hk : hd.1 = k
    · simp [lookupTM, keysOf, hk]
    · simp [lookupTM, keysOf, hk, ih, Ne.symm hk]

/-- A binding is a member. -/
theorem lookupTM_mem (M : TypeMap) (k : String) (v : Option TypeId)
    (h : lookupTM M k = some v) : (k, v) ∈ M := by
  induction M with
  | nil => simp [lookupTM] at h
  | cons hd tl ih =>
    obtain ⟨k2, v2⟩ := hd
    by_cases hk : k2 = k
    · subst hk
      simp only [lookupTM, if_pos rfl] at h
      cases h
      exact List.mem_cons_self _ _
    · simp only [lookupTM, if_neg hk] at h
      exact List.mem_cons_of_mem _ (ih h)

/-- With duplicate-free keys, membership determines the binding. -/
theorem mem_lookupTM (M : TypeMap) (k : String) (v : Option TypeId)
    (hnd : KeysNodup M) (h : (k, v) ∈ M) : lookupTM M k = some v := by
  induction M with
  | nil => simp at h
  | cons hd tl ih =>
    obtain ⟨k2, v2⟩ := hd
    have hnd' : k2 ∉ tl.map Prod.fst ∧ (tl.map Prod.fst).Nodup := by
      unfold KeysNodup keysOf at hnd
      simp only [List.map_cons] at hnd
      exact List.nodup_cons.mp hnd
    rcases List.mem_cons.mp h with heq | hmem
    · cases heq
      simp [lookupTM]
    · have hk : k2 ≠ k := by
        intro hc
        subst hc
        exact hnd'.1 (List.mem_map_of_mem Prod.fst hmem)
      simp only [lookupTM, if_neg hk]
      exact ih hnd'.2 hmem

/-- Setting a key binds it. -/
theorem setTM_lookup_self (M : TypeMap) (n : String) (v : Option TypeId) :
    lookupTM (setTM M n v) n = some v := by
  induction M with
  | nil => simp [setTM, lookupTM]
  | cons hd tl ih =>
    obtain ⟨k2, v2⟩ := hd
    by_cases hk : k2 = n
    · simp [setTM, hk, lookupTM]
    · simp [setTM, hk, lookupTM, ih]

/-- Setting a key leaves other keys' bindings alone. -/
theorem setTM_lookup_other (M : TypeMap) (n : String) (v : Option TypeId)
    (k : String) (h : k ≠ n) : lookupTM (setTM M n v) k = lookupTM M k := by
  induction M with
  | nil => simp [setTM, lookupTM, Ne.symm h]
  | cons hd tl ih =>
    obtain ⟨k2, v2⟩ := hd
    by_cases hk : k2 = n
    · subst hk
      simp only [setTM, if_pos rfl]
      have hne : ¬ k2 = k := fun hc => h hc.symm
      simp [lookupTM, hne]
    · simp only [setTM, if_neg hk]
      by_cases hdk : k2 = k
      · simp [lookupTM, hdk]
      · simp [lookupTM, hdk, ih]

/-- Setting a present key keeps the key list. -/
theorem setTM_keys_mem (M : TypeMap) (n : String) (v : Option TypeId)
    (h : n ∈ keysOf M) : keysOf (setTM M n v) = keysOf M := by
  induction M with
  | nil => simp [keysOf] at h
  | cons hd tl ih =>
    obtain ⟨k2, v2⟩ := hd
    by_cases hk : k2 = n
    · simp [setTM, hk, keysOf]
    · have hmem : n ∈ keysOf tl := by
        have h2 : n ∈ k2 :: keysOf tl := by simpa [keysOf] using h
        rcases List.mem_cons.mp h2 with heq | hmem
        · exact absurd heq.symm hk
        · exact hmem
      have h3 := ih hmem
      unfold keysOf at h3 ⊢
      simp only [setTM, if_neg hk, List.map_cons]
      rw [h3]

/-- Setting a fresh key appends it. -/
theorem setTM_keys_fresh (M : TypeMap) (n : String) (v : Option TypeId)
    (h : n ∉ keysOf M) : setTM M n v = M ++ [(n, v)] := by
  induction M with
  | nil => simp [setTM]
  | cons hd tl ih =>
    obtain ⟨k2, v2⟩ := hd
    have hk : k2 ≠ n := by
      intro hc
      exact h (by simp [keysOf, hc])
    have htl : n ∉ keysOf tl := by
      intro hc
      exact h (by simp [keysOf]; right; simpa [keysOf] using hc)
    simp [setTM, hk, ih htl]

/-- Re-setting an existing binding is a no-op. -/
theorem setTM_self (M : TypeMap) (n : String) (v : Option TypeId)
    (h : lookupTM M n = some v) : setTM M n v = M := by
  induction M with
  | nil => simp [lookupTM] at h
  | cons hd tl ih =>
    obtain ⟨k2, v2⟩ := hd
    by_cases hk : k2 = n
    · subst hk
      simp only [lookupTM, if_pos rfl] at h
      cases h
      simp [setTM]
    · simp only [lookupTM, if_neg hk] at h
      simp [setTM, hk, ih h]

/-- Setting preserves duplicate-freeness of keys. -/
theorem setTM_nodup (M : TypeMap) (n : String) (v : Option TypeId)
    (h : KeysNodup M) : KeysNodup (setTM M n v) := by
  by_cases hmem : n ∈ keysOf M
  · unfold KeysNodup
    rw [setTM_keys_mem M n v hmem]
    exact h
  · unfold KeysNodup
    rw [setTM_keys_fresh M n v hmem]
    unfold keysOf
    simp only [List.map_append, List.map_cons, List.map_nil]
    rw [List.nodup_append]
    refine ⟨h, List.nodup_singleton n, ?_⟩
    intro a ha hb
    simp at hb
    subst hb
    exact hmem (by simpa [keysOf] using ha)

/-- `lookupA` analogue of absence. -/
theorem lookupA_eq_none_iff (A : List (String × TypeId)) (n : String) :
    lookupA A n = none ↔ n ∉ A.map Prod.fst := by
  induction A with
  | nil => simp [lookupA]
  | cons hd tl ih =>
    by_cases hk : hd.1 = n
    · simp [lookupA, hk]
    · simp [lookupA, hk, ih, Ne.symm hk]

/-- A `lookupA` hit is a member. -/
theorem lookupA_mem (A : List (String × TypeId)) (n : String) (i : TypeId)
    (h : lookupA A n = some i) : (n, i) ∈ A := by
  induction A with
  | nil => simp [lookupA] at h
  | cons hd tl ih =>
    obtain ⟨k2, v2⟩ := hd
    by_cases hk : k2 = n
    · subst hk
      simp only [lookupA, if_pos rfl] at h
      cases h
      exact List.mem_cons_self _ _
    · simp only [lookupA, if_neg hk] at h
      exact List.mem_cons_of_mem _ (ih h)

/-- With duplicate-free names, membership determines `lookupA`. -/
theorem mem_lookupA (A : List (String × TypeId)) (n : String) (i : TypeId)
    (hnd : (A.map Prod.fst).Nodup) (h : (n, i) ∈ A) : lookupA A n = some i := by
  induction A with
  | nil => simp at h
  | cons hd tl ih =>
    obtain ⟨k2, v2⟩ := hd
    have hnd2 : (tl.map Prod.fst).Nodup := (List.nodup_cons.mp (by simpa using hnd)).2
    rcases List.mem_cons.mp h with heq | hmem
    · cases heq
      simp [lookupA]
    · have hk : k2 ≠ n := by
        intro hc
        subst hc
        have hkeys : k2 ∈ tl.map Prod.fst := List.mem_map_of_mem Prod.fst hmem
        exact (List.nodup_cons.mp (by simpa using hnd)).1 hkeys
      simp only [lookupA, if_neg hk]
      exact ih hnd2 hmem

/-- `lookupA` over an append. -/
theorem lookupA_append (A B : List (String × TypeId)) (n : String) :
    lookupA (A ++ B) n =
      match lookupA A n with
      | some i => some i
      | none => lookupA B n := by
  induction A with
  | nil => simp [lookupA]
  | cons hd tl ih =>
    by_cases hk : hd.1 = n
    · simp [lookupA, hk]
    · simp [lookupA, hk, ih]

/-- Filtering by a key predicate commutes with lookup. -/
theorem lookupTM_filter_key (p : String → Bool) (M : TypeMap) (k : String) :
    lookupTM (M.filter (fun kv => p kv.1)) k =
      if p k then lookupTM M k else none := by
  induction M with
  | nil => simp [lookupTM]
  | cons hd tl ih =>
    by_cases hp : p hd.1
    · rw [List.filter_cons_of_pos (by simpa using hp)]
      by_cases hk : hd.1 = k
      · subst hk
        simp [lookupTM, hp]
      · simp [lookupTM, hk, ih]
    · rw [List.filter_cons_of_neg (by simpa using hp)]
      by_cases hk : hd.1 = k
      · subst hk
        simp [lookupTM, hp, ih, Bool.eq_false_iff.mpr hp]
      · simp [lookupTM, hk, ih]

/-- Filtering preserves duplicate-free keys. -/
theorem keysNodup_filter (q : String × Option TypeId → Bool) (M : TypeMap)
    (h : KeysNodup M) : KeysNodup (M.filter q) := by
  unfold KeysNodup keysOf at h ⊢
  exact h.sublist ((List.filter_sublist M).map Prod.fst)

/-- Reading a store cell after `List.set`. -/
theorem getObj_set (σ : Store) (i : TypeId) (o : TypeObj) (j : TypeId) :
    getObj (σ.set i o) j =
      if i = j ∧ i < σ.length then o else getObj σ j := by
  simp only [getObj]
  induction σ generalizing i j with
  | nil => simp [List.set]
  | cons hd tl ih =>
    cases i with
    | zero =>
      cases j with
      | zero => simp [List.set]
      | succ j => simp [List.set]
    | succ i =>
      cases j with
      | zero => simp [List.set]
      | succ j =>
        simp only [List.set, List.getD_cons_succ, List.length_cons]
        rw [ih i j]
        have hiff : (i = j ∧ i < tl.length) ↔
            (i + 1 = j + 1 ∧ i + 1 < tl.length + 1) := by omega
        by_cases hc : i = j ∧ i < tl.length
        · rw [if_pos hc, if_pos (hiff.mp hc)]
        · rw [if_neg hc, if_neg (fun hx => hc (hiff.mpr hx))]

/-- `setDef` changes names and stub markers nowhere. -/
theorem sameNS_setDef (σ : Store) (i : TypeId) (d : TypeDef) :
    sameNS σ (setDef σ i d) := by
  intro j
  unfold setDef
  rw [getObj_set]
  by_cases hc : i = j ∧ i < σ.length
  · rw [if_pos hc]
    cases hc.1
    exact ⟨rfl, rfl⟩
  · rw [if_neg hc]
    exact ⟨rfl, rfl⟩

/-- `sameNS` is reflexive. -/
theorem sameNS_refl (σ : Store) : sameNS σ σ := fun _ => ⟨rfl, rfl⟩

/-- `sameNS` composes. -/
theorem sameNS_trans (σ₁ σ₂ σ₃ : Store) (h₁ : sameNS σ₁ σ₂)
    (h₂ : sameNS σ₂ σ₃) : sameNS σ₁ σ₃ := by
  intro i
  exact ⟨(h₂ i).1.trans (h₁ i).1, (h₂ i).2.trans (h₁ i).2⟩

/-- Writing back the value already stored is a no-op. -/
theorem set_getD_self {α : Type} (l : List α) (i : Nat) (d : α) :
    l.set i (l.getD i d) = l := by
  induction l generalizing i with
  | nil => simp [List.set]
  | cons hd tl ih =>
    cases i with
    | zero => simp [List.set, List.getD_cons_zero]
    | succ i =>
      simp only [List.set, List.getD_cons_succ]
      rw [ih i]

/-- Writing back an object's own definition is a no-op. -/
theorem setDef_self (σ : Store) (i : TypeId) (d : TypeDef)
    (h : (getObj σ i).defn = d) : setDef σ i d = σ := by
  unfold setDef
  rw [← h]
  have hobj : { getObj σ i with defn := (getObj σ i).defn } = getObj σ i := rfl
  rw [hobj]
  exact set_getD_self σ i defaultObj


/-! ### `buildActual` and re-keying characterisation. -/

/-- Membership in the considered entries. -/
theorem mem_consideredEntries (σ : Store) (M : TypeMap) (n : String) (i : TypeId) :
    (n, i) ∈ consideredEntries σ M ↔
      ∃ k, (k, some i) ∈ M ∧ startsWithDunder k = false ∧
        startsWithDunder (getObj σ i).name = false ∧ (getObj σ i).name = n := by
  unfold consideredEntries
  rw [List.mem_filterMap]
  constructor
  · rintro ⟨⟨k, v⟩, hmem, hf⟩
    cases v with
    | none => simp at hf
    | some j =>
      by_cases hd1 : startsWithDunder k || startsWithDunder (getObj σ j).name
      · simp [hd1] at hf
      · simp only [hd1, if_neg] at hf
        simp only [Bool.or_eq_true, not_or, Bool.not_eq_true] at hd1
        rw [if_neg (by simp [hd1.1, hd1.2])] at hf
        cases hf
        exact ⟨k, hmem, hd1.1, hd1.2, rfl⟩
  · rintro ⟨k, hmem, hk, hn, hname⟩
    refine ⟨(k, some i), hmem, ?_⟩
    show (if (startsWithDunder k || startsWithDunder (getObj σ i).name) = true
      then none else some ((getObj σ i).name, i)) = some (n, i)
    rw [if_neg (by simp [hk, hn])]
    rw [hname]

/-- A successful `buildActual` run appends exactly the considered
entries. -/
theorem buildActual_ok (σ : Store) :
    ∀ (M : TypeMap) (acc : List (String × TypeId)),
      ((acc ++ consideredEntries σ M).map Prod.fst).Nodup →
      buildActual σ M acc = .ok (acc ++ consideredEntries σ M) := by
  intro M
  induction M with
  | nil =>
    intro acc h
    simp [buildActual, consideredEntries]
  | cons hd tl ih =>
    intro acc h
    obtain ⟨k, v⟩ := hd
    cases v with
    | none =>
      have hce : consideredEntries σ ((k, none) :: tl) = consideredEntries σ tl := by
        simp [consideredEntries]
      rw [hce] at h
      simpa [buildActual, hce] using ih acc h
    | some i =>
      by_cases hk : startsWithDunder k
      · have hce : consideredEntries σ ((k, some i) :: tl) = consideredEntries σ tl := by
          simp [consideredEntries, hk]
        rw [hce] at h
        simpa [buildActual, hk, hce] using ih acc h
      · by_cases hn : startsWithDunder (getObj σ i).name
        · have hce : consideredEntries σ ((k, some i) :: tl) = consideredEntries σ tl := by
            simp [consideredEntries, hk, hn]
          rw [hce] at h
          simpa [buildActual, hk, hn, hce] using ih acc h
        · have hce : consideredEntries σ ((k, some i) :: tl) =
              ((getObj σ i).name, i) :: consideredEntries σ tl := by
            simp [consideredEntries, hk, hn]
          rw [hce] at h
          have hfresh : (getObj σ i).name ∉ acc.map Prod.fst := by
            intro hc
            have h2 : ¬ (acc.map Prod.fst ++
                (getObj σ i).name :: (consideredEntries σ tl).map Prod.fst).Nodup := by
              intro hnd
              rcases List.nodup_append.mp hnd with ⟨_, _, hdisj⟩
              exact hdisj hc (by simp)
            exact h2 (by simpa using h)
          have hkey : hasKeyA acc (getObj σ i).name = false := by
            unfold hasKeyA
            rw [(lookupA_eq_none_iff acc _).mpr hfresh]
            rfl
          have hstep : buildActual σ ((k, some i) :: tl) acc =
              buildActual σ tl (acc ++ [((getObj σ i).name, i)]) := by
            simp [buildActual, hk, hn, hkey]
          rw [hstep, hce]
          have hassoc : (acc ++ [((getObj σ i).name, i)]) ++ consideredEntries σ tl =
              acc ++ (((getObj σ i).name, i) :: consideredEntries σ tl) := by
            simp
          rw [← hassoc]
          exact ih _ (by rw [hassoc]; exact h)

/-- A colliding actual name makes `buildActual` throw `Duplicate schema
type name`. -/
theorem buildActual_error (σ : Store) :
    ∀ (M : TypeMap) (acc : List (String × TypeId)),
      (acc.map Prod.fst).Nodup →
      ¬ ((acc ++ consideredEntries σ M).map Prod.fst).Nodup →
      ∃ n, buildActual σ M acc = .error (.duplicate n) := by
  intro M
  induction M with
  | nil =>
    intro acc hacc h
    exact absurd (by simpa [consideredEntries] using hacc) h
  | cons hd tl ih =>
    intro acc hacc h
    obtain ⟨k, v⟩ := hd
    cases v with
    | none =>
      have hce : consideredEntries σ ((k, none) :: tl) = consideredEntries σ tl := by
        simp [consideredEntries]
      rw [hce] at h
      simpa [buildActual] using ih acc hacc h
    | some i =>
      by_cases hk : startsWithDunder k
      · have hce : consideredEntries σ ((k, some i) :: tl) = consideredEntries σ tl := by
          simp [consideredEntries, hk]
        rw [hce] at h
        simpa [buildActual, hk] using ih acc hacc h
      · by_cases hn : startsWithDunder (getObj σ i).name
        · have hce : consideredEntries σ ((k, some i) :: tl) = consideredEntries σ tl := by
            simp [consideredEntries, hk, hn]
          rw [hce] at h
          simpa [buildActual, hk, hn] using ih acc hacc h
        · have hce : consideredEntries σ ((k, some i) :: tl) =
              ((getObj σ i).name, i) :: consideredEntries σ tl := by
            simp [consideredEntries, hk, hn]
          rw [hce] at h
          by_cases hkey : hasKeyA acc (getObj σ i).name
          · exact ⟨(getObj σ i).name, by simp [buildActual, hk, hn, hkey]⟩
          · have hfresh : (getObj σ i).name ∉ acc.map Prod.fst := by
              intro hc
              exact hkey (by
                unfold hasKeyA
                rcases List.mem_map.mp hc with ⟨⟨n2, i2⟩, hmem, hfst⟩
                cases hfst
                rw [mem_lookupA acc _ i2 hacc hmem]
                rfl)
            have hacc2 : ((acc ++ [((getObj σ i).name, i)]).map Prod.fst).Nodup := by
              simp only [List.map_append, List.map_cons, List.map_nil]
              rw [List.nodup_append]
              refine ⟨hacc, List.nodup_singleton _, ?_⟩
              intro a ha hb
              simp at hb
              subst hb
              exact hfresh ha
            have hassoc : (acc ++ [((getObj σ i).name, i)]) ++ consideredEntries σ tl =
                acc ++ (((getObj σ i).name, i) :: consideredEntries σ tl) := by
              simp
            have hne : ¬ (((acc ++ [((getObj σ i).name, i)]) ++
                consideredEntries σ tl).map Prod.fst).Nodup := by
              rw [hassoc]
              exact h
            have hrec := ih (acc ++ [((getObj σ i).name, i)]) hacc2 hne
            have hstep : buildActual σ ((k, some i) :: tl) acc =
                buildActual σ tl (acc ++ [((getObj σ i).name, i)]) := by
              simp [buildActual, hk, hn, hkey]
            rw [hstep]
            exact hrec

/-- A successful `buildActual` from the empty accumulator yields the
considered entries, with duplicate-free names. -/
theorem buildActual_elim (σ : Store) (M : TypeMap)
    (A : List (String × TypeId)) (h : buildActual σ M [] = .ok A) :
    A = consideredEntries σ M ∧ ((consideredEntries σ M).map Prod.fst).Nodup := by
  by_cases hnd : ((consideredEntries σ M).map Prod.fst).Nodup
  · have := buildActual_ok σ M [] (by simpa using hnd)
    rw [h] at this
    cases this
    exact ⟨by simp, hnd⟩
  · obtain ⟨n, herr⟩ := buildActual_error σ M [] (by simp) (by simpa using hnd)
    rw [h] at herr
    cases herr

/-- Re-keying binds every considered name to its type. -/
theorem readd_lookup_mem (M : TypeMap) :
    ∀ (A : List (String × TypeId)), (A.map Prod.fst).Nodup →
      ∀ n i, (n, i) ∈ A → lookupTM (readdActual M A) n = some (some i) := by
  suffices hgen : ∀ (A : List (String × TypeId)) (M₀ : TypeMap),
      (A.map Prod.fst).Nodup →
      ∀ n i, (n, i) ∈ A → lookupTM (readdActual M₀ A) n = some (some i) by
    intro A hnd n i hmem
    exact hgen A M hnd n i hmem
  intro A
  induction A with
  | nil => intro M₀ _ n i hmem; simp at hmem
  | cons hd tl ih =>
    intro M₀ hnd n i hmem
    obtain ⟨n2, i2⟩ := hd
    have hnd2 : (tl.map Prod.fst).Nodup := (List.nodup_cons.mp (by simpa using hnd)).2
    rcases List.mem_cons.mp hmem with heq | hmem2
    · cases heq
      have hrest : n ∉ tl.map Prod.fst := (List.nodup_cons.mp (by simpa using hnd)).1
      show lookupTM (readdActual (setTM M₀ n (some i)) tl) n = some (some i)
      have : ∀ (tl2 : List (String × TypeId)) (M2 : TypeMap),
          n ∉ tl2.map Prod.fst → lookupTM M2 n = some (some i) →
          lookupTM (readdActual M2 tl2) n = some (some i) := by
        intro tl2
        induction tl2 with
        | nil => intro M2 _ hl; simpa [readdActual] using hl
        | cons hd3 tl3 ih3 =>
          intro M2 hnm hl
          obtain ⟨n3, i3⟩ := hd3
          rw [List.map_cons] at hnm
          have hne : n ≠ n3 := by
            intro hc
            exact hnm (by rw [hc]; exact List.mem_cons_self _ _)
          have hnm3 : n ∉ tl3.map Prod.fst := fun hc =>
            hnm (List.mem_cons_of_mem _ hc)
          show lookupTM (readdActual (setTM M2 n3 (some i3)) tl3) n = some (some i)
          exact ih3 (setTM M2 n3 (some i3)) hnm3
            (by rw [setTM_lookup_other M2 n3 (some i3) n hne]; exact hl)
      exact this tl (setTM M₀ n (some i)) hrest (setTM_lookup_self M₀ n (some i))
    · show lookupTM (readdActual (setTM M₀ n2 (some i2)) tl) n = some (some i)
      exact ih (setTM M₀ n2 (some i2)) hnd2 n i hmem2

/-- Re-keying leaves unconsidered names' bindings alone. -/
theorem readd_lookup_other (M : TypeMap) :
    ∀ (A : List (String × TypeId)) (n : String), n ∉ A.map Prod.fst →
      lookupTM (readdActual M A) n = lookupTM M n := by
  suffices hgen : ∀ (A : List (String × TypeId)) (M₀ : TypeMap) (n : String),
      n ∉ A.map Prod.fst → lookupTM (readdActual M₀ A) n = lookupTM M₀ n by
    intro A n h
    exact hgen A M n h
  intro A
  induction A with
  | nil => intro M₀ n _; simp [readdActual]
  | cons hd tl ih =>
    intro M₀ n h
    obtain ⟨n2, i2⟩ := hd
    rw [List.map_cons] at h
    have hne : n ≠ n2 := by
      intro hc
      exact h (by rw [hc]; exact List.mem_cons_self _ _)
    have h2 : n ∉ tl.map Prod.fst := fun hc => h (List.mem_cons_of_mem _ hc)
    show lookupTM (readdActual (setTM M₀ n2 (some i2)) tl) n = lookupTM M₀ n
    rw [ih (setTM M₀ n2 (some i2)) n h2]
    exact setTM_lookup_other M₀ n2 (some i2) n hne

/-- Re-keying preserves duplicate-free keys. -/
theorem readd_nodup (M : TypeMap) :
    ∀ (A : List (String × TypeId)), KeysNodup M → KeysNodup (readdActual M A) := by
  suffices hgen : ∀ (A : List (String × TypeId)) (M₀ : TypeMap),
      KeysNodup M₀ → KeysNodup (readdActual M₀ A) by
    intro A h
    exact hgen A M h
  intro A
  induction A with
  | nil => intro M₀ h; simpa [readdActual] using h
  | cons hd tl ih =>
    intro M₀ h
    show KeysNodup (readdActual (setTM M₀ hd.1 (some hd.2)) tl)
    exact ih _ (setTM_nodup M₀ hd.1 (some hd.2) h)

/-- Re-keying never drops a key. -/
theorem readd_keeps_key (M : TypeMap) :
    ∀ (A : List (String × TypeId)) (k : String),
      (lookupTM M k).isSome → (lookupTM (readdActual M A) k).isSome := by
  suffices hgen : ∀ (A : List (String × TypeId)) (M₀ : TypeMap) (k : String),
      (lookupTM M₀ k).isSome → (lookupTM (readdActual M₀ A) k).isSome by
    intro A k h
    exact hgen A M k h
  intro A
  induction A with
  | nil => intro M₀ k h; simpa [readdActual] using h
  | cons hd tl ih =>
    intro M₀ k h
    show (lookupTM (readdActual (setTM M₀ hd.1 (some hd.2)) tl) k).isSome
    refine ih _ k ?_
    by_cases hk : k = hd.1
    · subst hk
      rw [setTM_lookup_self]
      rfl
    · rw [setTM_lookup_other M₀ hd.1 (some hd.2) k hk]
      exact h

/-- Re-keying an already-consistent map is a no-op. -/
theorem readd_self (M : TypeMap) :
    ∀ (A : List (String × TypeId)),
      (∀ p ∈ A, lookupTM M p.1 = some (some p.2)) → readdActual M A = M := by
  intro A
  induction A with
  | nil => intro _; simp [readdActual]
  | cons hd tl ih =>
    intro h
    show readdActual (setTM M hd.1 (some hd.2)) tl = M
    rw [setTM_self M hd.1 (some hd.2) (h hd (by simp))]
    exact ih (fun p hp => h p (by simp [hp]))


/-! ### Growth of the type map during a pass: healing only appends fresh
keys, and keeps keys duplicate-free. -/

/-- The map after a heal step extends the map before it and preserves
duplicate-free keys. -/
def Grow (Mt Mt' : TypeMap) : Prop :=
  (∃ X, Mt' = Mt ++ X) ∧ (KeysNodup Mt → KeysNodup Mt')

/-- Growth is reflexive. -/
theorem grow_refl (Mt : TypeMap) : Grow Mt Mt :=
  ⟨⟨[], by simp⟩, fun h => h⟩

/-- Growth composes. -/
theorem grow_trans {M₁ M₂ M₃ : TypeMap} (h₁ : Grow M₁ M₂) (h₂ : Grow M₂ M₃) :
    Grow M₁ M₃ := by
  obtain ⟨⟨X₁, hX₁⟩, hn₁⟩ := h₁
  obtain ⟨⟨X₂, hX₂⟩, hn₂⟩ := h₂
  exact ⟨⟨X₁ ++ X₂, by rw [hX₂, hX₁, List.append_assoc]⟩, fun h => hn₂ (hn₁ h)⟩

/-- A present binding persists under growth. -/
theorem grow_lookup {Mt Mt' : TypeMap} (h : Grow Mt Mt') (k : String)
    (v : Option TypeId) (hl : lookupTM Mt k = some v) :
    lookupTM Mt' k = some v := by
  obtain ⟨⟨X, hX⟩, _⟩ := h
  rw [hX]
  exact lookupTM_append_left Mt X k v hl

/-- `healType` only grows the map. -/
theorem healType_grow (σ : Store) (bf : TypeId → TypeId) :
    ∀ (r : TypeRef) (Mt : TypeMap), Grow Mt (healType σ bf r Mt).1 := by
  intro r
  induction r with
  | named i =>
    intro Mt
    simp only [healType]
    cases hl : lookupTM Mt (getObj σ i).name with
    | some v =>
      cases v with
      | some j => exact grow_refl Mt
      | none => exact grow_refl Mt
    | none =>
      have hfresh : (getObj σ i).name ∉ keysOf Mt := (lookupTM_eq_none_iff _ _).mp hl
      constructor
      · refine ⟨[((getObj σ i).name, some (if (getObj σ i).stub then bf i else i))], ?_⟩
        exact setTM_keys_fresh Mt _ _ hfresh
      · intro h
        exact setTM_nodup Mt _ _ h
  | listOf t ih =>
    intro Mt
    have : (healType σ bf (.listOf t) Mt).1 = (healType σ bf t Mt).1 := by
      simp only [healType]
    rw [this]
    exact ih Mt
  | nonNull t ih =>
    intro Mt
    have : (healType σ bf (.nonNull t) Mt).1 = (healType σ bf t Mt).1 := by
      simp only [healType]
    rw [this]
    exact ih Mt

/-- `healArgs` only grows the map. -/
theorem healArgs_grow (σ : Store) (bf : TypeId → TypeId) :
    ∀ (as : List ArgDef) (Mt : TypeMap), Grow Mt (healArgs σ bf as Mt).1 := by
  intro as
  induction as with
  | nil => intro Mt; exact grow_refl Mt
  | cons a rest ih =>
    intro Mt
    have hstep : (healArgs σ bf (a :: rest) Mt).1 =
        (healArgs σ bf rest (healType σ bf a.type Mt).1).1 := by
      simp only [healArgs]
      rcases healType σ bf a.type Mt with ⟨M1, h⟩
      rcases hra : healArgs σ bf rest M1 with ⟨M2, rest2⟩
      cases h with
      | none => simp [hra]
      | some t => simp [hra]
    rw [hstep]
    exact grow_trans (healType_grow σ bf a.type Mt) (ih _)

/-- `healFieldList` only grows the map. -/
theorem healFieldList_grow (σ : Store) (bf : TypeId → TypeId) :
    ∀ (fs : List (String × FieldDef)) (Mt : TypeMap),
      Grow Mt (healFieldList σ bf fs Mt).1 := by
  intro fs
  induction fs with
  | nil => intro Mt; exact grow_refl Mt
  | cons f rest ih =>
    intro Mt
    obtain ⟨fname, fd⟩ := f
    have hstep : (healFieldList σ bf ((fname, fd) :: rest) Mt).1 =
        (healFieldList σ bf rest
          (healType σ bf fd.type (healArgs σ bf fd.args Mt).1).1).1 := by
      simp only [healFieldList]
      rcases healArgs σ bf fd.args Mt with ⟨M1, args2⟩
      rcases healType σ bf fd.type M1 with ⟨M2, h⟩
      rcases hrest : healFieldList σ bf rest M2 with ⟨M3, rest2⟩
      cases h with
      | none => simp [hrest]
      | some t => simp [hrest]
    rw [hstep]
    exact grow_trans (healArgs_grow σ bf fd.args Mt)
      (grow_trans (healType_grow σ bf fd.type _) (ih _))

/-- `healRefList` only grows the map. -/
theorem healRefList_grow (σ : Store) (bf : TypeId → TypeId) :
    ∀ (rs : List TypeRef) (Mt : TypeMap), Grow Mt (healRefList σ bf rs Mt).1 := by
  intro rs
  induction rs with
  | nil => intro Mt; exact grow_refl Mt
  | cons r rest ih =>
    intro Mt
    have hstep : (healRefList σ bf (r :: rest) Mt).1 =
        (healRefList σ bf rest (healType σ bf r Mt).1).1 := by
      simp only [healRefList]
      rcases healType σ bf r Mt with ⟨M1, h⟩
      rcases hrest : healRefList σ bf rest M1 with ⟨M2, rest2⟩
      cases h with
      | none => simp [hrest]
      | some t => simp [hrest]
    rw [hstep]
    exact grow_trans (healType_grow σ bf r Mt) (ih _)

/-- `healInputFieldList` only grows the map. -/
theorem healInputFieldList_grow (σ : Store) (bf : TypeId → TypeId) :
    ∀ (fs : List (String × TypeRef)) (Mt : TypeMap),
      Grow Mt (healInputFieldList σ bf fs Mt).1 := by
  intro fs
  induction fs with
  | nil => intro Mt; exact grow_refl Mt
  | cons f rest ih =>
    intro Mt
    obtain ⟨fname, r⟩ := f
    have hstep : (healInputFieldList σ bf ((fname, r) :: rest) Mt).1 =
        (healInputFieldList σ bf rest (healType σ bf r Mt).1).1 := by
      simp only [healInputFieldList]
      rcases healType σ bf r Mt with ⟨M1, h⟩
      rcases hrest : healInputFieldList σ bf rest M1 with ⟨M2, rest2⟩
      cases h with
      | none => simp [hrest]
      | some t => simp [hrest]
    rw [hstep]
    exact grow_trans (healType_grow σ bf r Mt) (ih _)

/-- `healDef` only grows the map. -/
theorem healDef_grow (σ : Store) (bf : TypeId → TypeId) (d : TypeDef)
    (Mt : TypeMap) : Grow Mt (healDef σ bf d Mt).1 := by
  cases d with
  | object fields interfaces =>
    have hstep : (healDef σ bf (.object fields interfaces) Mt).1 =
        (healRefList σ bf interfaces (healFieldList σ bf fields Mt).1).1 := by
      simp only [healDef]
    rw [hstep]
    exact grow_trans (healFieldList_grow σ bf fields Mt) (healRefList_grow σ bf interfaces _)
  | iface fields =>
    have hstep : (healDef σ bf (.iface fields) Mt).1 =
        (healFieldList σ bf fields Mt).1 := by
      simp only [healDef]
    rw [hstep]
    exact healFieldList_grow σ bf fields Mt
  | union members =>
    have hstep : (healDef σ bf (.union members) Mt).1 =
        (healRefList σ bf members Mt).1 := by
      simp only [healDef]
    rw [hstep]
    exact healRefList_grow σ bf members Mt
  | inputObject fields =>
    have hstep : (healDef σ bf (.inputObject fields) Mt).1 =
        (healInputFieldList σ bf fields Mt).1 := by
      simp only [healDef]
    rw [hstep]
    exact healInputFieldList_grow σ bf fields Mt
  | scalar => exact grow_refl Mt
  | enum => exact grow_refl Mt

/-- `healDirectives` only grows the map. -/
theorem healDirectives_grow (σ : Store) (bf : TypeId → TypeId) :
    ∀ (ds : List DirectiveDef) (Mt : TypeMap),
      Grow Mt (healDirectives σ bf ds Mt).1 := by
  intro ds
  induction ds with
  | nil => intro Mt; exact grow_refl Mt
  | cons d rest ih =>
    intro Mt
    have hstep : (healDirectives σ bf (d :: rest) Mt).1 =
        (healDirectives σ bf rest (healArgs σ bf d.args Mt).1).1 := by
      simp only [healDirectives]
    rw [hstep]
    exact grow_trans (healArgs_grow σ bf d.args Mt) (ih _)

/-- The heal loop only grows the map and only rewrites definitions in
the store. -/
theorem healLoop_grow (bf : TypeId → TypeId) (A : List (String × TypeId)) :
    ∀ (ks : List String) (σt : Store) (Mt : TypeMap),
      Grow Mt (healLoop bf A ks σt Mt).2 ∧
      sameNS σt (healLoop bf A ks σt Mt).1 := by
  intro ks
  induction ks with
  | nil =>
    intro σt Mt
    exact ⟨grow_refl Mt, sameNS_refl σt⟩
  | cons k rest ih =>
    intro σt Mt
    by_cases hc : ¬ startsWithDunder k ∧ hasKeyA A k
    · cases hl : lookupTM Mt k with
      | some v =>
        cases v with
        | some i =>
          have hstep : healLoop bf A (k :: rest) σt Mt =
              healLoop bf A rest (setDef σt i (healDef σt bf (getObj σt i).defn Mt).2)
                (healDef σt bf (getObj σt i).defn Mt).1 := by
            simp only [healLoop, if_pos hc, hl]
          rw [hstep]
          refine ⟨grow_trans (healDef_grow σt bf _ Mt) (ih _ _).1, ?_⟩
          exact sameNS_trans _ _ _ (sameNS_setDef σt i _) (ih _ _).2
        | none =>
          have hstep : healLoop bf A (k :: rest) σt Mt =
              healLoop bf A rest σt Mt := by
            simp only [healLoop, if_pos hc, hl]
          rw [hstep]
          exact ih σt Mt
      | none =>
        have hstep : healLoop bf A (k :: rest) σt Mt =
            healLoop bf A rest σt Mt := by
          simp only [healLoop, if_pos hc, hl]
        rw [hstep]
        exact ih σt Mt
    · have hstep : healLoop bf A (k :: rest) σt Mt =
          healLoop bf A rest σt Mt := by
        simp only [healLoop, if_neg hc]
      rw [hstep]
      exact ih σt Mt


/-! ### The pass as a whole: explicit result, key facts, and the
duplicate-error characterisation. -/

/-- Explicit form of a successful pass. -/
theorem healPass_eq (bf : TypeId → TypeId) (s : HState)
    (A : List (String × TypeId)) (h : buildActual s.σ s.M [] = .ok A) :
    healPass bf s = .ok
      { σ := (healLoop bf A
          (keysOf (healDirectives s.σ bf s.D (readdActual s.M A)).1)
          s.σ (healDirectives s.σ bf s.D (readdActual s.M A)).1).1,
        M := sweepTM A (healLoop bf A
          (keysOf (healDirectives s.σ bf s.D (readdActual s.M A)).1)
          s.σ (healDirectives s.σ bf s.D (readdActual s.M A)).1).2,
        D := (healDirectives s.σ bf s.D (readdActual s.M A)).2 } := by
  simp only [healPass, h]
  rfl

/-- A pass fails exactly as its duplicate check does. -/
theorem healPass_err (bf : TypeId → TypeId) (s : HState) (e : HealError)
    (h : buildActual s.σ s.M [] = .error e) : healPass bf s = .error e := by
  simp only [healPass, h]
  rfl

/-- Under the keys-are-names invariant, the considered names form a
sublist of the keys. -/
theorem consideredNames_sublist (σ : Store) :
    ∀ (M : TypeMap), KeysNamed σ M →
      List.Sublist (consideredNames σ M) (keysOf M) := by
  intro M
  induction M with
  | nil => intro _; simp [consideredNames, consideredEntries, keysOf]
  | cons hd tl ih =>
    intro hkn
    obtain ⟨k, v⟩ := hd
    have htl : KeysNamed σ tl := by
      intro kv hm h2
      exact hkn kv (List.mem_cons_of_mem _ hm) h2
    have hkeys : keysOf ((k, v) :: tl) = k :: keysOf tl := by simp [keysOf]
    cases v with
    | none =>
      have hce : consideredNames σ ((k, none) :: tl) = consideredNames σ tl := by
        simp [consideredNames, consideredEntries]
      rw [hce, hkeys]
      exact (ih htl).cons k
    | some i =>
      by_cases hdk : startsWithDunder k
      · have hce : consideredNames σ ((k, some i) :: tl) = consideredNames σ tl := by
          simp [consideredNames, consideredEntries, hdk]
        rw [hce, hkeys]
        exact (ih htl).cons k
      · obtain ⟨i2, hv, hname⟩ := hkn (k, some i) (List.mem_cons_self _ _)
          (by simpa using hdk)
        have hii : i2 = i := (Option.some.inj hv).symm
        subst hii
        have hname2 : (getObj σ i2).name = k := hname
        have hnd : startsWithDunder (getObj σ i2).name = false := by
          rw [hname2]
          simpa using hdk
        have hce : consideredNames σ ((k, some i2) :: tl) =
            (getObj σ i2).name :: consideredNames σ tl := by
          simp [consideredNames, consideredEntries, hdk, hnd]
        rw [hce, hkeys, hname2]
        exact (ih htl).cons₂ k

/-- Keys-are-names plus duplicate-free keys give duplicate-free
considered names. -/
theorem consideredNames_nodup (σ : Store) (M : TypeMap)
    (hkn : KeysNamed σ M) (hnd : KeysNodup M) :
    (consideredNames σ M).Nodup :=
  hnd.sublist (consideredNames_sublist σ M hkn)

/-- A successful pass restores keys-are-names and duplicate-free keys,
and does not rename or restub any object. -/
theorem healPass_keys (bf : TypeId → TypeId) (s p : HState)
    (hknd : KeysNodup s.M) (hp : healPass bf s = .ok p) :
    KeysNamed p.σ p.M ∧ KeysNodup p.M ∧ sameNS s.σ p.σ := by
  cases hba : buildActual s.σ s.M [] with
  | error e =>
    rw [healPass_err bf s e hba] at hp
    cases hp
  | ok A =>
    obtain ⟨hAce, hAnd⟩ := buildActual_elim s.σ s.M A hba
    rw [healPass_eq bf s A hba] at hp
    cases hp
    set M₂ := readdActual s.M A with hM₂
    set M₃ := (healDirectives s.σ bf s.D M₂).1 with hM₃
    set res := healLoop bf A (keysOf M₃) s.σ M₃ with hres
    have hgrow₃ : Grow M₂ M₃ := healDirectives_grow s.σ bf s.D M₂
    have hloop := healLoop_grow bf A (keysOf M₃) s.σ M₃
    have hgrow₄ : Grow M₂ res.2 := grow_trans hgrow₃ hloop.1
    have hnd₂ : KeysNodup M₂ := readd_nodup s.M A hknd
    have hnd₄ : KeysNodup res.2 := hgrow₄.2 hnd₂
    have hndA : (A.map Prod.fst).Nodup := by rw [hAce]; exact hAnd
    refine ⟨?_, ?_, ?_⟩
    · intro kv hmem hdund
      obtain ⟨kk, vv⟩ := kv
      simp only at hdund ⊢
      have hmem₄ : (kk, vv) ∈ res.2 ∧
          (startsWithDunder kk || hasKeyA A kk) = true := by
        have hmf := List.mem_filter.mp hmem
        exact ⟨hmf.1, hmf.2⟩
      have hkey : hasKeyA A kk = true := by
        rcases Bool.or_eq_true_iff.mp hmem₄.2 with h1 | h1
        · rw [hdund] at h1
          cases h1
        · exact h1
      obtain ⟨i, hlA⟩ : ∃ i, lookupA A kk = some i := by
        unfold hasKeyA at hkey
        exact Option.isSome_iff_exists.mp hkey
      have hmemA : (kk, i) ∈ A := lookupA_mem A kk i hlA
      have hname : (getObj s.σ i).name = kk := by
        rw [hAce] at hmemA
        obtain ⟨k2, _, _, _, hn⟩ := (mem_consideredEntries s.σ s.M kk i).mp hmemA
        exact hn
      have hl₂ : lookupTM M₂ kk = some (some i) :=
        readd_lookup_mem s.M A hndA kk i hmemA
      have hl₄ : lookupTM res.2 kk = some (some i) := grow_lookup hgrow₄ _ _ hl₂
      have hlv : lookupTM res.2 kk = some vv :=
        mem_lookupTM res.2 kk vv hnd₄ hmem₄.1
      rw [hl₄] at hlv
      refine ⟨i, ?_, ?_⟩
      · exact (Option.some.inj hlv).symm
      · rw [(hloop.2 i).1]
        exact hname
    · exact keysNodup_filter _ res.2 hnd₄
    · exact hloop.2

/-- Pruning keeps keys-are-names and duplicate-free keys. -/
theorem pruneStep_preserves (σ : Store) (M : TypeMap)
    (hkn : KeysNamed σ M) (hnd : KeysNodup M) :
    KeysNamed σ (pruneStep σ M).1 ∧ KeysNodup (pruneStep σ M).1 := by
  constructor
  · intro kv hmem h2
    exact hkn kv (List.mem_filter.mp hmem).1 h2
  · exact keysNodup_filter _ M hnd

/-- One-step unfolding of `healTypes`. -/
theorem healTypes_succ (bf : TypeId → TypeId) (fuel : Nat) (s : HState)
    (c : Bool) :
    healTypes bf (fuel + 1) s c =
      match healPass bf s with
      | .error e => .error e
      | .ok s' =>
        if c then .ok s'
        else
          if (pruneStep s'.σ s'.M).2 then
            healTypes bf fuel ⟨s'.σ, (pruneStep s'.σ s'.M).1, s'.D⟩ false
          else .ok ⟨s'.σ, (pruneStep s'.σ s'.M).1, s'.D⟩ := by
  cases hp : healPass bf s with
  | error e =>
    simp only [healTypes, hp]
    rfl
  | ok s' =>
    simp only [healTypes, hp]
    cases c with
    | true => rfl
    | false => rfl

/-- No round after a collision-free first check can raise the duplicate
error. -/
theorem healTypes_no_dup (bf : TypeId → TypeId) :
    ∀ (f : Nat) (s : HState) (c : Bool),
      (consideredNames s.σ s.M).Nodup → KeysNodup s.M →
      ∀ n, healTypes bf f s c ≠ .error (.duplicate n) := by
  intro f
  induction f with
  | zero =>
    intro s c _ _ n h
    cases h
  | succ f ih =>
    intro s c hcn hknd n
    cases hba : buildActual s.σ s.M [] with
    | error e =>
      exfalso
      by_cases hnd2 : ((consideredEntries s.σ s.M).map Prod.fst).Nodup
      · have hok := buildActual_ok s.σ s.M [] (by simpa using hnd2)
        rw [hba] at hok
        cases hok
      · exact hnd2 (by simpa [consideredNames] using hcn)
    | ok A =>
      set p : HState :=
        { σ := (healLoop bf A
            (keysOf (healDirectives s.σ bf s.D (readdActual s.M A)).1)
            s.σ (healDirectives s.σ bf s.D (readdActual s.M A)).1).1,
          M := sweepTM A (healLoop bf A
            (keysOf (healDirectives s.σ bf s.D (readdActual s.M A)).1)
            s.σ (healDirectives s.σ bf s.D (readdActual s.M A)).1).2,
          D := (healDirectives s.σ bf s.D (readdActual s.M A)).2 } with hpdef
      have hpass : healPass bf s = .ok p := healPass_eq bf s A hba
      have hrun : healTypes bf (f + 1) s c =
          (if c then .ok p
          else
            if (pruneStep p.σ p.M).2 then
              healTypes bf f ⟨p.σ, (pruneStep p.σ p.M).1, p.D⟩ false
            else .ok ⟨p.σ, (pruneStep p.σ p.M).1, p.D⟩) := by
        rw [healTypes_succ, hpass]
      rw [hrun]
      have hpk : KeysNamed p.σ p.M ∧ KeysNodup p.M ∧ sameNS s.σ p.σ :=
        healPass_keys bf s p hknd hpass
      cases c with
      | true =>
        intro h
        cases h
      | false =>
        simp only [Bool.false_eq_true, if_false]
        have hprune := pruneStep_preserves p.σ p.M hpk.1 hpk.2.1
        by_cases hch : (pruneStep p.σ p.M).2
        · rw [if_pos hch]
          exact ih ⟨p.σ, (pruneStep p.σ p.M).1, p.D⟩ false
            (consideredNames_nodup p.σ _ hprune.1 hprune.2) hprune.2 n
        · rw [if_neg hch]
          intro h
          cases h

/-- C3: `healTypes` throws the `Duplicate schema type name` error exactly
when two distinct entries of the input type map resolve to the same
actual name, counting only non-null entries whose key and actual name do
not start with `__`: such a collision makes it throw synchronously in
its first phase, and without one no round of healing (including recursive
prune rounds) ever produces that error. -/
theorem healTypes_duplicate_error_iff (bf : TypeId → TypeId) (σ : Store)
    (M : TypeMap) (D : List DirectiveDef) (c : Bool)
    (hknd : KeysNodup M) :
    (¬ (consideredNames σ M).Nodup →
      ∀ f, ∃ n, healTypes bf (f + 1) ⟨σ, M, D⟩ c = .error (.duplicate n)) ∧
    ((consideredNames σ M).Nodup →
      ∀ f n, healTypes bf f ⟨σ, M, D⟩ c ≠ .error (.duplicate n)) := by
  constructor
  · intro hcol f
    obtain ⟨n, herr⟩ := buildActual_error σ M [] (by simp)
      (by simpa [consideredNames] using hcol)
    refine ⟨n, ?_⟩
    rw [healTypes_succ]
    rw [healPass_err bf ⟨σ, M, D⟩ (.duplicate n) herr]
  · intro hcn f n
    exact healTypes_no_dup bf f ⟨σ, M, D⟩ c hcn hknd n

/-- Witness for C3: the duplicate input throws, the clean input does
not. -/
theorem healTypes_duplicate_error_iff_witness :
    (∃ n, healTypes id 3 c3Dup false = .error (.duplicate n)) ∧
    healTypes id 3 c2In false ≠ .error (.duplicate "A") := by
  constructor
  · exact (healTypes_duplicate_error_iff id c3Dup.σ c3Dup.M c3Dup.D false
      (by decide : (keysOf c3Dup.M).Nodup)).1 (by decide) 2
  · exact (healTypes_duplicate_error_iff id c2In.σ c2In.M c2In.D false
      (by decide : (keysOf c2In.M).Nodup)).2 (by decide) 3 "A"

/-! ### Heal-step congruence: the healing traversals read only names and
stub markers from the store, so stores related by `sameNS` heal
identically. -/

/-- `healType` reads only names and stub markers. -/
theorem healType_congr (σ σt : Store) (bf : TypeId → TypeId)
    (hs : sameNS σ σt) :
    ∀ (r : TypeRef) (Mt : TypeMap),
      healType σt bf r Mt = healType σ bf r Mt := by
  intro r
  induction r with
  | named i =>
    intro Mt
    simp only [healType, (hs i).1, (hs i).2]
  | listOf t ih =>
    intro Mt
    simp only [healType, ih]
  | nonNull t ih =>
    intro Mt
    simp only [healType, ih]

/-- `healArgs` reads only names and stub markers. -/
theorem healArgs_congr (σ σt : Store) (bf : TypeId → TypeId)
    (hs : sameNS σ σt) :
    ∀ (as : List ArgDef) (Mt : TypeMap),
      healArgs σt bf as Mt = healArgs σ bf as Mt := by
  intro as
  induction as with
  | nil => intro Mt; rfl
  | cons a rest ih =>
    intro Mt
    simp only [healArgs, healType_congr σ σt bf hs, ih]

/-- `healFieldList` reads only names and stub markers. -/
theorem healFieldList_congr (σ σt : Store) (bf : TypeId → TypeId)
    (hs : sameNS σ σt) :
    ∀ (fs : List (String × FieldDef)) (Mt : TypeMap),
      healFieldList σt bf fs Mt = healFieldList σ bf fs Mt := by
  intro fs
  induction fs with
  | nil => intro Mt; rfl
  | cons f rest ih =>
    intro Mt
    obtain ⟨fname, fd⟩ := f
    simp only [healFieldList, healArgs_congr σ σt bf hs,
      healType_congr σ σt bf hs, ih]

/-- `healRefList` reads only names and stub markers. -/
theorem healRefList_congr (σ σt : Store) (bf : TypeId → TypeId)
    (hs : sameNS σ σt) :
    ∀ (rs : List TypeRef) (Mt : TypeMap),
      healRefList σt bf rs Mt = healRefList σ bf rs Mt := by
  intro rs
  induction rs with
  | nil => intro Mt; rfl
  | cons r rest ih =>
    intro Mt
    simp only [healRefList, healType_congr σ σt bf hs, ih]

/-- `healInputFieldList` reads only names and stub markers. -/
theorem healInputFieldList_congr (σ σt : Store) (bf : TypeId → TypeId)
    (hs : sameNS σ σt) :
    ∀ (fs : List (String × TypeRef)) (Mt : TypeMap),
      healInputFieldList σt bf fs Mt = healInputFieldList σ bf fs Mt := by
  intro fs
  induction fs with
  | nil => intro Mt; rfl
  | cons f rest ih =>
    intro Mt
    obtain ⟨fname, r⟩ := f
    simp only [healInputFieldList, healType_congr σ σt bf hs, ih]

/-- `healDef` reads only names and stub markers. -/
theorem healDef_congr (σ σt : Store) (bf : TypeId → TypeId)
    (hs : sameNS σ σt) (d : TypeDef) (Mt : TypeMap) :
    healDef σt bf d Mt = healDef σ bf d Mt := by
  cases d with
  | object fields interfaces =>
    simp only [healDef, healFieldList_congr σ σt bf hs,
      healRefList_congr σ σt bf hs]
  | iface fields =>
    simp only [healDef, healFieldList_congr σ σt bf hs]
  | union members =>
    simp only [healDef, healRefList_congr σ σt bf hs]
  | inputObject fields =>
    simp only [healDef, healInputFieldList_congr σ σt bf hs]
  | scalar => rfl
  | enum => rfl

/-! ### Stability transport helpers. -/

/-- A stable reference stays stable when the map grows on the right. -/
theorem refStable_append (σ : Store) (Mt X : TypeMap) (r : TypeRef)
    (h : RefStable σ Mt r) : RefStable σ (Mt ++ X) r :=
  lookupTM_append_left Mt X _ _ h

/-- Reading past the end of the store yields the default object. -/
theorem getObj_out_of_range (σ : Store) (i : TypeId) (h : σ.length ≤ i) :
    getObj σ i = defaultObj := by
  unfold getObj
  induction σ generalizing i with
  | nil => cases i <;> rfl
  | cons hd tl ih =>
    cases i with
    | zero => simp at h
    | succ i =>
      simp only [List.getD_cons_succ]
      exact ih i (by simpa using Nat.le_of_succ_le_succ h)

/-- Goodness survives growth of the map. -/
theorem goodId_append (σ : Store) (Mt X : TypeMap) (σt : Store) (i : TypeId)
    (h : GoodId σ Mt σt i) : GoodId σ (Mt ++ X) σt i := by
  intro r hr
  exact refStable_append σ Mt X r (h r hr)

/-- Goodness survives a definition write at another cell. -/
theorem goodId_setDef_other (σ : Store) (Mt : TypeMap) (σt : Store)
    (i j : TypeId) (d : TypeDef) (hne : j ≠ i) (h : GoodId σ Mt σt i) :
    GoodId σ Mt (setDef σt j d) i := by
  intro r hr
  apply h
  unfold setDef at hr
  rw [getObj_set] at hr
  by_cases hc : j = i ∧ j < σt.length
  · exact absurd hc.1 hne
  · rw [if_neg hc] at hr
    exact hr

/-- Writing a definition with only stable references makes the written
cell good. -/
theorem goodId_setDef_self (σ : Store) (Mt : TypeMap) (σt : Store)
    (i : TypeId) (d : TypeDef)
    (h : ∀ r ∈ refsOfDef d, RefStable σ Mt r) :
    GoodId σ Mt (setDef σt i d) i := by
  intro r hr
  unfold setDef at hr
  rw [getObj_set] at hr
  by_cases hc : i = i ∧ i < σt.length
  · rw [if_pos hc] at hr
    exact h r hr
  · rw [if_neg hc] at hr
    have hlen : σt.length ≤ i := by
      rcases Nat.lt_or_ge i σt.length with hlt | hge
      · exact absurd ⟨rfl, hlt⟩ hc
      · exact hge
    rw [getObj_out_of_range σt i hlen] at hr
    simp [defaultObj, refsOfDef] at hr

/-! ### The establishment pass: healing rewrites every reference into a
canonical, stable one. -/

/-- `healType` on a mid-pass map keeps the mid-pass shape, only appends,
and returns a stable reference whenever it returns one. -/
theorem healType_estab (σ : Store) (bf : TypeId → TypeId) (M₂ : TypeMap)
    (A : List (String × TypeId)) (hrk : ReKeyed σ M₂ A)
    (hnds : NoDunderStore σ) (hswf : StubWF σ bf) :
    ∀ (r : TypeRef) (Mt : TypeMap), MidMap σ M₂ Mt →
      MidMap σ M₂ (healType σ bf r Mt).1 ∧
      (∃ X, (healType σ bf r Mt).1 = Mt ++ X) ∧
      (∀ r2, (healType σ bf r Mt).2 = some r2 →
        RefStable σ (healType σ bf r Mt).1 r2) := by
  intro r
  induction r with
  | named i =>
    intro Mt hmid
    obtain ⟨Aw, hMt, hndt, hAw⟩ := hmid
    cases hl : lookupTM Mt (getObj σ i).name with
    | some v =>
      cases v with
      | some j =>
        have hres : healType σ bf (.named i) Mt = (Mt, some (.named j)) := by
          simp only [healType, hl]
        refine ⟨by rw [hres]; exact ⟨Aw, hMt, hndt, hAw⟩,
          ⟨[], by rw [hres]; simp⟩, ?_⟩
        intro r2 hr2
        rw [hres] at hr2 ⊢
        have hr2e : r2 = TypeRef.named j := (Option.some.inj hr2).symm
        subst hr2e
        show lookupTM Mt (getObj σ j).name = some (some j)
        cases hl2 : lookupTM M₂ (getObj σ i).name with
        | some w =>
          have hlift : lookupTM Mt (getObj σ i).name = some w := by
            rw [hMt]; exact lookupTM_append_left M₂ Aw _ w hl2
          rw [hl] at hlift
          have hw : w = some j := (Option.some.inj hlift).symm
          subst hw
          have hAj := hrk.2 (getObj σ i).name j (hnds i) hl2
          have hM2j := (hrk.1 (getObj σ j).name j hAj).1
          rw [hMt]
          exact lookupTM_append_left M₂ Aw _ _ hM2j
        | none =>
          have hAwl : lookupTM Aw (getObj σ i).name = some (some j) := by
            rw [hMt] at hl
            rwa [lookupTM_append_right M₂ Aw _ hl2] at hl
          have hmem := lookupTM_mem Aw _ _ hAwl
          obtain ⟨j2, hv, hname, _, _⟩ := hAw _ hmem
          have hj : j = j2 := Option.some.inj hv
          subst hj
          rw [hname]
          exact hl
      | none =>
        have hres : healType σ bf (.named i) Mt = (Mt, none) := by
          simp only [healType, hl]
        refine ⟨by rw [hres]; exact ⟨Aw, hMt, hndt, hAw⟩,
          ⟨[], by rw [hres]; simp⟩, ?_⟩
        intro r2 hr2
        rw [hres] at hr2
        cases hr2
    | none =>
      have hfresh : (getObj σ i).name ∉ keysOf Mt := (lookupTM_eq_none_iff _ _).mp hl
      have hres : healType σ bf (.named i) Mt =
          (setTM Mt (getObj σ i).name (some (stubRes σ bf i)),
            some (.named (stubRes σ bf i))) := by
        simp only [healType, hl, stubRes]
      have hset : setTM Mt (getObj σ i).name (some (stubRes σ bf i)) =
          Mt ++ [((getObj σ i).name, some (stubRes σ bf i))] :=
        setTM_keys_fresh Mt _ _ hfresh
      have hname_o : (getObj σ (stubRes σ bf i)).name = (getObj σ i).name := by
        unfold stubRes
        by_cases hst : (getObj σ i).stub
        · rw [if_pos hst]; exact (hswf i).2
        · rw [if_neg hst]
      have hstub_o : (getObj σ (stubRes σ bf i)).stub = false := by
        unfold stubRes
        by_cases hst : (getObj σ i).stub
        · rw [if_pos hst]; exact (hswf i).1
        · rw [if_neg hst]; exact Bool.eq_false_iff.mpr hst
      have hM2none : lookupTM M₂ (getObj σ i).name = none := by
        cases h2 : lookupTM M₂ (getObj σ i).name with
        | some w =>
          have hlift : lookupTM Mt (getObj σ i).name = some w := by
            rw [hMt]; exact lookupTM_append_left M₂ Aw _ w h2
          rw [hl] at hlift
          cases hlift
        | none => rfl
      refine ⟨?_, ?_, ?_⟩
      · refine ⟨Aw ++ [((getObj σ i).name, some (stubRes σ bf i))], ?_, ?_, ?_⟩
        · rw [hres]
          show setTM Mt (getObj σ i).name (some (stubRes σ bf i)) =
            M₂ ++ (Aw ++ [((getObj σ i).name, some (stubRes σ bf i))])
          rw [hset, hMt, List.append_assoc]
        · rw [hres]
          show KeysNodup (setTM Mt (getObj σ i).name (some (stubRes σ bf i)))
          exact setTM_nodup Mt _ _ hndt
        · intro p hp
          rcases List.mem_append.mp hp with hpA | hpN
          · exact hAw p hpA
          · have hpe : p = ((getObj σ i).name, some (stubRes σ bf i)) := by
              simpa using hpN
            subst hpe
            exact ⟨stubRes σ bf i, rfl, hname_o, hstub_o, hM2none⟩
      · exact ⟨[((getObj σ i).name, some (stubRes σ bf i))], by rw [hres]; exact hset⟩
      · intro r2 hr2
        rw [hres] at hr2 ⊢
        have hr2e : r2 = TypeRef.named (stubRes σ bf i) := (Option.some.inj hr2).symm
        subst hr2e
        show lookupTM (setTM Mt (getObj σ i).name (some (stubRes σ bf i)))
            (getObj σ (stubRes σ bf i)).name = some (some (stubRes σ bf i))
        rw [hname_o]
        exact setTM_lookup_self Mt _ _
  | listOf t ih =>
    intro Mt hmid
    rcases hht : healType σ bf t Mt with ⟨M1, h⟩
    obtain ⟨hm1, hX1, hs1⟩ := ih Mt hmid
    rw [hht] at hm1 hX1 hs1
    have hres : healType σ bf (.listOf t) Mt = (M1, h.map TypeRef.listOf) := by
      simp only [healType, hht]
    refine ⟨by rw [hres]; exact hm1, by rw [hres]; exact hX1, ?_⟩
    intro r2 hr2
    rw [hres] at hr2 ⊢
    cases h with
    | none => cases hr2
    | some t2 =>
      have hr2e : r2 = TypeRef.listOf t2 := by
        simpa using hr2.symm
      subst hr2e
      exact hs1 t2 rfl
  | nonNull t ih =>
    intro Mt hmid
    rcases hht : healType σ bf t Mt with ⟨M1, h⟩
    obtain ⟨hm1, hX1, hs1⟩ := ih Mt hmid
    rw [hht] at hm1 hX1 hs1
    have hres : healType σ bf (.nonNull t) Mt = (M1, h.map TypeRef.nonNull) := by
      simp only [healType, hht]
    refine ⟨by rw [hres]; exact hm1, by rw [hres]; exact hX1, ?_⟩
    intro r2 hr2
    rw [hres] at hr2 ⊢
    cases h with
    | none => cases hr2
    | some t2 =>
      have hr2e : r2 = TypeRef.nonNull t2 := by
        simpa using hr2.symm
      subst hr2e
      exact hs1 t2 rfl

/-- `healArgs` keeps the mid-pass shape and every surviving argument's
type stable. -/
theorem healArgs_estab (σ : Store) (bf : TypeId → TypeId) (M₂ : TypeMap)
    (A : List (String × TypeId)) (hrk : ReKeyed σ M₂ A)
    (hnds : NoDunderStore σ) (hswf : StubWF σ bf) :
    ∀ (as : List ArgDef) (Mt : TypeMap), MidMap σ M₂ Mt →
      MidMap σ M₂ (healArgs σ bf as Mt).1 ∧
      (∃ X, (healArgs σ bf as Mt).1 = Mt ++ X) ∧
      (∀ a ∈ (healArgs σ bf as Mt).2,
        RefStable σ (healArgs σ bf as Mt).1 a.type) := by
  intro as
  induction as with
  | nil =>
    intro Mt hmid
    exact ⟨hmid, ⟨[], by simp [healArgs]⟩, by intro a ha; simp [healArgs] at ha⟩
  | cons a rest ih =>
    intro Mt hmid
    rcases hht : healType σ bf a.type Mt with ⟨M1, h⟩
    obtain ⟨hm1, ⟨X1, hX1⟩, hs1⟩ := healType_estab σ bf M₂ A hrk hnds hswf a.type Mt hmid
    rw [hht] at hm1 hX1 hs1
    rcases hra : healArgs σ bf rest M1 with ⟨M2r, rest2⟩
    obtain ⟨hm2, ⟨X2, hX2⟩, hs2⟩ := ih M1 hm1
    rw [hra] at hm2 hX2 hs2
    cases h with
    | none =>
      have hres : healArgs σ bf (a :: rest) Mt = (M2r, rest2) := by
        simp only [healArgs, hht, hra]
      refine ⟨by rw [hres]; exact hm2,
        ⟨X1 ++ X2, by rw [hres, show M2r = M1 ++ X2 from hX2,
          show M1 = Mt ++ X1 from hX1, List.append_assoc]⟩, ?_⟩
      intro a2 ha2
      rw [hres] at ha2 ⊢
      exact hs2 a2 ha2
    | some t =>
      have hres : healArgs σ bf (a :: rest) Mt =
          (M2r, { a with type := t } :: rest2) := by
        simp only [healArgs, hht, hra]
      refine ⟨by rw [hres]; exact hm2,
        ⟨X1 ++ X2, by rw [hres, show M2r = M1 ++ X2 from hX2,
          show M1 = Mt ++ X1 from hX1, List.append_assoc]⟩, ?_⟩
      intro a2 ha2
      rw [hres] at ha2 ⊢
      rcases List.mem_cons.mp ha2 with heq | hmem
      · subst heq
        show RefStable σ M2r t
        rw [show M2r = M1 ++ X2 from hX2]
        exact refStable_append σ M1 X2 t (hs1 t rfl)
      · exact hs2 a2 hmem

/-- `healFieldList` keeps the mid-pass shape and every surviving field's
argument types and own type stable. -/
theorem healFieldList_estab (σ : Store) (bf : TypeId → TypeId) (M₂ : TypeMap)
    (A : List (String × TypeId)) (hrk : ReKeyed σ M₂ A)
    (hnds : NoDunderStore σ) (hswf : StubWF σ bf) :
    ∀ (fs : List (String × FieldDef)) (Mt : TypeMap), MidMap σ M₂ Mt →
      MidMap σ M₂ (healFieldList σ bf fs Mt).1 ∧
      (∃ X, (healFieldList σ bf fs Mt).1 = Mt ++ X) ∧
      (∀ f ∈ (healFieldList σ bf fs Mt).2,
        (∀ a ∈ f.2.args, RefStable σ (healFieldList σ bf fs Mt).1 a.type) ∧
        RefStable σ (healFieldList σ bf fs Mt).1 f.2.type) := by
  intro fs
  induction fs with
  | nil =>
    intro Mt hmid
    exact ⟨hmid, ⟨[], by simp [healFieldList]⟩,
      by intro f hf; simp [healFieldList] at hf⟩
  | cons f rest ih =>
    intro Mt hmid
    obtain ⟨fname, fd⟩ := f
    rcases hha : healArgs σ bf fd.args Mt with ⟨M1, args2⟩
    obtain ⟨hm1, ⟨X1, hX1⟩, hs1⟩ := healArgs_estab σ bf M₂ A hrk hnds hswf fd.args Mt hmid
    rw [hha] at hm1 hX1 hs1
    rcases hht : healType σ bf fd.type M1 with ⟨M2t, h⟩
    obtain ⟨hm2, ⟨X2, hX2⟩, hs2⟩ := healType_estab σ bf M₂ A hrk hnds hswf fd.type M1 hm1
    rw [hht] at hm2 hX2 hs2
    rcases hrr : healFieldList σ bf rest M2t with ⟨M3, rest2⟩
    obtain ⟨hm3, ⟨X3, hX3⟩, hs3⟩ := ih M2t hm2
    rw [hrr] at hm3 hX3 hs3
    cases h with
    | none =>
      have hres : healFieldList σ bf ((fname, fd) :: rest) Mt = (M3, rest2) := by
        simp only [healFieldList, hha, hht, hrr]
      refine ⟨by rw [hres]; exact hm3,
        ⟨X1 ++ (X2 ++ X3), by rw [hres, show M3 = M2t ++ X3 from hX3,
          show M2t = M1 ++ X2 from hX2, show M1 = Mt ++ X1 from hX1,
          List.append_assoc, List.append_assoc]⟩, ?_⟩
      intro f2 hf2
      rw [hres] at hf2 ⊢
      exact hs3 f2 hf2
    | some t =>
      have hres : healFieldList σ bf ((fname, fd) :: rest) Mt =
          (M3, (fname, { args := args2, type := t }) :: rest2) := by
        simp only [healFieldList, hha, hht, hrr]
      refine ⟨by rw [hres]; exact hm3,
        ⟨X1 ++ (X2 ++ X3), by rw [hres, show M3 = M2t ++ X3 from hX3,
          show M2t = M1 ++ X2 from hX2, show M1 = Mt ++ X1 from hX1,
          List.append_assoc, List.append_assoc]⟩, ?_⟩
      intro f2 hf2
      rw [hres] at hf2 ⊢
      rcases List.mem_cons.mp hf2 with heq | hmem
      · subst heq
        constructor
        · intro a ha
          show RefStable σ M3 a.type
          rw [show M3 = M2t ++ X3 from hX3, show M2t = M1 ++ X2 from hX2]
          exact refStable_append σ _ X3 a.type
            (refStable_append σ M1 X2 a.type (hs1 a ha))
        · show RefStable σ M3 t
          rw [show M3 = M2t ++ X3 from hX3]
          exact refStable_append σ M2t X3 t (hs2 t rfl)
      · exact hs3 f2 hmem

/-- `healRefList` keeps the mid-pass shape and every surviving reference
stable. -/
theorem healRefList_estab (σ : Store) (bf : TypeId → TypeId) (M₂ : TypeMap)
    (A : List (String × TypeId)) (hrk : ReKeyed σ M₂ A)
    (hnds : NoDunderStore σ) (hswf : StubWF σ bf) :
    ∀ (rs : List TypeRef) (Mt : TypeMap), MidMap σ M₂ Mt →
      MidMap σ M₂ (healRefList σ bf rs Mt).1 ∧
      (∃ X, (healRefList σ bf rs Mt).1 = Mt ++ X) ∧
      (∀ r ∈ (healRefList σ bf rs Mt).2,
        RefStable σ (healRefList σ bf rs Mt).1 r) := by
  intro rs
  induction rs with
  | nil =>
    intro Mt hmid
    exact ⟨hmid, ⟨[], by simp [healRefList]⟩,
      by intro r hr; simp [healRefList] at hr⟩
  | cons r rest ih =>
    intro Mt hmid
    rcases hht : healType σ bf r Mt with ⟨M1, h⟩
    obtain ⟨hm1, ⟨X1, hX1⟩, hs1⟩ := healType_estab σ bf M₂ A hrk hnds hswf r Mt hmid
    rw [hht] at hm1 hX1 hs1
    rcases hrr : healRefList σ bf rest M1 with ⟨M2r, rest2⟩
    obtain ⟨hm2, ⟨X2, hX2⟩, hs2⟩ := ih M1 hm1
    rw [hrr] at hm2 hX2 hs2
    cases h with
    | none =>
      have hres : healRefList σ bf (r :: rest) Mt = (M2r, rest2) := by
        simp only [healRefList, hht, hrr]
      refine ⟨by rw [hres]; exact hm2,
        ⟨X1 ++ X2, by rw [hres, show M2r = M1 ++ X2 from hX2,
          show M1 = Mt ++ X1 from hX1, List.append_assoc]⟩, ?_⟩
      intro r2 hr2
      rw [hres] at hr2 ⊢
      exact hs2 r2 hr2
    | some t =>
      have hres : healRefList σ bf (r :: rest) Mt = (M2r, t :: rest2) := by
        simp only [healRefList, hht, hrr]
      refine ⟨by rw [hres]; exact hm2,
        ⟨X1 ++ X2, by rw [hres, show M2r = M1 ++ X2 from hX2,
          show M1 = Mt ++ X1 from hX1, List.append_assoc]⟩, ?_⟩
      intro r2 hr2
      rw [hres] at hr2 ⊢
      rcases List.mem_cons.mp hr2 with heq | hmem
      · subst heq
        rw [show M2r = M1 ++ X2 from hX2]
        exact refStable_append σ M1 X2 r2 (hs1 r2 rfl)
      · exact hs2 r2 hmem

/-- `healInputFieldList` keeps the mid-pass shape and every surviving
input field's type stable. -/
theorem healInputFieldList_estab (σ : Store) (bf : TypeId → TypeId)
    (M₂ : TypeMap) (A : List (String × TypeId)) (hrk : ReKeyed σ M₂ A)
    (hnds : NoDunderStore σ) (hswf : StubWF σ bf) :
    ∀ (fs : List (String × TypeRef)) (Mt : TypeMap), MidMap σ M₂ Mt →
      MidMap σ M₂ (healInputFieldList σ bf fs Mt).1 ∧
      (∃ X, (healInputFieldList σ bf fs Mt).1 = Mt ++ X) ∧
      (∀ f ∈ (healInputFieldList σ bf fs Mt).2,
        RefStable σ (healInputFieldList σ bf fs Mt).1 f.2) := by
  intro fs
  induction fs with
  | nil =>
    intro Mt hmid
    exact ⟨hmid, ⟨[], by simp [healInputFieldList]⟩,
      by intro f hf; simp [healInputFieldList] at hf⟩
  | cons f rest ih =>
    intro Mt hmid
    obtain ⟨fname, r⟩ := f
    rcases hht : healType σ bf r Mt with ⟨M1, h⟩
    obtain ⟨hm1, ⟨X1, hX1⟩, hs1⟩ := healType_estab σ bf M₂ A hrk hnds hswf r Mt hmid
    rw [hht] at hm1 hX1 hs1
    rcases hrr : healInputFieldList σ bf rest M1 with ⟨M2r, rest2⟩
    obtain ⟨hm2, ⟨X2, hX2⟩, hs2⟩ := ih M1 hm1
    rw [hrr] at hm2 hX2 hs2
    cases h with
    | none =>
      have hres : healInputFieldList σ bf ((fname, r) :: rest) Mt = (M2r, rest2) := by
        simp only [healInputFieldList, hht, hrr]
      refine ⟨by rw [hres]; exact hm2,
        ⟨X1 ++ X2, by rw [hres, show M2r = M1 ++ X2 from hX2,
          show M1 = Mt ++ X1 from hX1, List.append_assoc]⟩, ?_⟩
      intro f2 hf2
      rw [hres] at hf2 ⊢
      exact hs2 f2 hf2
    | some t =>
      have hres : healInputFieldList σ bf ((fname, r) :: rest) Mt =
          (M2r, (fname, t) :: rest2) := by
        simp only [healInputFieldList, hht, hrr]
      refine ⟨by rw [hres]; exact hm2,
        ⟨X1 ++ X2, by rw [hres, show M2r = M1 ++ X2 from hX2,
          show M1 = Mt ++ X1 from hX1, List.append_assoc]⟩, ?_⟩
      intro f2 hf2
      rw [hres] at hf2 ⊢
      rcases List.mem_cons.mp hf2 with heq | hmem
      · subst heq
        show RefStable σ M2r t
        rw [show M2r = M1 ++ X2 from hX2]
        exact refStable_append σ M1 X2 t (hs1 t rfl)
      · exact hs2 f2 hmem

/-- `healDef` keeps the mid-pass shape and every reference of the healed
definition stable. -/
theorem healDef_estab (σ : Store) (bf : TypeId → TypeId) (M₂ : TypeMap)
    (A : List (String × TypeId)) (hrk : ReKeyed σ M₂ A)
    (hnds : NoDunderStore σ) (hswf : StubWF σ bf) (d : TypeDef)
    (Mt : TypeMap) (hmid : MidMap σ M₂ Mt) :
    MidMap σ M₂ (healDef σ bf d Mt).1 ∧
    (∃ X, (healDef σ bf d Mt).1 = Mt ++ X) ∧
    (∀ r ∈ refsOfDef (healDef σ bf d Mt).2,
      RefStable σ (healDef σ bf d Mt).1 r) := by
  cases d with
  | object fields interfaces =>
    rcases hhf : healFieldList σ bf fields Mt with ⟨M1, fields2⟩
    obtain ⟨hm1, ⟨X1, hX1⟩, hs1⟩ :=
      healFieldList_estab σ bf M₂ A hrk hnds hswf fields Mt hmid
    rw [hhf] at hm1 hX1 hs1
    rcases hhr : healRefList σ bf interfaces M1 with ⟨M2r, ifaces2⟩
    obtain ⟨hm2, ⟨X2, hX2⟩, hs2⟩ :=
      healRefList_estab σ bf M₂ A hrk hnds hswf interfaces M1 hm1
    rw [hhr] at hm2 hX2 hs2
    have hres : healDef σ bf (.object fields interfaces) Mt =
        (M2r, .object fields2 ifaces2) := by
      simp only [healDef, hhf, hhr]
    refine ⟨by rw [hres]; exact hm2,
      ⟨X1 ++ X2, by rw [hres, show M2r = M1 ++ X2 from hX2,
        show M1 = Mt ++ X1 from hX1, List.append_assoc]⟩, ?_⟩
    intro r hr
    rw [hres] at hr ⊢
    show RefStable σ M2r r
    rcases List.mem_append.mp hr with hf | hi
    · rcases List.mem_flatMap.mp hf with ⟨f, hfmem, hrin⟩
      rcases List.mem_append.mp hrin with hargs | hself
      · rcases List.mem_map.mp hargs with ⟨a, hamem, hae⟩
        rw [← hae, show M2r = M1 ++ X2 from hX2]
        exact refStable_append σ M1 X2 a.type ((hs1 f hfmem).1 a hamem)
      · have he : r = f.2.type := by simpa using hself
        subst he
        rw [show M2r = M1 ++ X2 from hX2]
        exact refStable_append σ M1 X2 f.2.type (hs1 f hfmem).2
    · exact hs2 r hi
  | iface fields =>
    rcases hhf : healFieldList σ bf fields Mt with ⟨M1, fields2⟩
    obtain ⟨hm1, ⟨X1, hX1⟩, hs1⟩ :=
      healFieldList_estab σ bf M₂ A hrk hnds hswf fields Mt hmid
    rw [hhf] at hm1 hX1 hs1
    have hres : healDef σ bf (.iface fields) Mt = (M1, .iface fields2) := by
      simp only [healDef, hhf]
    refine ⟨by rw [hres]; exact hm1, ⟨X1, by rw [hres]; exact hX1⟩, ?_⟩
    intro r hr
    rw [hres] at hr ⊢
    show RefStable σ M1 r
    rcases List.mem_flatMap.mp hr with ⟨f, hfmem, hrin⟩
    rcases List.mem_append.mp hrin with hargs | hself
    · rcases List.mem_map.mp hargs with ⟨a, hamem, hae⟩
      rw [← hae]
      exact (hs1 f hfmem).1 a hamem
    · have he : r = f.2.type := by simpa using hself
      subst he
      exact (hs1 f hfmem).2
  | union members =>
    rcases hhr : healRefList σ bf members Mt with ⟨M1, members2⟩
    obtain ⟨hm1, ⟨X1, hX1⟩, hs1⟩ :=
      healRefList_estab σ bf M₂ A hrk hnds hswf members Mt hmid
    rw [hhr] at hm1 hX1 hs1
    have hres : healDef σ bf (.union members) Mt = (M1, .union members2) := by
      simp only [healDef, hhr]
    refine ⟨by rw [hres]; exact hm1, ⟨X1, by rw [hres]; exact hX1⟩, ?_⟩
    intro r hr
    rw [hres] at hr ⊢
    exact hs1 r hr
  | inputObject fields =>
    rcases hhf : healInputFieldList σ bf fields Mt with ⟨M1, fields2⟩
    obtain ⟨hm1, ⟨X1, hX1⟩, hs1⟩ :=
      healInputFieldList_estab σ bf M₂ A hrk hnds hswf fields Mt hmid
    rw [hhf] at hm1 hX1 hs1
    have hres : healDef σ bf (.inputObject fields) Mt =
        (M1, .inputObject fields2) := by
      simp only [healDef, hhf]
    refine ⟨by rw [hres]; exact hm1, ⟨X1, by rw [hres]; exact hX1⟩, ?_⟩
    intro r hr
    rw [hres] at hr ⊢
    show RefStable σ M1 r
    rcases List.mem_map.mp hr with ⟨p, hpmem, hpe⟩
    rw [← hpe]
    exact hs1 p hpmem
  | scalar =>
    refine ⟨hmid, ⟨[], by simp [healDef]⟩, ?_⟩
    intro r hr
    simp [healDef, refsOfDef] at hr
  | enum =>
    refine ⟨hmid, ⟨[], by simp [healDef]⟩, ?_⟩
    intro r hr
    simp [healDef, refsOfDef] at hr

/-- `healDirectives` keeps the mid-pass shape and every healed directive
argument type stable. -/
theorem healDirectives_estab (σ : Store) (bf : TypeId → TypeId) (M₂ : TypeMap)
    (A : List (String × TypeId)) (hrk : ReKeyed σ M₂ A)
    (hnds : NoDunderStore σ) (hswf : StubWF σ bf) :
    ∀ (ds : List DirectiveDef) (Mt : TypeMap), MidMap σ M₂ Mt →
      MidMap σ M₂ (healDirectives σ bf ds Mt).1 ∧
      (∃ X, (healDirectives σ bf ds Mt).1 = Mt ++ X) ∧
      (∀ r ∈ dirRefs (healDirectives σ bf ds Mt).2,
        RefStable σ (healDirectives σ bf ds Mt).1 r) := by
  intro ds
  induction ds with
  | nil =>
    intro Mt hmid
    exact ⟨hmid, ⟨[], by simp [healDirectives]⟩,
      by intro r hr; simp [healDirectives, dirRefs] at hr⟩
  | cons d rest ih =>
    intro Mt hmid
    rcases hha : healArgs σ bf d.args Mt with ⟨M1, args2⟩
    obtain ⟨hm1, ⟨X1, hX1⟩, hs1⟩ :=
      healArgs_estab σ bf M₂ A hrk hnds hswf d.args Mt hmid
    rw [hha] at hm1 hX1 hs1
    rcases hrr : healDirectives σ bf rest M1 with ⟨M2r, rest2⟩
    obtain ⟨hm2, ⟨X2, hX2⟩, hs2⟩ := ih M1 hm1
    rw [hrr] at hm2 hX2 hs2
    have hres : healDirectives σ bf (d :: rest) Mt =
        (M2r, { d with args := args2 } :: rest2) := by
      simp only [healDirectives, hha, hrr]
    refine ⟨by rw [hres]; exact hm2,
      ⟨X1 ++ X2, by rw [hres, show M2r = M1 ++ X2 from hX2,
        show M1 = Mt ++ X1 from hX1, List.append_assoc]⟩, ?_⟩
    intro r hr
    rw [hres] at hr ⊢
    show RefStable σ M2r r
    have hr2 : r ∈ args2.map ArgDef.type ++ dirRefs rest2 := by
      simpa [dirRefs, List.flatMap_cons] using hr
    rcases List.mem_append.mp hr2 with hargs | hrest
    · rcases List.mem_map.mp hargs with ⟨a, hamem, hae⟩
      rw [← hae, show M2r = M1 ++ X2 from hX2]
      exact refStable_append σ M1 X2 a.type (hs1 a hamem)
    · exact hs2 r hrest

/-- The heal loop keeps the mid-pass shape, only appends to the map,
only rewrites definitions in the store, and ends with every recorded
actual type holding only stable references. -/
theorem healLoop_estab (σ : Store) (bf : TypeId → TypeId) (M₂ : TypeMap)
    (A : List (String × TypeId)) (hrk : ReKeyed σ M₂ A)
    (hnds : NoDunderStore σ) (hswf : StubWF σ bf) :
    ∀ (ks : List String) (σt : Store) (Mt : TypeMap),
      MidMap σ M₂ Mt → sameNS σ σt →
      (∀ n i, lookupA A n = some i →
        (startsWithDunder n = false ∧ n ∈ ks ∧
          lookupTM Mt n = some (some i)) ∨ GoodId σ Mt σt i) →
      MidMap σ M₂ (healLoop bf A ks σt Mt).2 ∧
      (∃ X, (healLoop bf A ks σt Mt).2 = Mt ++ X) ∧
      sameNS σ (healLoop bf A ks σt Mt).1 ∧
      (∀ n i, lookupA A n = some i →
        GoodId σ (healLoop bf A ks σt Mt).2 (healLoop bf A ks σt Mt).1 i) := by
  intro ks
  induction ks with
  | nil =>
    intro σt Mt hmid hsn htodo
    refine ⟨hmid, ⟨[], by simp [healLoop]⟩, hsn, ?_⟩
    intro n i hlA
    rcases htodo n i hlA with ⟨_, hks, _⟩ | hgood
    · simp at hks
    · exact hgood
  | cons k rest ih =>
    intro σt Mt hmid hsn htodo
    by_cases hc : ¬ startsWithDunder k ∧ hasKeyA A k
    · cases hl : lookupTM Mt k with
      | some v =>
        cases v with
        | some i₀ =>
          rcases hhd : healDef σ bf (getObj σt i₀).defn Mt with ⟨M1, d1⟩
          have hstep : healLoop bf A (k :: rest) σt Mt =
              healLoop bf A rest (setDef σt i₀ d1) M1 := by
            simp only [healLoop, if_pos hc, hl, healDef_congr σ σt bf hsn, hhd]
          obtain ⟨hm1, ⟨X1, hX1⟩, hrefs⟩ :=
            healDef_estab σ bf M₂ A hrk hnds hswf (getObj σt i₀).defn Mt hmid
          rw [hhd] at hm1 hX1 hrefs
          have hX1e : M1 = Mt ++ X1 := hX1
          have hrefs1 : ∀ r ∈ refsOfDef d1, RefStable σ M1 r := hrefs
          have hsn1 : sameNS σ (setDef σt i₀ d1) :=
            sameNS_trans σ σt _ hsn (sameNS_setDef σt i₀ d1)
          have htodo1 : ∀ n i, lookupA A n = some i →
              (startsWithDunder n = false ∧ n ∈ rest ∧
                lookupTM M1 n = some (some i)) ∨
              GoodId σ M1 (setDef σt i₀ d1) i := by
            intro n i hlA
            rcases htodo n i hlA with ⟨hdn, hks, hlM⟩ | hgood
            · by_cases hnk : n = k
              · subst hnk
                right
                have hii : i = i₀ := by
                  rw [hl] at hlM
                  exact (Option.some.inj (Option.some.inj hlM)).symm
                rw [hii]
                exact goodId_setDef_self σ M1 σt i₀ d1 hrefs1
              · left
                refine ⟨hdn, ?_, ?_⟩
                · rcases List.mem_cons.mp hks with he | hm
                  · exact absurd he hnk
                  · exact hm
                · rw [hX1e]
                  exact lookupTM_append_left Mt X1 n _ hlM
            · right
              by_cases hii : i = i₀
              · rw [hii]
                exact goodId_setDef_self σ M1 σt i₀ d1 hrefs1
              · have hg1 : GoodId σ M1 σt i := by
                  rw [hX1e]
                  exact goodId_append σ Mt X1 σt i hgood
                exact goodId_setDef_other σ M1 σt i i₀ d1
                  (fun h2 => hii h2.symm) hg1
          obtain ⟨hm2, ⟨X2, hX2⟩, hsn2, hgood2⟩ :=
            ih (setDef σt i₀ d1) M1 hm1 hsn1 htodo1
          rw [hstep]
          exact ⟨hm2, ⟨X1 ++ X2, by rw [hX2, hX1e, List.append_assoc]⟩,
            hsn2, hgood2⟩
        | none =>
          have hstep : healLoop bf A (k :: rest) σt Mt =
              healLoop bf A rest σt Mt := by
            simp only [healLoop, if_pos hc, hl]
          have htodo1 : ∀ n i, lookupA A n = some i →
              (startsWithDunder n = false ∧ n ∈ rest ∧
                lookupTM Mt n = some (some i)) ∨ GoodId σ Mt σt i := by
            intro n i hlA
            rcases htodo n i hlA with ⟨hdn, hks, hlM⟩ | hgood
            · by_cases hnk : n = k
              · subst hnk
                rw [hl] at hlM
                simp at hlM
              · left
                refine ⟨hdn, ?_, hlM⟩
                rcases List.mem_cons.mp hks with he | hm
                · exact absurd he hnk
                · exact hm
            · right
              exact hgood
          rw [hstep]
          exact ih σt Mt hmid hsn htodo1
      | none =>
        have hstep : healLoop bf A (k :: rest) σt Mt =
            healLoop bf A rest σt Mt := by
          simp only [healLoop, if_pos hc, hl]
        have htodo1 : ∀ n i, lookupA A n = some i →
            (startsWithDunder n = false ∧ n ∈ rest ∧
              lookupTM Mt n = some (some i)) ∨ GoodId σ Mt σt i := by
          intro n i hlA
          rcases htodo n i hlA with ⟨hdn, hks, hlM⟩ | hgood
          · by_cases hnk : n = k
            · subst hnk
              rw [hl] at hlM
              cases hlM
            · left
              refine ⟨hdn, ?_, hlM⟩
              rcases List.mem_cons.mp hks with he | hm
              · exact absurd he hnk
              · exact hm
          · right
            exact hgood
        rw [hstep]
        exact ih σt Mt hmid hsn htodo1
    · have hstep : healLoop bf A (k :: rest) σt Mt =
          healLoop bf A rest σt Mt := by
        simp only [healLoop, if_neg hc]
      have htodo1 : ∀ n i, lookupA A n = some i →
          (startsWithDunder n = false ∧ n ∈ rest ∧
            lookupTM Mt n = some (some i)) ∨ GoodId σ Mt σt i := by
        intro n i hlA
        rcases htodo n i hlA with ⟨hdn, hks, hlM⟩ | hgood
        · by_cases hnk : n = k
          · subst hnk
            have h1 : ¬ startsWithDunder n := by simp [hdn]
            have h2 : hasKeyA A n := by
              unfold hasKeyA
              rw [hlA]
              rfl
            exact absurd ⟨h1, h2⟩ hc
          · left
            refine ⟨hdn, ?_, hlM⟩
            rcases List.mem_cons.mp hks with he | hm
            · exact absurd he hnk
            · exact hm
        · right
          exact hgood
      rw [hstep]
      exact ih σt Mt hmid hsn htodo1

/-- A successful pass establishes reference canonicity: every healed
reference of the output resolves to the canonical entry under its own
name or is stably absent, and absent-named healed targets are unique per
name. -/
theorem healPass_estab (bf : TypeId → TypeId) (s p : HState)
    (hnds : NoDunderStore s.σ) (hswf : StubWF s.σ bf) (hknd : KeysNodup s.M)
    (hp : healPass bf s = .ok p) :
    (∀ i ∈ healedIds p.σ p.M p.D, RefOKId p.σ bf p.M i) ∧
    AbsentUniqueIds p.σ p.M (healedIds p.σ p.M p.D) := by
  cases hba : buildActual s.σ s.M [] with
  | error e =>
    rw [healPass_err bf s e hba] at hp
    cases hp
  | ok A =>
    obtain ⟨hAce, hAnd0⟩ := buildActual_elim s.σ s.M A hba
    have hndA : (A.map Prod.fst).Nodup := by rw [hAce]; exact hAnd0
    rw [healPass_eq bf s A hba] at hp
    set M₂ := readdActual s.M A with hM₂def
    set M₃ := (healDirectives s.σ bf s.D M₂).1 with hM₃def
    set D' := (healDirectives s.σ bf s.D M₂).2 with hD'def
    set res := healLoop bf A (keysOf M₃) s.σ M₃ with hresdef
    have hpe : (⟨res.1, sweepTM A res.2, D'⟩ : HState) = p := Except.ok.inj hp
    subst hpe
    have hrk : ReKeyed s.σ M₂ A := by
      constructor
      · intro n i hlA
        have hmemA : (n, i) ∈ A := lookupA_mem A n i hlA
        refine ⟨readd_lookup_mem s.M A hndA n i hmemA, ?_⟩
        rw [hAce] at hmemA
        obtain ⟨k, _, _, _, hn⟩ := (mem_consideredEntries s.σ s.M n i).mp hmemA
        exact hn
      · intro n j hdn hl₂
        by_cases hcA : n ∈ A.map Prod.fst
        · rcases List.mem_map.mp hcA with ⟨⟨n2, i2⟩, hmem, hfst⟩
          have hn2 : n2 = n := hfst
          subst hn2
          have hl2b : lookupTM M₂ n2 = some (some i2) :=
            readd_lookup_mem s.M A hndA n2 i2 hmem
          rw [hl₂] at hl2b
          have hji : j = i2 := Option.some.inj (Option.some.inj hl2b)
          have hname : (getObj s.σ i2).name = n2 := by
            rw [hAce] at hmem
            obtain ⟨k, _, _, _, hn⟩ := (mem_consideredEntries s.σ s.M n2 i2).mp hmem
            exact hn
          rw [hji, hname]
          exact mem_lookupA A n2 i2 hndA hmem
        · have hl2b : lookupTM M₂ n = lookupTM s.M n :=
            readd_lookup_other s.M A n hcA
          rw [hl₂] at hl2b
          have hmemM : (n, some j) ∈ s.M := lookupTM_mem s.M n (some j) hl2b.symm
          have hmemC : ((getObj s.σ j).name, j) ∈ consideredEntries s.σ s.M :=
            (mem_consideredEntries s.σ s.M _ j).mpr ⟨n, hmemM, hdn, hnds j, rfl⟩
          rw [← hAce] at hmemC
          exact mem_lookupA A _ j hndA hmemC
    have hnd₂ : KeysNodup M₂ := readd_nodup s.M A hknd
    have hmid₂ : MidMap s.σ M₂ M₂ := ⟨[], by simp, hnd₂, by intro q hq; simp at hq⟩
    obtain ⟨hm₃, ⟨X₃, hX₃⟩, hdirs⟩ :=
      healDirectives_estab s.σ bf M₂ A hrk hnds hswf s.D M₂ hmid₂
    rw [← hM₃def] at hm₃ hX₃ hdirs
    rw [← hD'def] at hdirs
    have htodo : ∀ n i, lookupA A n = some i →
        (startsWithDunder n = false ∧ n ∈ keysOf M₃ ∧
          lookupTM M₃ n = some (some i)) ∨ GoodId s.σ M₃ s.σ i := by
      intro n i hlA
      left
      have hl₂ := (hrk.1 n i hlA).1
      have hl₃ : lookupTM M₃ n = some (some i) := by
        rw [hX₃]
        exact lookupTM_append_left M₂ X₃ n _ hl₂
      refine ⟨?_, ?_, hl₃⟩
      · have hmemA : (n, i) ∈ A := lookupA_mem A n i hlA
        rw [hAce] at hmemA
        obtain ⟨k, _, _, hnd2, hn⟩ := (mem_consideredEntries s.σ s.M n i).mp hmemA
        rw [← hn]
        exact hnd2
      · by_contra hni
        rw [(lookupTM_eq_none_iff M₃ n).mpr hni] at hl₃
        cases hl₃
    obtain ⟨hm₄, ⟨X₄, hX₄⟩, hsn₄, hall⟩ :=
      healLoop_estab s.σ bf M₂ A hrk hnds hswf (keysOf M₃) s.σ M₃ hm₃
        (sameNS_refl s.σ) htodo
    rw [← hresdef] at hm₄ hX₄ hsn₄ hall
    obtain ⟨Aw, hM₄, hnd₄, hAw⟩ := hm₄
    have hstab : ∀ r ∈ healedRefs res.1 (sweepTM A res.2) D',
        RefStable s.σ res.2 r := by
      intro r hr
      rcases List.mem_append.mp hr with hdir | hent
      · rw [hX₄]
        exact refStable_append s.σ M₃ X₄ r (hdirs r hdir)
      · rcases List.mem_flatMap.mp hent with ⟨kv, hkv, hrin⟩
        obtain ⟨kk, vv⟩ := kv
        by_cases hdund : startsWithDunder kk
        · simp [hdund] at hrin
        · cases vv with
          | none => simp [hdund] at hrin
          | some j =>
            have hrin2 : r ∈ refsOfDef (getObj res.1 j).defn := by
              simpa [hdund] using hrin
            have hmf := List.mem_filter.mp hkv
            have hkey : hasKeyA A kk = true := by
              rcases Bool.or_eq_true_iff.mp hmf.2 with h1 | h1
              · exact absurd h1 hdund
              · exact h1
            obtain ⟨i2, hlA2⟩ := Option.isSome_iff_exists.mp hkey
            have hg := hall kk i2 hlA2
            have hl₂ := (hrk.1 kk i2 hlA2).1
            have hlM₄ : lookupTM res.2 kk = some (some i2) := by
              rw [hM₄]
              exact lookupTM_append_left M₂ Aw kk _ hl₂
            have hlMv : lookupTM res.2 kk = some (some j) :=
              mem_lookupTM res.2 kk (some j) hnd₄ hmf.1
            rw [hlM₄] at hlMv
            have hji : j = i2 := Option.some.inj (Option.some.inj hlMv.symm)
            rw [hji] at hrin2
            exact hg r hrin2
    have hconv : ∀ j, lookupTM res.2 (getObj s.σ j).name = some (some j) →
        RefOKId res.1 bf (sweepTM A res.2) j := by
      intro j hlj
      have hname4 : (getObj res.1 j).name = (getObj s.σ j).name := (hsn₄ j).1
      have hstub4 : (getObj res.1 j).stub = (getObj s.σ j).stub := (hsn₄ j).2
      have hswfilter : lookupTM (sweepTM A res.2) (getObj s.σ j).name =
          (if (startsWithDunder (getObj s.σ j).name ||
              hasKeyA A (getObj s.σ j).name)
            then lookupTM res.2 (getObj s.σ j).name else none) :=
        lookupTM_filter_key (fun k => startsWithDunder k || hasKeyA A k)
          res.2 ((getObj s.σ j).name)
      by_cases hcond : (startsWithDunder (getObj s.σ j).name ||
          hasKeyA A (getObj s.σ j).name) = true
      · left
        rw [hname4, hswfilter, if_pos hcond, hlj]
      · right
        have hor : ¬ (startsWithDunder (getObj s.σ j).name = true ∨
            hasKeyA A (getObj s.σ j).name = true) := fun h =>
          hcond (Bool.or_eq_true_iff.mpr h)
        have hlAnone : lookupA A (getObj s.σ j).name = none := by
          cases hx : lookupA A (getObj s.σ j).name with
          | none => rfl
          | some y =>
            exfalso
            exact hor (Or.inr (by unfold hasKeyA; rw [hx]; rfl))
        constructor
        · rw [hname4, hswfilter, if_neg hcond]
        · have hstubj : (getObj s.σ j).stub = false := by
            rw [hM₄] at hlj
            cases hl2 : lookupTM M₂ (getObj s.σ j).name with
            | some w =>
              rw [lookupTM_append_left M₂ Aw _ w hl2] at hlj
              have hw : w = some j := Option.some.inj hlj
              subst hw
              have hrk2 := hrk.2 _ j (hnds j) hl2
              rw [hrk2] at hlAnone
              cases hlAnone
            | none =>
              rw [lookupTM_append_right M₂ Aw _ hl2] at hlj
              have hmemw := lookupTM_mem Aw _ _ hlj
              obtain ⟨j2, hv, _, hstub2, _⟩ := hAw _ hmemw
              have hj2 : j = j2 := Option.some.inj hv
              rw [hj2]
              exact hstub2
          have hstubr : (getObj res.1 j).stub = false := by
            rw [hstub4]
            exact hstubj
          simp [stubRes, hstubr]
    constructor
    · intro i hi
      rcases List.mem_map.mp hi with ⟨r, hr, hbase⟩
      rw [← hbase]
      exact hconv (baseId r) (hstab r hr)
    · intro i hi j hj habs hnames
      rcases List.mem_map.mp hi with ⟨ri, hri, hbi⟩
      rcases List.mem_map.mp hj with ⟨rj, hrj, hbj⟩
      have h1 : lookupTM res.2 (getObj s.σ i).name = some (some i) := by
        rw [← hbi]
        exact hstab ri hri
      have h2 : lookupTM res.2 (getObj s.σ j).name = some (some j) := by
        rw [← hbj]
        exact hstab rj hrj
      have hnames2 : (getObj s.σ i).name = (getObj s.σ j).name := by
        rw [← (hsn₄ i).1, ← (hsn₄ j).1]
        exact hnames
      rw [hnames2, h2] at h1
      exact (Option.some.inj (Option.some.inj h1)).symm

/-- A pruning sweep that reports no change left the map untouched. -/
theorem pruneStep_unchanged (σ : Store) (M : TypeMap)
    (h : (pruneStep σ M).2 = false) : (pruneStep σ M).1 = M := by
  simp only [pruneStep] at h ⊢
  exact not_not.mp (of_decide_eq_false h)

/-- `sameNS` carries `NoDunderStore` across a pass. -/
theorem noDunder_transport (σ σ2 : Store) (hnds : NoDunderStore σ)
    (hs : sameNS σ σ2) : NoDunderStore σ2 := by
  intro i
  rw [(hs i).1]
  exact hnds i

/-- `sameNS` carries `StubWF` across a pass. -/
theorem stubWF_transport (σ σ2 : Store) (bf : TypeId → TypeId)
    (hswf : StubWF σ bf) (hs : sameNS σ σ2) : StubWF σ2 bf := by
  intro i
  constructor
  · rw [(hs (bf i)).2]
    exact (hswf i).1
  · rw [(hs (bf i)).1, (hs i).1]
    exact (hswf i).2

/-- A successful run of `healTypes` (with pruning) lands in a fully
healed state, preserving the store wellformedness side conditions. -/
theorem healTypes_estab (bf : TypeId → TypeId) :
    ∀ (f : Nat) (s s₁ : HState), NoDunderStore s.σ → StubWF s.σ bf →
      KeysNodup s.M → healTypes bf f s false = .ok s₁ →
      Healed s₁.σ bf s₁.M s₁.D ∧ NoDunderStore s₁.σ ∧ StubWF s₁.σ bf ∧
      KeysNodup s₁.M := by
  intro f
  induction f with
  | zero =>
    intro s s₁ _ _ _ hp
    cases hp
  | succ f ih =>
    intro s s₁ hnds hswf hknd hp
    cases hpass : healPass bf s with
    | error e =>
      rw [healTypes_succ, hpass] at hp
      cases hp
    | ok p =>
      have hrun : healTypes bf (f + 1) s false =
          (if (pruneStep p.σ p.M).2 then
            healTypes bf f ⟨p.σ, (pruneStep p.σ p.M).1, p.D⟩ false
          else .ok ⟨p.σ, (pruneStep p.σ p.M).1, p.D⟩) := by
        rw [healTypes_succ, hpass]
        rfl
      rw [hrun] at hp
      have hpk := healPass_keys bf s p hknd hpass
      have hpe := healPass_estab bf s p hnds hswf hknd hpass
      have hnds2 : NoDunderStore p.σ := noDunder_transport s.σ p.σ hnds hpk.2.2
      have hswf2 : StubWF p.σ bf := stubWF_transport s.σ p.σ bf hswf hpk.2.2
      have hprune := pruneStep_preserves p.σ p.M hpk.1 hpk.2.1
      by_cases hch : (pruneStep p.σ p.M).2
      · rw [if_pos hch] at hp
        exact ih ⟨p.σ, (pruneStep p.σ p.M).1, p.D⟩ s₁ hnds2 hswf2 hprune.2 hp
      · rw [if_neg hch] at hp
        have hs₁ : s₁ = ⟨p.σ, (pruneStep p.σ p.M).1, p.D⟩ :=
          (Except.ok.inj hp).symm
        subst hs₁
        have hch2 : (pruneStep p.σ p.M).2 = false := Bool.eq_false_iff.mpr hch
        have hM : (pruneStep p.σ p.M).1 = p.M := pruneStep_unchanged p.σ p.M hch2
        show Healed p.σ bf (pruneStep p.σ p.M).1 p.D ∧ NoDunderStore p.σ ∧
          StubWF p.σ bf ∧ KeysNodup (pruneStep p.σ p.M).1
        rw [hM]
        have hfix : pruneStep p.σ p.M = (p.M, false) := by
          have hpair : pruneStep p.σ p.M =
              ((pruneStep p.σ p.M).1, (pruneStep p.σ p.M).2) := rfl
          rw [hpair, hM, hch2]
        exact ⟨⟨hpk.1, hpk.2.1, hpe.1, hpe.2, hfix⟩, hnds2, hswf2, hpk.2.1⟩

/-! ### The identity round: on a healed state the pass reproduces its
input exactly. -/

/-- On a healed state `healType` keeps the reference, merely
re-registering already-stable absent names. -/
theorem healType_id (σ : Store) (bf : TypeId → TypeId) (M : TypeMap)
    (ids : List TypeId)
    (hok : ∀ i ∈ ids, RefOKId σ bf M i)
    (hau : AbsentUniqueIds σ M ids) :
    ∀ (r : TypeRef) (Mt : TypeMap), baseId r ∈ ids → IdMid σ M Mt ids →
      (healType σ bf r Mt).2 = some r ∧
      IdMid σ M (healType σ bf r Mt).1 ids ∧
      (∃ X, (healType σ bf r Mt).1 = Mt ++ X) := by
  intro r
  induction r with
  | named i =>
    intro Mt hin hmid
    obtain ⟨Aw, hMt, hAw⟩ := hmid
    rcases hok i hin with hcanon | ⟨habs, hstab⟩
    · have hl : lookupTM Mt (getObj σ i).name = some (some i) := by
        rw [hMt]
        exact lookupTM_append_left M Aw _ _ hcanon
      have hres : healType σ bf (.named i) Mt = (Mt, some (.named i)) := by
        simp only [healType, hl]
      exact ⟨by rw [hres], by rw [hres]; exact ⟨Aw, hMt, hAw⟩,
        ⟨[], by rw [hres]; simp⟩⟩
    · cases hlt : lookupTM Mt (getObj σ i).name with
      | some v =>
        have hAwl : lookupTM Aw (getObj σ i).name = some v := by
          rw [hMt] at hlt
          rwa [lookupTM_append_right M Aw _ habs] at hlt
        have hmem := lookupTM_mem Aw _ v hAwl
        obtain ⟨j, hv, hjids, hjname, _⟩ := hAw _ hmem
        subst hv
        have hij : i = j := hau i hin j hjids habs hjname.symm
        have hres : healType σ bf (.named i) Mt = (Mt, some (.named j)) := by
          simp only [healType, hlt]
        rw [← hij] at hres
        exact ⟨by rw [hres], by rw [hres]; exact ⟨Aw, hMt, hAw⟩,
          ⟨[], by rw [hres]; simp⟩⟩
      | none =>
        have hofficial : (if (getObj σ i).stub = true then bf i else i) = i := hstab
        have hres : healType σ bf (.named i) Mt =
            (setTM Mt (getObj σ i).name (some i), some (.named i)) := by
          simp only [healType, hlt, hofficial]
        have hfresh : (getObj σ i).name ∉ keysOf Mt :=
          (lookupTM_eq_none_iff _ _).mp hlt
        have hset : setTM Mt (getObj σ i).name (some i) =
            Mt ++ [((getObj σ i).name, some i)] := setTM_keys_fresh Mt _ _ hfresh
        refine ⟨by rw [hres], ?_,
          ⟨[((getObj σ i).name, some i)], by rw [hres]; exact hset⟩⟩
        refine ⟨Aw ++ [((getObj σ i).name, some i)], ?_, ?_⟩
        · rw [hres]
          show setTM Mt (getObj σ i).name (some i) =
            M ++ (Aw ++ [((getObj σ i).name, some i)])
          rw [hset, hMt, List.append_assoc]
        · intro q hq
          rcases List.mem_append.mp hq with hqA | hqN
          · exact hAw q hqA
          · have hqe : q = ((getObj σ i).name, some i) := by simpa using hqN
            subst hqe
            exact ⟨i, rfl, hin, rfl, habs⟩
  | listOf t ih =>
    intro Mt hin hmid
    rcases hht : healType σ bf t Mt with ⟨M1, h⟩
    obtain ⟨h2, hmid2, hX⟩ := ih Mt hin hmid
    rw [hht] at h2 hmid2 hX
    have hres : healType σ bf (.listOf t) Mt = (M1, h.map TypeRef.listOf) := by
      simp only [healType, hht]
    refine ⟨?_, by rw [hres]; exact hmid2, by rw [hres]; exact hX⟩
    rw [hres, show h = some t from h2]
    rfl
  | nonNull t ih =>
    intro Mt hin hmid
    rcases hht : healType σ bf t Mt with ⟨M1, h⟩
    obtain ⟨h2, hmid2, hX⟩ := ih Mt hin hmid
    rw [hht] at h2 hmid2 hX
    have hres : healType σ bf (.nonNull t) Mt = (M1, h.map TypeRef.nonNull) := by
      simp only [healType, hht]
    refine ⟨?_, by rw [hres]; exact hmid2, by rw [hres]; exact hX⟩
    rw [hres, show h = some t from h2]
    rfl

/-- On a healed state `healArgs` keeps the argument list. -/
theorem healArgs_id (σ : Store) (bf : TypeId → TypeId) (M : TypeMap)
    (ids : List TypeId)
    (hok : ∀ i ∈ ids, RefOKId σ bf M i)
    (hau : AbsentUniqueIds σ M ids) :
    ∀ (as : List ArgDef) (Mt : TypeMap),
      (∀ a ∈ as, baseId a.type ∈ ids) → IdMid σ M Mt ids →
      (healArgs σ bf as Mt).2 = as ∧ IdMid σ M (healArgs σ bf as Mt).1 ids ∧
      (∃ X, (healArgs σ bf as Mt).1 = Mt ++ X) := by
  intro as
  induction as with
  | nil =>
    intro Mt _ hmid
    exact ⟨rfl, hmid, ⟨[], by simp [healArgs]⟩⟩
  | cons a rest ih =>
    intro Mt hmem hmid
    rcases hht : healType σ bf a.type Mt with ⟨M1, h⟩
    obtain ⟨h2, hmid1, ⟨X1, hX1⟩⟩ :=
      healType_id σ bf M ids hok hau a.type Mt (hmem a (by simp)) hmid
    rw [hht] at h2 hmid1 hX1
    rcases hra : healArgs σ bf rest M1 with ⟨M2r, rest2⟩
    obtain ⟨hr2, hmid2, ⟨X2, hX2⟩⟩ :=
      ih M1 (fun a2 ha2 => hmem a2 (by simp [ha2])) hmid1
    rw [hra] at hr2 hmid2 hX2
    have hh : h = some a.type := h2
    subst hh
    have hres : healArgs σ bf (a :: rest) Mt =
        (M2r, { a with type := a.type } :: rest2) := by
      simp only [healArgs, hht, hra]
    refine ⟨?_, by rw [hres]; exact hmid2, ⟨X1 ++ X2,
      by rw [hres, show M2r = M1 ++ X2 from hX2, show M1 = Mt ++ X1 from hX1,
        List.append_assoc]⟩⟩
    rw [hres]
    show { a with type := a.type } :: rest2 = a :: rest
    rw [show ({ a with type := a.type } : ArgDef) = a from rfl,
      show rest2 = rest from hr2]

/-- On a healed state `healFieldList` keeps the field list. -/
theorem healFieldList_id (σ : Store) (bf : TypeId → TypeId) (M : TypeMap)
    (ids : List TypeId)
    (hok : ∀ i ∈ ids, RefOKId σ bf M i)
    (hau : AbsentUniqueIds σ M ids) :
    ∀ (fs : List (String × FieldDef)) (Mt : TypeMap),
      (∀ f ∈ fs, (∀ a ∈ f.2.args, baseId a.type ∈ ids) ∧
        baseId f.2.type ∈ ids) →
      IdMid σ M Mt ids →
      (healFieldList σ bf fs Mt).2 = fs ∧
      IdMid σ M (healFieldList σ bf fs Mt).1 ids ∧
      (∃ X, (healFieldList σ bf fs Mt).1 = Mt ++ X) := by
  intro fs
  induction fs with
  | nil =>
    intro Mt _ hmid
    exact ⟨rfl, hmid, ⟨[], by simp [healFieldList]⟩⟩
  | cons f rest ih =>
    intro Mt hmem hmid
    obtain ⟨fname, fd⟩ := f
    rcases hha : healArgs σ bf fd.args Mt with ⟨M1, args2⟩
    obtain ⟨hargs2, hmid1, ⟨X1, hX1⟩⟩ :=
      healArgs_id σ bf M ids hok hau fd.args Mt
        ((hmem (fname, fd) (by simp)).1) hmid
    rw [hha] at hargs2 hmid1 hX1
    rcases hht : healType σ bf fd.type M1 with ⟨M2t, h⟩
    obtain ⟨h2, hmid2, ⟨X2, hX2⟩⟩ :=
      healType_id σ bf M ids hok hau fd.type M1
        ((hmem (fname, fd) (by simp)).2) hmid1
    rw [hht] at h2 hmid2 hX2
    rcases hrr : healFieldList σ bf rest M2t with ⟨M3, rest2⟩
    obtain ⟨hr2, hmid3, ⟨X3, hX3⟩⟩ :=
      ih M2t (fun f2 hf2 => hmem f2 (by simp [hf2])) hmid2
    rw [hrr] at hr2 hmid3 hX3
    have hh : h = some fd.type := h2
    subst hh
    have hres : healFieldList σ bf ((fname, fd) :: rest) Mt =
        (M3, (fname, { args := args2, type := fd.type }) :: rest2) := by
      simp only [healFieldList, hha, hht, hrr]
    refine ⟨?_, by rw [hres]; exact hmid3, ⟨X1 ++ (X2 ++ X3),
      by rw [hres, show M3 = M2t ++ X3 from hX3, show M2t = M1 ++ X2 from hX2,
        show M1 = Mt ++ X1 from hX1, List.append_assoc, List.append_assoc]⟩⟩
    rw [hres]
    show (fname, ({ args := args2, type := fd.type } : FieldDef)) :: rest2 =
      (fname, fd) :: rest
    rw [show args2 = fd.args from hargs2, show rest2 = rest from hr2,
      show ({ args := fd.args, type := fd.type } : FieldDef) = fd from rfl]

/-- On a healed state `healRefList` keeps the reference list. -/
theorem healRefList_id (σ : Store) (bf : TypeId → TypeId) (M : TypeMap)
    (ids : List TypeId)
    (hok : ∀ i ∈ ids, RefOKId σ bf M i)
    (hau : AbsentUniqueIds σ M ids) :
    ∀ (rs : List TypeRef) (Mt : TypeMap),
      (∀ r ∈ rs, baseId r ∈ ids) → IdMid σ M Mt ids →
      (healRefList σ bf rs Mt).2 = rs ∧
      IdMid σ M (healRefList σ bf rs Mt).1 ids ∧
      (∃ X, (healRefList σ bf rs Mt).1 = Mt ++ X) := by
  intro rs
  induction rs with
  | nil =>
    intro Mt _ hmid
    exact ⟨rfl, hmid, ⟨[], by simp [healRefList]⟩⟩
  | cons r rest ih =>
    intro Mt hmem hmid
    rcases hht : healType σ bf r Mt with ⟨M1, h⟩
    obtain ⟨h2, hmid1, ⟨X1, hX1⟩⟩ :=
      healType_id σ bf M ids hok hau r Mt (hmem r (by simp)) hmid
    rw [hht] at h2 hmid1 hX1
    rcases hrr : healRefList σ bf rest M1 with ⟨M2r, rest2⟩
    obtain ⟨hr2, hmid2, ⟨X2, hX2⟩⟩ :=
      ih M1 (fun r2 hr2 => hmem r2 (by simp [hr2])) hmid1
    rw [hrr] at hr2 hmid2 hX2
    have hh : h = some r := h2
    subst hh
    have hres : healRefList σ bf (r :: rest) Mt = (M2r, r :: rest2) := by
      simp only [healRefList, hht, hrr]
    refine ⟨?_, by rw [hres]; exact hmid2, ⟨X1 ++ X2,
      by rw [hres, show M2r = M1 ++ X2 from hX2, show M1 = Mt ++ X1 from hX1,
        List.append_assoc]⟩⟩
    rw [hres]
    show r :: rest2 = r :: rest
    rw [show rest2 = rest from hr2]

/-- On a healed state `healInputFieldList` keeps the input field list. -/
theorem healInputFieldList_id (σ : Store) (bf : TypeId → TypeId) (M : TypeMap)
    (ids : List TypeId)
    (hok : ∀ i ∈ ids, RefOKId σ bf M i)
    (hau : AbsentUniqueIds σ M ids) :
    ∀ (fs : List (String × TypeRef)) (Mt : TypeMap),
      (∀ f ∈ fs, baseId f.2 ∈ ids) → IdMid σ M Mt ids →
      (healInputFieldList σ bf fs Mt).2 = fs ∧
      IdMid σ M (healInputFieldList σ bf fs Mt).1 ids ∧
      (∃ X, (healInputFieldList σ bf fs Mt).1 = Mt ++ X) := by
  intro fs
  induction fs with
  | nil =>
    intro Mt _ hmid
    exact ⟨rfl, hmid, ⟨[], by simp [healInputFieldList]⟩⟩
  | cons f rest ih =>
    intro Mt hmem hmid
    obtain ⟨fname, r⟩ := f
    rcases hht : healType σ bf r Mt with ⟨M1, h⟩
    obtain ⟨h2, hmid1, ⟨X1, hX1⟩⟩ :=
      healType_id σ bf M ids hok hau r Mt (hmem (fname, r) (by simp)) hmid
    rw [hht] at h2 hmid1 hX1
    rcases hrr : healInputFieldList σ bf rest M1 with ⟨M2r, rest2⟩
    obtain ⟨hr2, hmid2, ⟨X2, hX2⟩⟩ :=
      ih M1 (fun f2 hf2 => hmem f2 (by simp [hf2])) hmid1
    rw [hrr] at hr2 hmid2 hX2
    have hh : h = some r := h2
    subst hh
    have hres : healInputFieldList σ bf ((fname, r) :: rest) Mt =
        (M2r, (fname, r) :: rest2) := by
      simp only [healInputFieldList, hht, hrr]
    refine ⟨?_, by rw [hres]; exact hmid2, ⟨X1 ++ X2,
      by rw [hres, show M2r = M1 ++ X2 from hX2, show M1 = Mt ++ X1 from hX1,
        List.append_assoc]⟩⟩
    rw [hres]
    show (fname, r) :: rest2 = (fname, r) :: rest
    rw [show rest2 = rest from hr2]

/-- On a healed state `healDef` keeps the definition. -/
theorem healDef_id (σ : Store) (bf : TypeId → TypeId) (M : TypeMap)
    (ids : List TypeId)
    (hok : ∀ i ∈ ids, RefOKId σ bf M i)
    (hau : AbsentUniqueIds σ M ids) (d : TypeDef) (Mt : TypeMap)
    (hrefs : ∀ r ∈ refsOfDef d, baseId r ∈ ids) (hmid : IdMid σ M Mt ids) :
    (healDef σ bf d Mt).2 = d ∧ IdMid σ M (healDef σ bf d Mt).1 ids ∧
    (∃ X, (healDef σ bf d Mt).1 = Mt ++ X) := by
  cases d with
  | object fields interfaces =>
    have hfl : ∀ f ∈ fields, (∀ a ∈ f.2.args, baseId a.type ∈ ids) ∧
        baseId f.2.type ∈ ids := by
      intro f hf
      constructor
      · intro a ha
        apply hrefs
        refine List.mem_append_left _ (List.mem_flatMap.mpr ⟨f, hf, ?_⟩)
        exact List.mem_append_left _ (List.mem_map_of_mem ArgDef.type ha)
      · apply hrefs
        refine List.mem_append_left _ (List.mem_flatMap.mpr ⟨f, hf, ?_⟩)
        exact List.mem_append_right _ (by simp)
    have hil : ∀ r ∈ interfaces, baseId r ∈ ids := by
      intro r hr
      exact hrefs r (List.mem_append_right _ hr)
    rcases hhf : healFieldList σ bf fields Mt with ⟨M1, fields2⟩
    obtain ⟨hf2, hmid1, ⟨X1, hX1⟩⟩ :=
      healFieldList_id σ bf M ids hok hau fields Mt hfl hmid
    rw [hhf] at hf2 hmid1 hX1
    rcases hhr : healRefList σ bf interfaces M1 with ⟨M2r, ifaces2⟩
    obtain ⟨hi2, hmid2, ⟨X2, hX2⟩⟩ :=
      healRefList_id σ bf M ids hok hau interfaces M1 hil hmid1
    rw [hhr] at hi2 hmid2 hX2
    have hres : healDef σ bf (.object fields interfaces) Mt =
        (M2r, .object fields2 ifaces2) := by
      simp only [healDef, hhf, hhr]
    refine ⟨?_, by rw [hres]; exact hmid2, ⟨X1 ++ X2,
      by rw [hres, show M2r = M1 ++ X2 from hX2, show M1 = Mt ++ X1 from hX1,
        List.append_assoc]⟩⟩
    rw [hres]
    show TypeDef.object fields2 ifaces2 = .object fields interfaces
    rw [show fields2 = fields from hf2, show ifaces2 = interfaces from hi2]
  | iface fields =>
    have hfl : ∀ f ∈ fields, (∀ a ∈ f.2.args, baseId a.type ∈ ids) ∧
        baseId f.2.type ∈ ids := by
      intro f hf
      constructor
      · intro a ha
        apply hrefs
        refine List.mem_flatMap.mpr ⟨f, hf, ?_⟩
        exact List.mem_append_left _ (List.mem_map_of_mem ArgDef.type ha)
      · apply hrefs
        refine List.mem_flatMap.mpr ⟨f, hf, ?_⟩
        exact List.mem_append_right _ (by simp)
    rcases hhf : healFieldList σ bf fields Mt with ⟨M1, fields2⟩
    obtain ⟨hf2, hmid1, ⟨X1, hX1⟩⟩ :=
      healFieldList_id σ bf M ids hok hau fields Mt hfl hmid
    rw [hhf] at hf2 hmid1 hX1
    have hres : healDef σ bf (.iface fields) Mt = (M1, .iface fields2) := by
      simp only [healDef, hhf]
    refine ⟨?_, by rw [hres]; exact hmid1, ⟨X1, by rw [hres]; exact hX1⟩⟩
    rw [hres]
    show TypeDef.iface fields2 = .iface fields
    rw [show fields2 = fields from hf2]
  | union members =>
    rcases hhr : healRefList σ bf members Mt with ⟨M1, members2⟩
    obtain ⟨hm2, hmid1, ⟨X1, hX1⟩⟩ :=
      healRefList_id σ bf M ids hok hau members Mt hrefs hmid
    rw [hhr] at hm2 hmid1 hX1
    have hres : healDef σ bf (.union members) Mt = (M1, .union members2) := by
      simp only [healDef, hhr]
    refine ⟨?_, by rw [hres]; exact hmid1, ⟨X1, by rw [hres]; exact hX1⟩⟩
    rw [hres]
    show TypeDef.union members2 = .union members
    rw [show members2 = members from hm2]
  | inputObject fields =>
    have hfl : ∀ f ∈ fields, baseId f.2 ∈ ids := by
      intro f hf
      exact hrefs f.2 (List.mem_map_of_mem Prod.snd hf)
    rcases hhf : healInputFieldList σ bf fields Mt with ⟨M1, fields2⟩
    obtain ⟨hf2, hmid1, ⟨X1, hX1⟩⟩ :=
      healInputFieldList_id σ bf M ids hok hau fields Mt hfl hmid
    rw [hhf] at hf2 hmid1 hX1
    have hres : healDef σ bf (.inputObject fields) Mt =
        (M1, .inputObject fields2) := by
      simp only [healDef, hhf]
    refine ⟨?_, by rw [hres]; exact hmid1, ⟨X1, by rw [hres]; exact hX1⟩⟩
    rw [hres]
    show TypeDef.inputObject fields2 = .inputObject fields
    rw [show fields2 = fields from hf2]
  | scalar => exact ⟨rfl, hmid, ⟨[], by simp [healDef]⟩⟩
  | enum => exact ⟨rfl, hmid, ⟨[], by simp [healDef]⟩⟩

/-- On a healed state `healDirectives` keeps the directive list. -/
theorem healDirectives_id (σ : Store) (bf : TypeId → TypeId) (M : TypeMap)
    (ids : List TypeId)
    (hok : ∀ i ∈ ids, RefOKId σ bf M i)
    (hau : AbsentUniqueIds σ M ids) :
    ∀ (ds : List DirectiveDef) (Mt : TypeMap),
      (∀ r ∈ dirRefs ds, baseId r ∈ ids) → IdMid σ M Mt ids →
      (healDirectives σ bf ds Mt).2 = ds ∧
      IdMid σ M (healDirectives σ bf ds Mt).1 ids ∧
      (∃ X, (healDirectives σ bf ds Mt).1 = Mt ++ X) := by
  intro ds
  induction ds with
  | nil =>
    intro Mt _ hmid
    exact ⟨rfl, hmid, ⟨[], by simp [healDirectives]⟩⟩
  | cons d rest ih =>
    intro Mt hrefs hmid
    have hda : ∀ a ∈ d.args, baseId a.type ∈ ids := by
      intro a ha
      apply hrefs
      show a.type ∈ dirRefs (d :: rest)
      rw [dirRefs, List.flatMap_cons]
      exact List.mem_append_left _ (List.mem_map_of_mem ArgDef.type ha)
    have hdrest : ∀ r ∈ dirRefs rest, baseId r ∈ ids := by
      intro r hr
      apply hrefs
      show r ∈ dirRefs (d :: rest)
      rw [dirRefs, List.flatMap_cons]
      exact List.mem_append_right _ hr
    rcases hha : healArgs σ bf d.args Mt with ⟨M1, args2⟩
    obtain ⟨hargs2, hmid1, ⟨X1, hX1⟩⟩ :=
      healArgs_id σ bf M ids hok hau d.args Mt hda hmid
    rw [hha] at hargs2 hmid1 hX1
    rcases hrr : healDirectives σ bf rest M1 with ⟨M2r, rest2⟩
    obtain ⟨hr2, hmid2, ⟨X2, hX2⟩⟩ := ih M1 hdrest hmid1
    rw [hrr] at hr2 hmid2 hX2
    have hres : healDirectives σ bf (d :: rest) Mt =
        (M2r, { d with args := args2 } :: rest2) := by
      simp only [healDirectives, hha, hrr]
    refine ⟨?_, by rw [hres]; exact hmid2, ⟨X1 ++ X2,
      by rw [hres, show M2r = M1 ++ X2 from hX2, show M1 = Mt ++ X1 from hX1,
        List.append_assoc]⟩⟩
    rw [hres]
    show { d with args := args2 } :: rest2 = d :: rest
    rw [show args2 = d.args from hargs2, show rest2 = rest from hr2,
      show ({ d with args := d.args } : DirectiveDef) = d from rfl]

/-- On a healed state the heal loop rewrites nothing: the store comes
back unchanged and the map only gains re-registrations. -/
theorem healLoop_id (σ : Store) (bf : TypeId → TypeId) (M : TypeMap)
    (ids : List TypeId) (A : List (String × TypeId))
    (hok : ∀ i ∈ ids, RefOKId σ bf M i)
    (hau : AbsentUniqueIds σ M ids)
    (hgood : ∀ k i, hasKeyA A k = true → lookupTM M k = some (some i) →
      ∀ r ∈ refsOfDef (getObj σ i).defn, baseId r ∈ ids)
    (hA : ∀ q ∈ A, lookupTM M q.1 = some (some q.2)) :
    ∀ (ks : List String) (Mt : TypeMap), IdMid σ M Mt ids →
      (healLoop bf A ks σ Mt).1 = σ ∧
      IdMid σ M (healLoop bf A ks σ Mt).2 ids ∧
      (∃ X, (healLoop bf A ks σ Mt).2 = Mt ++ X) := by
  intro ks
  induction ks with
  | nil =>
    intro Mt hmid
    exact ⟨rfl, hmid, ⟨[], by simp [healLoop]⟩⟩
  | cons k rest ih =>
    intro Mt hmid
    by_cases hc : ¬ startsWithDunder k ∧ hasKeyA A k
    · cases hl : lookupTM Mt k with
      | some v =>
        cases v with
        | some i₀ =>
          obtain ⟨i1, hlA1⟩ := Option.isSome_iff_exists.mp hc.2
          have hmemA := lookupA_mem A k i1 hlA1
          have hlM : lookupTM M k = some (some i1) := hA _ hmemA
          obtain ⟨Aw, hMt, hAw⟩ := hmid
          have hlMt : lookupTM Mt k = some (some i1) := by
            rw [hMt]
            exact lookupTM_append_left M Aw _ _ hlM
          rw [hl] at hlMt
          have hi : i₀ = i1 := Option.some.inj (Option.some.inj hlMt)
          have hlM0 : lookupTM M k = some (some i₀) := by
            rw [hi]
            exact hlM
          have hrefs := hgood k i₀ hc.2 hlM0
          rcases hhd : healDef σ bf (getObj σ i₀).defn Mt with ⟨M1, d1⟩
          obtain ⟨hd1, hmid1, ⟨X1, hX1⟩⟩ :=
            healDef_id σ bf M ids hok hau (getObj σ i₀).defn Mt hrefs
              ⟨Aw, hMt, hAw⟩
          rw [hhd] at hd1 hmid1 hX1
          have hsd : setDef σ i₀ d1 = σ := by
            rw [show d1 = (getObj σ i₀).defn from hd1]
            exact setDef_self σ i₀ _ rfl
          have hstep : healLoop bf A (k :: rest) σ Mt =
              healLoop bf A rest σ M1 := by
            simp only [healLoop, if_pos hc, hl, hhd, hsd]
          obtain ⟨hσ2, hmid2, ⟨X2, hX2⟩⟩ := ih M1 hmid1
          rw [hstep]
          exact ⟨hσ2, hmid2, ⟨X1 ++ X2,
            by rw [hX2, show M1 = Mt ++ X1 from hX1, List.append_assoc]⟩⟩
        | none =>
          have hstep : healLoop bf A (k :: rest) σ Mt =
              healLoop bf A rest σ Mt := by
            simp only [healLoop, if_pos hc, hl]
          rw [hstep]
          exact ih Mt hmid
      | none =>
        have hstep : healLoop bf A (k :: rest) σ Mt =
            healLoop bf A rest σ Mt := by
          simp only [healLoop, if_pos hc, hl]
        rw [hstep]
        exact ih Mt hmid
    · have hstep : healLoop bf A (k :: rest) σ Mt =
          healLoop bf A rest σ Mt := by
        simp only [healLoop, if_neg hc]
      rw [hstep]
      exact ih Mt hmid

/-- On a healed state the dangling sweep restores the map exactly: the
map's own entries all carry actual names, and the re-registrations do
not. -/
theorem sweep_id (σ : Store) (M : TypeMap) (ids : List TypeId)
    (A : List (String × TypeId))
    (hnds : NoDunderStore σ) (hkn : KeysNamed σ M)
    (hndA : (A.map Prod.fst).Nodup)
    (hAce : A = consideredEntries σ M)
    (Aw : TypeMap)
    (hAw : ∀ p ∈ Aw, ∃ j, p.2 = some j ∧ j ∈ ids ∧
      (getObj σ j).name = p.1 ∧ lookupTM M p.1 = none)
    (hA : ∀ q ∈ A, lookupTM M q.1 = some (some q.2)) :
    sweepTM A (M ++ Aw) = M := by
  unfold sweepTM
  rw [List.filter_append]
  have hMkeep : M.filter
      (fun kv => startsWithDunder kv.1 || hasKeyA A kv.1) = M := by
    apply List.filter_eq_self.mpr
    intro kv hkv
    by_cases hdund : startsWithDunder kv.1
    · simp [hdund]
    · obtain ⟨i, hv, hname⟩ := hkn kv hkv (Bool.eq_false_iff.mpr hdund)
      have hkv2 : (kv.1, some i) ∈ M := by
        rw [show (kv.1, some i) = kv from by rw [← hv]]
        exact hkv
      have hmemC : ((getObj σ i).name, i) ∈ consideredEntries σ M :=
        (mem_consideredEntries σ M _ i).mpr
          ⟨kv.1, hkv2, Bool.eq_false_iff.mpr hdund, hnds i, rfl⟩
      have hlA : lookupA A ((getObj σ i).name) = some i :=
        mem_lookupA A _ i hndA (by rw [hAce]; exact hmemC)
      have hkeyA : hasKeyA A kv.1 = true := by
        rw [← hname]
        unfold hasKeyA
        rw [hlA]
        rfl
      simp [hkeyA]
  have hAwdrop : Aw.filter
      (fun kv => startsWithDunder kv.1 || hasKeyA A kv.1) = [] := by
    apply List.filter_eq_nil_iff.mpr
    intro p hp
    obtain ⟨j, hv, hjids, hjname, hlnone⟩ := hAw p hp
    have hd : startsWithDunder p.1 = false := by
      rw [← hjname]
      exact hnds j
    have hk : hasKeyA A p.1 = false := by
      cases hx : lookupA A p.1 with
      | none =>
        unfold hasKeyA
        rw [hx]
        rfl
      | some y =>
        exfalso
        have hmy := lookupA_mem A p.1 y hx
        have hly := hA _ hmy
        rw [hlnone] at hly
        cases hly
    simp [hd, hk]
  rw [hMkeep, hAwdrop, List.append_nil]

/-- On a healed state the whole pass is the identity. -/
theorem healPass_id (bf : TypeId → TypeId) (σ : Store) (M : TypeMap)
    (D : List DirectiveDef) (hH : Healed σ bf M D) (hnds : NoDunderStore σ) :
    healPass bf ⟨σ, M, D⟩ = .ok ⟨σ, M, D⟩ := by
  obtain ⟨hkn, hnd, hok, hau, hfix⟩ := hH
  have hcn : (consideredNames σ M).Nodup := consideredNames_nodup σ M hkn hnd
  have hba : buildActual σ M [] = .ok (consideredEntries σ M) :=
    buildActual_ok σ M [] (by simpa [consideredNames] using hcn)
  set A := consideredEntries σ M with hAdef
  set ids := healedIds σ M D with hidsdef
  have hndA : (A.map Prod.fst).Nodup := by
    rw [hAdef]
    simpa [consideredNames] using hcn
  have hA : ∀ q ∈ A, lookupTM M q.1 = some (some q.2) := by
    intro q hq
    rw [hAdef] at hq
    obtain ⟨n, i⟩ := q
    obtain ⟨k, hkm, hkd, _, hn⟩ := (mem_consideredEntries σ M n i).mp hq
    obtain ⟨i2, hv2, hname2⟩ := hkn (k, some i) hkm hkd
    have hi2 : i2 = i := (Option.some.inj hv2).symm
    subst hi2
    have hnk : n = k := by
      rw [← hn]
      exact hname2
    show lookupTM M n = some (some i2)
    rw [hnk]
    exact mem_lookupTM M k (some i2) hnd hkm
  have hre : readdActual M A = M := readd_self M A hA
  have hpass : healPass bf ⟨σ, M, D⟩ = .ok
      { σ := (healLoop bf A (keysOf (healDirectives σ bf D (readdActual M A)).1)
          σ (healDirectives σ bf D (readdActual M A)).1).1,
        M := sweepTM A (healLoop bf A
          (keysOf (healDirectives σ bf D (readdActual M A)).1)
          σ (healDirectives σ bf D (readdActual M A)).1).2,
        D := (healDirectives σ bf D (readdActual M A)).2 } :=
    healPass_eq bf ⟨σ, M, D⟩ A hba
  rw [hre] at hpass
  have hdirrefs : ∀ r ∈ dirRefs D, baseId r ∈ ids := by
    intro r hr
    rw [hidsdef]
    exact List.mem_map_of_mem baseId (List.mem_append_left _ hr)
  rcases hhd : healDirectives σ bf D M with ⟨M₃, D₃⟩
  obtain ⟨hD3, hmid3, _⟩ :=
    healDirectives_id σ bf M ids hok hau D M hdirrefs
      ⟨[], by simp, by intro q hq; simp at hq⟩
  rw [hhd] at hD3 hmid3
  have hgood : ∀ k i, hasKeyA A k = true → lookupTM M k = some (some i) →
      ∀ r ∈ refsOfDef (getObj σ i).defn, baseId r ∈ ids := by
    intro k i hkey hlk r hr
    obtain ⟨i2, hlA2⟩ := Option.isSome_iff_exists.mp hkey
    have hmem2 := lookupA_mem A k i2 hlA2
    have hkd : startsWithDunder k = false := by
      rw [hAdef] at hmem2
      obtain ⟨k2, _, _, hnd2, hn2⟩ := (mem_consideredEntries σ M k i2).mp hmem2
      rw [← hn2]
      exact hnd2
    have hmemM := lookupTM_mem M k (some i) hlk
    rw [hidsdef]
    apply List.mem_map_of_mem baseId
    apply List.mem_append_right
    exact List.mem_flatMap.mpr ⟨(k, some i), hmemM, by simpa [hkd] using hr⟩
  rcases hloop : healLoop bf A (keysOf M₃) σ M₃ with ⟨σ₄, M₄⟩
  obtain ⟨hσ4, hmid4, _⟩ :=
    healLoop_id σ bf M ids A hok hau hgood hA (keysOf M₃) M₃ hmid3
  rw [hloop] at hσ4 hmid4
  obtain ⟨Aw4, hM4, hAw4⟩ := hmid4
  have hsweep : sweepTM A M₄ = M := by
    rw [show M₄ = M ++ Aw4 from hM4]
    exact sweep_id σ M ids A hnds hkn hndA hAdef Aw4 hAw4 hA
  have hM3f : (healDirectives σ bf D M).1 = M₃ := by rw [hhd]
  have hD3f : (healDirectives σ bf D M).2 = D := by
    rw [hhd]
    exact hD3
  rw [hM3f, hD3f] at hpass
  have hσf : (healLoop bf A (keysOf M₃) σ M₃).1 = σ := by
    rw [hloop]
    exact hσ4
  have hMf : sweepTM A (healLoop bf A (keysOf M₃) σ M₃).2 = M := by
    rw [hloop]
    exact hsweep
  rw [hσf, hMf] at hpass
  exact hpass

/-- On a healed state the whole `healTypes` run (any positive fuel)
returns the state unchanged. -/
theorem healTypes_id (bf : TypeId → TypeId) (s : HState)
    (hH : Healed s.σ bf s.M s.D) (hnds : NoDunderStore s.σ) :
    ∀ g, healTypes bf (g + 1) s false = .ok s := by
  intro g
  obtain ⟨σ, M, D⟩ := s
  have hpass : healPass bf ⟨σ, M, D⟩ = .ok ⟨σ, M, D⟩ :=
    healPass_id bf σ M D hH hnds
  have hfix : pruneStep σ M = (M, false) := hH.2.2.2.2
  have hrun : healTypes bf (g + 1) (⟨σ, M, D⟩ : HState) false =
      (if (pruneStep σ M).2 then
        healTypes bf g ⟨σ, (pruneStep σ M).1, D⟩ false
      else .ok ⟨σ, (pruneStep σ M).1, D⟩) := by
    rw [healTypes_succ, hpass]
    rfl
  rw [hrun, hfix]
  rfl

/-- C1 (amended): healing is idempotent on well-formed inputs — no
`__`-prefixed type names in the store, duplicate-free type-map keys, and
stub placeholders resolving to non-stub built-ins of the same name.
Whenever `healTypes` succeeds on such a state, running it again on its
output succeeds at any positive fuel and returns the output unchanged.
(Without the `__` restriction the counterexample `heal_not_idempotent`
applies: a second heal can permanently register a `__`-named type that
the first heal swept away.) -/
theorem healTypes_idempotent_amended (bf : TypeId → TypeId) (s s₁ : HState)
    (hnds : NoDunderStore s.σ) (hswf : StubWF s.σ bf) (hknd : KeysNodup s.M)
    (f : Nat) (h₁ : healTypes bf f s false = .ok s₁) :
    ∀ g, healTypes bf (g + 1) s₁ false = .ok s₁ := by
  obtain ⟨hH, hnds1, _, _⟩ := healTypes_estab bf f s s₁ hnds hswf hknd h₁
  exact healTypes_id bf s₁ hH hnds1

/-- Witness for the amended C1 theorem at a concrete schema: `c2In`
heals to `c2Out`, and healing `c2Out` again returns it unchanged. -/
theorem healTypes_idempotent_amended_witness :
    healTypes id 2 c2Out false = .ok c2Out := by
  have hnds : NoDunderStore c2In.σ := by
    intro i
    show startsWithDunder (getObj c2Store i).name = false
    match i with
    | 0 => rfl
    | 1 => rfl
    | n + 2 =>
      rw [getObj_out_of_range c2Store (n + 2) (Nat.le_add_left 2 n)]
      rfl
  have hswf : StubWF c2In.σ id := by
    intro i
    refine ⟨?_, rfl⟩
    show (getObj c2Store i).stub = false
    match i with
    | 0 => rfl
    | 1 => rfl
    | n + 2 =>
      rw [getObj_out_of_range c2Store (n + 2) (Nat.le_add_left 2 n)]
      rfl
  have h₁ : healTypes id 3 c2In false = .ok c2Out := by decide
  exact healTypes_idempotent_amended id c2In c2Out hnds hswf
    (by decide : (keysOf c2In.M).Nodup) 3 h₁ 1

end GraphQLTools
